import Mathlib

/-! # svg-path-bytestream: the encoder (`lib/encode.js`) and decoder (`lib/decode.js`)

A shallow embedding of the two library modules and of the part of the JavaScript host
they rely on (Number arithmetic, `parseFloat`, `Math.round`, typed arrays, `DataView`).

* JavaScript Numbers are IEEE-754 binary64 values.  A finite value is kept as a sign and
  the *ordinal* of its magnitude, `ord = E * 2^52 + F` (biased exponent field `E`,
  fraction field `F`), i.e. the low 63 bits of its bit pattern.  Ordinals are ordered
  like the magnitudes they denote, which keeps rounding and comparison simple.
* Generators are modelled by the list of items they yield together with the error that
  aborted them, if any (`Gen`).
* Typed-array chunks are modelled by their bytes on a little-endian host, which is the
  byte order `decode` reads (`method.call(view, i, true)`).
-/

namespace Host

/-! ## IEEE-754 binary formats -/

/-- Parameters of a binary interchange format: fraction bits and exponent bits. -/
structure Fmt where
  fb : Nat
  eb : Nat
deriving DecidableEq, Repr

/-- The binary64 format of JavaScript Numbers. -/
def b64 : Fmt := ⟨52, 11⟩

/-- The binary32 format of `Float32Array` elements. -/
def b32 : Fmt := ⟨23, 8⟩

/-- Ordinal of infinity: exponent field all ones, fraction zero. -/
def Fmt.infOrd (f : Fmt) : Nat := (2 ^ f.eb - 1) * 2 ^ f.fb

/-- Every finite magnitude is `scaled ord / unit`; `unit = 2^1074` for binary64. -/
@[irreducible] def Fmt.unit (f : Fmt) : Nat := 2 ^ (2 ^ (f.eb - 1) - 2 + f.fb)

/-- Magnitude of the value with ordinal `n`, in multiples of `1 / unit`:
subnormals (`E = 0`) are `F`, normals are `(2^fb + F) * 2^(E-1)`. -/
def Fmt.scaled (f : Fmt) (n : Nat) : Nat :=
  if n / 2 ^ f.fb = 0 then n % 2 ^ f.fb
  else (2 ^ f.fb + n % 2 ^ f.fb) * 2 ^ (n / 2 ^ f.fb - 1)

/-- A floating-point datum: NaN, a signed infinity, or a signed finite value given by the
ordinal of its magnitude. -/
inductive Flt where
  | nan
  | inf (neg : Bool)
  | fin (neg : Bool) (ord : Nat)
deriving DecidableEq, Repr

/-- Greatest ordinal below `2^i + n` (searching bit by bit from bit `i-1` down) whose
value is at most `a / (b * unit)`; `a` is the numerator already multiplied by `unit`. -/
@[irreducible] def floorOrd (f : Fmt) (a b : Nat) : Nat → Nat → Nat
  | 0, n => n
  | i + 1, n =>
    if f.scaled (n + 2 ^ i) * b ≤ a then floorOrd f a b i (n + 2 ^ i)
    else floorOrd f a b i n

/-- `eager n k` is `k n`; it is written by cases on `n` so that evaluating it computes
`n` once, before `k` uses it. -/
def eager {α : Type} (n : Nat) (k : Nat → α) : α :=
  match n with
  | 0 => k 0
  | m + 1 => k (m + 1)

/-- Ordinal of `num / den` rounded to nearest, ties to the even ordinal: with `n` the
floor ordinal and `mid` the sum of the values at `n` and `n + 1` (both as multiples
of `1 / (den * unit)`), the target is below, above or at the midpoint. -/
@[irreducible] def roundOrd (f : Fmt) (num den : Nat) : Nat :=
  eager (num * f.unit) fun a =>
  eager (floorOrd f a den (f.fb + f.eb) 0) fun n =>
  eager ((f.scaled n + f.scaled (n + 1)) * den) fun mid =>
  if 2 * a < mid then n
  else if mid < 2 * a then n + 1
  else if n % 2 = 0 then n else n + 1

/-- The datum of format `f` nearest to `± num / den` (round to nearest, ties to even,
overflow to infinity). -/
def Fmt.round (f : Fmt) (neg : Bool) (num den : Nat) : Flt :=
  eager (roundOrd f num den) fun n => if n < f.infOrd then .fin neg n else .inf neg

/-- Bit pattern of a datum (sign bit on top of the ordinal); NaN is the quiet NaN. -/
def Fmt.bits (f : Fmt) : Flt → Nat
  | .nan => f.infOrd + 2 ^ (f.fb - 1)
  | .inf neg => (if neg then 2 ^ (f.fb + f.eb) else 0) + f.infOrd
  | .fin neg n => (if neg then 2 ^ (f.fb + f.eb) else 0) + n

/-- The datum with a given bit pattern. -/
def Fmt.ofBits (f : Fmt) (b : Nat) : Flt :=
  if b % 2 ^ (f.fb + f.eb) < f.infOrd then .fin (decide (b / 2 ^ (f.fb + f.eb) % 2 = 1)) (b % 2 ^ (f.fb + f.eb))
  else if b % 2 ^ (f.fb + f.eb) = f.infOrd then .inf (decide (b / 2 ^ (f.fb + f.eb) % 2 = 1))
  else .nan

/-! ## JavaScript Numbers -/

/-- A JavaScript Number. -/
abbrev JSNum := Flt

namespace JSNum

/-- The mathematical value of a finite Number (0 for NaN and the infinities). -/
def toRat : JSNum → ℚ
  | .fin neg n => (if neg then -1 else 1) * ((b64.scaled n : ℚ) / (b64.unit : ℚ))
  | _ => 0

/-- A Number is finite. -/
def isFinite : JSNum → Bool
  | .fin _ _ => true
  | _ => false

/-- A Number is a well-formed binary64 datum: finite ordinals stay below infinity. -/
def WF : JSNum → Prop
  | .fin _ n => n < b64.infOrd
  | _ => True

instance : DecidablePred WF := fun x => by
  cases x <;> unfold WF <;> infer_instance

/-- Signed magnitude of a finite Number in multiples of `1 / unit`. -/
def sint : JSNum → Int
  | .fin neg n => if neg then -(b64.scaled n : Int) else (b64.scaled n : Int)
  | _ => 0

/-- Position on the number line: the signed ordinal (both zeros at 0). -/
def key : JSNum → Int
  | .nan => 0
  | .inf neg => if neg then -(b64.infOrd : Int) else (b64.infOrd : Int)
  | .fin neg n => if neg then -(n : Int) else (n : Int)

/-- `Number.isNaN`. -/
def isNaN : JSNum → Bool
  | .nan => true
  | _ => false

/-- The Number nearest to an integer (exact below `2^53`). -/
def ofInt (k : Int) : JSNum := b64.round (decide (k < 0)) k.natAbs 1

/-- `a === b` on Numbers: NaN differs from everything, the two zeros are equal. -/
def strictEq (a b : JSNum) : Bool := !a.isNaN && !b.isNaN && decide (a.key = b.key)

/-- `a < b` on Numbers (false when either is NaN). -/
def lt (a b : JSNum) : Bool := !a.isNaN && !b.isNaN && decide (a.key < b.key)

/-- `a >= b` on Numbers (false when either is NaN). -/
def ge (a b : JSNum) : Bool := !a.isNaN && !b.isNaN && decide (b.key ≤ a.key)

/-- `a * b`. -/
def mul : JSNum → JSNum → JSNum
  | .nan, _ => .nan
  | _, .nan => .nan
  | .inf s, .inf t => .inf (xor s t)
  | .inf s, .fin t m => if m = 0 then .nan else .inf (xor s t)
  | .fin s n, .inf t => if n = 0 then .nan else .inf (xor s t)
  | .fin s n, .fin t m =>
    b64.round (xor s t) (b64.scaled n * b64.scaled m) (b64.unit * b64.unit)

/-- `a / b`. -/
def div : JSNum → JSNum → JSNum
  | .nan, _ => .nan
  | _, .nan => .nan
  | .inf _, .inf _ => .nan
  | .inf s, .fin t _ => .inf (xor s t)
  | .fin s _, .inf t => .fin (xor s t) 0
  | .fin s n, .fin t m =>
    if m = 0 then (if n = 0 then .nan else .inf (xor s t))
    else b64.round (xor s t) (b64.scaled n) (b64.scaled m)

/-- `a - b`. -/
def sub : JSNum → JSNum → JSNum
  | .nan, _ => .nan
  | _, .nan => .nan
  | .inf s, .inf t => if s = t then .nan else .inf s
  | .inf s, .fin _ _ => .inf s
  | .fin _ _, .inf t => .inf (!t)
  | .fin s n, .fin t m =>
    if sint (.fin s n) - sint (.fin t m) = 0 then .fin (s && !t) 0
    else b64.round (decide (sint (.fin s n) - sint (.fin t m) < 0))
      (sint (.fin s n) - sint (.fin t m)).natAbs b64.unit

/-- `Math.abs`. -/
def abs : JSNum → JSNum
  | .nan => .nan
  | .inf _ => .inf false
  | .fin _ n => .fin false n

/-- A finite Number is integral. -/
def isIntegral : JSNum → Bool
  | .fin _ n => decide (b64.scaled n % b64.unit = 0)
  | _ => false

/-- `Math.round`: non-finite and integral Numbers are returned as they are, values in
`(0, 0.5)` give `+0`, values in `[-0.5, 0)` give `-0`, and any other value gives
`floor(x + 0.5)`. -/
def round (x : JSNum) : JSNum :=
  match x with
  | .fin neg _ =>
    if x.isIntegral then x
    else if (2 * x.sint + b64.unit) / (2 * b64.unit) = 0 then .fin neg 0
    else ofInt ((2 * x.sint + b64.unit) / (2 * b64.unit))
  | _ => x

/-- The integer part of a Number, truncated toward zero (0 for NaN and infinities), as
used by the integer typed arrays. -/
def trunc : JSNum → Int
  | .fin neg n => if neg then -((b64.scaled n / b64.unit : Nat) : Int) else ((b64.scaled n / b64.unit : Nat) : Int)
  | _ => 0

end JSNum

/-! ## Strings to Numbers -/

/-- Decimal digit characters. -/
def isDigit (c : Char) : Bool := decide ('0' ≤ c) && decide (c ≤ '9')

/-- Value of a run of decimal digits. -/
def digitsValue (ds : List Char) : Nat :=
  ds.foldl (fun acc c => 10 * acc + (c.toNat - 48)) 0

/-- White space skipped by `parseFloat` before the literal. -/
def isWhite (c : Char) : Bool :=
  c = ' ' || c = '\t' || c = '\n' || c = '\r' || c.toNat = 11 || c.toNat = 12 || c.toNat = 160

/-- Value of an optional exponent part `[eE][+-]?digits` at the head of the input
(0 when there is no well-formed exponent part). -/
def exponentValue : List Char → Int
  | [] => 0
  | e :: r =>
    if e = 'e' ∨ e = 'E' then
      match r with
      | '-' :: d => -(digitsValue (d.takeWhile isDigit) : Int)
      | '+' :: d => (digitsValue (d.takeWhile isDigit) : Int)
      | d => (digitsValue (d.takeWhile isDigit) : Int)
    else 0

/-- `parseFloat`: the longest prefix (after white space) that is a decimal literal
`[+-]? (Infinity | digits [. digits?] [exponent] | . digits [exponent])`, correctly
rounded to a Number; NaN when there is no such prefix. -/
def parseFloat (s : String) : JSNum :=
  let cs := s.toList.dropWhile isWhite
  let neg := decide (cs.head? = some '-')
  let cs1 := match cs with
    | '-' :: r => r
    | '+' :: r => r
    | _ => cs
  if "Infinity".toList.isPrefixOf cs1 then .inf neg
  else
    let ip := cs1.takeWhile isDigit
    let r1 := cs1.dropWhile isDigit
    let fp := match r1 with
      | '.' :: r => r.takeWhile isDigit
      | _ => []
    let r2 := match r1 with
      | '.' :: r => r.dropWhile isDigit
      | _ => r1
    if ip = [] ∧ fp = [] then .nan
    else
      let e10 : Int := exponentValue r2 - fp.length
      if 0 ≤ e10 then b64.round neg (digitsValue (ip ++ fp) * 10 ^ e10.toNat) 1
      else b64.round neg (digitsValue (ip ++ fp)) (10 ^ (-e10).toNat)

/-! ## Typed arrays and `DataView` (little-endian host) -/

/-- The `w` little-endian bytes of `x mod 256^w`. -/
def leBytes : Nat → Nat → List Nat
  | 0, _ => []
  | w + 1, x => x % 256 :: leBytes w (x / 256)

/-- The unsigned integer with the given little-endian bytes. -/
def ofLeBytes : List Nat → Nat
  | [] => 0
  | b :: bs => b % 256 + 256 * ofLeBytes bs

/-- Conversion of a Number to a `bits`-wide integer element (`ToInt8` ... `ToUint32`):
truncate, then reduce modulo `2^bits`; the result is the unsigned bit pattern. -/
def toIntBits (bits : Nat) (x : JSNum) : Nat := (x.trunc % (2 ^ bits : Nat)).toNat

/-- Conversion of a Number to a `Float32Array` element. -/
def toFloat32 : JSNum → Flt
  | .nan => .nan
  | .inf s => .inf s
  | .fin s n => b32.round s (b64.scaled n) b64.unit

/-- The Number read back from a `Float32Array` element (exact). -/
def ofFloat32 : Flt → JSNum
  | .nan => .nan
  | .inf s => .inf s
  | .fin s n => b64.round s (b32.scaled n) b32.unit

/-- Bytes of `new Int8Array(xs)` / `new Uint8Array(xs)`. -/
def int8Bytes (xs : List JSNum) : List Nat := xs.flatMap (fun x => leBytes 1 (toIntBits 8 x))

/-- Bytes of `new Int16Array(xs)` / `new Uint16Array(xs)`. -/
def int16Bytes (xs : List JSNum) : List Nat := xs.flatMap (fun x => leBytes 2 (toIntBits 16 x))

/-- Bytes of `new Int32Array(xs)` / `new Uint32Array(xs)`. -/
def int32Bytes (xs : List JSNum) : List Nat := xs.flatMap (fun x => leBytes 4 (toIntBits 32 x))

/-- Elements of `new Float32Array(xs)`. -/
def Float32Array (xs : List JSNum) : List Flt := xs.map toFloat32

/-- Bytes of a `Float32Array`. -/
def float32Bytes (ys : List Flt) : List Nat := ys.flatMap (fun y => leBytes 4 (b32.bits y))

/-- Bytes of `new Float64Array(xs)`. -/
def float64Bytes (xs : List JSNum) : List Nat := xs.flatMap (fun x => leBytes 8 (b64.bits x))

/-- `DataView.prototype.getUint8/16/32` (little-endian) on exactly the bytes read. -/
def getUint (bytes : List Nat) : JSNum := JSNum.ofInt (ofLeBytes bytes)

/-- `DataView.prototype.getInt8/16/32` (little-endian) on exactly the bytes read. -/
def getInt (bytes : List Nat) : JSNum :=
  if 2 ^ (8 * bytes.length - 1) ≤ ofLeBytes bytes
  then JSNum.ofInt ((ofLeBytes bytes : Int) - (2 ^ (8 * bytes.length) : Nat))
  else JSNum.ofInt (ofLeBytes bytes)

/-- `DataView.prototype.getFloat32` (little-endian). -/
def getFloat32 (bytes : List Nat) : JSNum := ofFloat32 (b32.ofBits (ofLeBytes bytes))

/-- `DataView.prototype.getFloat64` (little-endian). -/
def getFloat64 (bytes : List Nat) : JSNum := b64.ofBits (ofLeBytes bytes)

end Host

/-! ## Generators -/

/-- The errors the two modules throw.  `rangeError` is the host `RangeError` raised by
`DataView` when a read (or the view itself) leaves the buffer. -/
inductive Err where
  | missingCommand
  | numberSyntax
  | arityMismatch
  | invalidFlag
  | unknownCommand
  | rangeError
deriving DecidableEq, Repr

/-- What a generator produces: the items yielded, in order, and the error that aborted
it, if one was thrown. -/
structure Gen (α : Type) where
  items : List α
  err : Option Err
deriving DecidableEq, Repr

namespace Gen

/-- A generator that yields `x` and then behaves like `g`. -/
def cons {α : Type} (x : α) (g : Gen α) : Gen α := ⟨x :: g.items, g.err⟩

/-- A generator that yields `xs` and then behaves like `g`. -/
def append {α : Type} (xs : List α) (g : Gen α) : Gen α := ⟨xs ++ g.items, g.err⟩

/-- Loop `for (const x of items) body(x)` followed by `rest`: the bodies run in order,
and the first body that throws ends the loop. -/
def forEach {α β : Type} (body : α → Gen β) (rest : Gen β) : List α → Gen β
  | [] => rest
  | x :: xs =>
    match (body x).err with
    | some e => ⟨(body x).items, some e⟩
    | none => append (body x).items (forEach body rest xs)

/-- A generator stage `for (const x of upstream) body(x)`: when the upstream throws,
the error surfaces after the items it had yielded have been processed. -/
def stage {α β : Type} (body : α → Gen β) (upstream : Gen α) : Gen β :=
  forEach body ⟨[], upstream.err⟩ upstream.items

end Gen

/-- `String.prototype.toUpperCase` (on the ASCII strings the modules handle). -/
def toUpperCase (s : String) : String := String.mk (s.toList.map Char.toUpper)

/-- `String.prototype.toLowerCase` (on the ASCII strings the modules handle). -/
def toLowerCase (s : String) : String := String.mk (s.toList.map Char.toLower)

/-- A path command `{type, values}`: its letter (with the arc flags appended between
`expandACommands` and `encodeCommand`) and its values. -/
structure Command where
  type : String
  values : List Host.JSNum
deriving DecidableEq, Repr

/-! ## Regular expressions (the fragment `FLOAT_RE` uses) -/

/-- Regular expressions over character classes with the greedy, backtracking operators
of the host. -/
inductive Re where
  | set (cs : List Char)
  | seq (a b : Re)
  | alt (a b : Re)
  | opt (a : Re)
  | star (a : Re)
  | plus (a : Re)

namespace Re

/-- Greedy iteration of a matcher `m`: try one more round (at most `fuel` rounds, each of
which consumes a character), and fall back to stopping here. -/
def iter (m : List Char → (List Char → Option (List Char)) → Option (List Char)) :
    Nat → List Char → (List Char → Option (List Char)) → Option (List Char)
  | 0, s, k => k s
  | fuel + 1, s, k => (m s (fun s1 => iter m fuel s1 k)).orElse (fun _ => k s)

/-- Backtracking match of `r` at the head of `s` with continuation `k`; the result is the
input left after the first successful way of matching, in the priority order of the
host (left alternative first, greedy quantifiers). -/
def run : Re → List Char → (List Char → Option (List Char)) → Option (List Char)
  | set _, [], _ => none
  | set cs, c :: s, k => if c ∈ cs then k s else none
  | seq a b, s, k => run a s (fun s1 => run b s1 k)
  | alt a b, s, k => (run a s k).orElse (fun _ => run b s k)
  | opt a, s, k => (run a s k).orElse (fun _ => k s)
  | star a, s, k => iter (run a) s.length s k
  | plus a, s, k => run a s (fun s1 => iter (run a) s1.length s1 k)

/-- The input left after matching `r` at the head of `s`, if it matches there. -/
def matchAt (r : Re) (s : List Char) : Option (List Char) := run r s some

end Re

namespace Encode

open Host

/-! ## `lib/encode.js` -/

/-- The two kinds of token. -/
inductive TokenType where
  | float
  | command
deriving DecidableEq, Repr

/-- A token of the path grammar. -/
structure Token where
  type : TokenType
  value : String
deriving DecidableEq, Repr

/-- The options of `encode`. -/
structure Options where
  factor : JSNum
  permissibleError : JSNum
deriving DecidableEq, Repr

/-- The default options `{ factor = 1, permissibleError = 0 }`. -/
def defaultOptions : Options := ⟨JSNum.ofInt 1, JSNum.ofInt 0⟩

/-- `RAW_ARG_COUNTS`. -/
def RAW_ARG_COUNTS (key : String) : Option Nat :=
  if key = "Z" then some 0
  else if key = "H" then some 1
  else if key = "V" then some 1
  else if key = "T" then some 2
  else if key = "M" then some 2
  else if key = "L" then some 2
  else if key = "Q" then some 4
  else if key = "S" then some 4
  else if key = "C" then some 6
  else if key = "A" then some 7
  else none

/-- `COMMAND_MASK`. -/
def COMMAND_MASK (key : String) : Option Nat :=
  if key = "H" then some (0b0001 <<< 4)
  else if key = "V" then some (0b0010 <<< 4)
  else if key = "T" then some (0b0011 <<< 4)
  else if key = "M" then some (0b0100 <<< 4)
  else if key = "L" then some (0b0101 <<< 4)
  else if key = "Q" then some (0b0110 <<< 4)
  else if key = "S" then some (0b0111 <<< 4)
  else if key = "A00" then some (0b1000 <<< 4)
  else if key = "A01" then some (0b1001 <<< 4)
  else if key = "A10" then some (0b1010 <<< 4)
  else if key = "A11" then some (0b1011 <<< 4)
  else if key = "C" then some (0b1110 <<< 4)
  else if key = "Z" then some (0b1111 <<< 4)
  else none

/-- The storage types named by `TYPE_MASK`. -/
inductive StorageType where
  | int8 | uint8 | int16 | uint16 | int32 | uint32 | float32 | float64
deriving DecidableEq, Repr

/-- `TYPE_MASK`. -/
def TYPE_MASK : StorageType → Nat
  | .int8 => 0b000
  | .uint8 => 0b001
  | .int16 => 0b010
  | .uint16 => 0b011
  | .int32 => 0b100
  | .uint32 => 0b101
  | .float32 => 0b110
  | .float64 => 0b111

/-- `COMMANDS`: the set of command letters. -/
def COMMANDS : List Char := "MmLlHhVvCcQqSsTtAaZz".toList

/-- Digits `[0-9]`. -/
def digits : Re := .set "0123456789".toList

/-- `FLOAT_RE`:
`/[MmLlHhVvCcQqSsTtAaZz]|[-+]?[0-9]*\.?[0-9]+(?:[Ee][-+]?[0-9]+)?/g`. -/
def FLOAT_RE : Re :=
  .alt (.set "MmLlHhVvCcQqSsTtAaZz".toList)
    (.seq (.opt (.set "-+".toList))
      (.seq (.star digits)
        (.seq (.opt (.set ".".toList))
          (.seq (.plus digits)
            (.opt (.seq (.set "Ee".toList)
              (.seq (.opt (.set "-+".toList)) (.plus digits))))))))

/-- `FLOAT_RE.exec` on the input that starts at `lastIndex` (given as the characters from
there on): the first position at which the expression matches, searched left to
right for at most `fuel` positions; returns the matched text and the input after it. -/
def exec : Nat → List Char → Option (List Char × List Char)
  | 0, _ => none
  | _ + 1, [] => none
  | fuel + 1, c :: s =>
    match FLOAT_RE.matchAt (c :: s) with
    | some rest => some ((c :: s).take ((c :: s).length - rest.length), rest)
    | none => exec fuel s

/-- The loop of `tokenizePath` on the input from `lastIndex` on; every token comes with
the number of characters left after it (the input length minus the new `lastIndex`). -/
def tokenizeLoop : Nat → List Char → List (Token × Nat)
  | 0, _ => []
  | fuel + 1, s =>
    match exec s.length s with
    | none => []
    | some (m, rest) =>
      (match m with
        | [c] => if c ∈ COMMANDS then (⟨.command, String.mk m⟩, rest.length)
                 else (⟨.float, String.mk m⟩, rest.length)
        | _ => (⟨.float, String.mk m⟩, rest.length)) ::
      tokenizeLoop fuel rest

/-- `tokenizePath(string)` run to the end, started with `FLOAT_RE.lastIndex = lastIndex`. -/
def tokenizePath (lastIndex : Nat) (string : String) : List Token :=
  (tokenizeLoop (string.toList.drop lastIndex).length (string.toList.drop lastIndex)).map Prod.fst

/-- The loop of `parseGroupedCommands`; `command` is the command being accumulated. -/
def parseGroupedLoop : Option Command → List Token → Gen Command
  | command, [] =>
    match command with
    | some c => ⟨[c], none⟩
    | none => ⟨[], none⟩
  | command, ⟨.command, value⟩ :: tokens =>
    match command with
    | some c => Gen.cons c (parseGroupedLoop (some ⟨value, []⟩) tokens)
    | none => parseGroupedLoop (some ⟨value, []⟩) tokens
  | command, ⟨.float, value⟩ :: tokens =>
    match command with
    | none => ⟨[], some .missingCommand⟩
    | some c =>
      if (parseFloat value).isNaN then ⟨[], some .numberSyntax⟩
      else parseGroupedLoop (some ⟨c.type, c.values ++ [parseFloat value]⟩) tokens

/-- `parseGroupedCommands(tokens)`. -/
def parseGroupedCommands (tokens : List Token) : Gen Command :=
  parseGroupedLoop none tokens

/-- The loop `for (let i = 0; i < values.length; i += argumentCount) yield
values.slice(i, i + argumentCount)` of `ungroupCommands`, from index `i`. -/
def sliceLoop (values : List JSNum) (argumentCount : Nat) : Nat → Nat → List (List JSNum)
  | 0, _ => []
  | fuel + 1, i =>
    if i < values.length then
      (values.drop i).take argumentCount :: sliceLoop values argumentCount fuel (i + argumentCount)
    else []

/-- The body of the loop of `ungroupCommands` for one grouped command.  A letter that is
not in `RAW_ARG_COUNTS` has an `undefined` count, for which one of the two length checks
throws. -/
def ungroupCommand (c : Command) : Gen Command :=
  match RAW_ARG_COUNTS (toUpperCase c.type) with
  | none => ⟨[], some .arityMismatch⟩
  | some argumentCount =>
    if argumentCount = 0 then
      if c.values.length > 0 then ⟨[], some .arityMismatch⟩
      else ⟨[⟨c.type, []⟩], none⟩
    else if c.values.length = 0 then ⟨[], some .arityMismatch⟩
    else if c.values.length % argumentCount ≠ 0 then ⟨[], some .arityMismatch⟩
    else ⟨(sliceLoop c.values argumentCount c.values.length 0).map (fun vs => ⟨c.type, vs⟩), none⟩

/-- `ungroupCommands(commands)`. -/
def ungroupCommands (commands : Gen Command) : Gen Command :=
  Gen.stage ungroupCommand commands

/-- `flag.toString(2)` for a flag that passed the `!== 0 && !== 1` checks. -/
def flagDigit (flag : JSNum) : String := if flag.strictEq (JSNum.ofInt 1) then "1" else "0"

/-- The body of the loop of `expandACommands` for one command: `values.splice(3, 2)`
removes the two flags, which must each be `0` or `1` (a missing one is `undefined`
and is rejected), and their binary digits are appended to the letter. -/
def expandACommand (command : Command) : Gen Command :=
  if command.type ≠ "A" ∧ command.type ≠ "a" then ⟨[command], none⟩
  else
    match (command.values.drop 3).take 2 with
    | [largeArcFlag, sweepFlag] =>
      if !largeArcFlag.strictEq (JSNum.ofInt 0) && !largeArcFlag.strictEq (JSNum.ofInt 1) then
        ⟨[], some .invalidFlag⟩
      else if !sweepFlag.strictEq (JSNum.ofInt 0) && !sweepFlag.strictEq (JSNum.ofInt 1) then
        ⟨[], some .invalidFlag⟩
      else
        ⟨[⟨command.type ++ flagDigit largeArcFlag ++ flagDigit sweepFlag,
            command.values.take 3 ++ command.values.drop 5⟩], none⟩
    | _ => ⟨[], some .invalidFlag⟩

/-- `expandACommands(commands)`. -/
def expandACommands (commands : Gen Command) : Gen Command :=
  Gen.stage expandACommand commands

/-- The callback of `a.every` in `numberArrayEquals`:
`epsilon === 0 ? num === b[i] : Math.abs(num - b[i]) < epsilon`. -/
def closeEnough (epsilon num bi : JSNum) : Bool :=
  if epsilon.strictEq (JSNum.ofInt 0) then num.strictEq bi
  else ((num.sub bi).abs).lt epsilon

/-- `numberArrayEquals(a, b, epsilon)`. -/
def numberArrayEquals (a b : List JSNum) (epsilon : JSNum) : Bool :=
  decide (a.length = b.length) && (List.zipWith (closeEnough epsilon) a b).all id

/-- `IS_UINT8`. -/
def IS_UINT8 (int : JSNum) : Bool := int.ge (JSNum.ofInt 0) && int.lt (JSNum.ofInt 256)

/-- `IS_UINT16`. -/
def IS_UINT16 (int : JSNum) : Bool := int.ge (JSNum.ofInt 0) && int.lt (JSNum.ofInt 65536)

/-- `IS_UINT32`. -/
def IS_UINT32 (int : JSNum) : Bool := int.ge (JSNum.ofInt 0) && int.lt (JSNum.ofInt 4294967296)

/-- `IS_INT8`. -/
def IS_INT8 (int : JSNum) : Bool := int.ge (JSNum.ofInt (-128)) && int.lt (JSNum.ofInt 128)

/-- `IS_INT16`. -/
def IS_INT16 (int : JSNum) : Bool := int.ge (JSNum.ofInt (-32768)) && int.lt (JSNum.ofInt 32768)

/-- `IS_INT32`. -/
def IS_INT32 (int : JSNum) : Bool :=
  int.ge (JSNum.ofInt (-2147483648)) && int.lt (JSNum.ofInt 2147483648)

/-- The header value `commandMask` of `encodeCommand`: the mask of the upper-cased type
(`undefined` behaves as 0 under `|`), with bit 3 set when the type is lower case. -/
def commandMask (type : String) : Nat :=
  if type = toLowerCase type then (COMMAND_MASK (toUpperCase type)).getD 0 ||| 0b1000
  else (COMMAND_MASK (toUpperCase type)).getD 0

/-- `new Uint8Array([x])`. -/
def headerChunk (x : Nat) : List Nat := [x % 256]

/-- The block guarded by `numberArrayEquals(floats, ints, error)` in `encodeCommand`: the
six integer candidates in the order they are tried; `none` when control falls out of
the block. -/
def integerChunks (mask : Nat) (ints : List JSNum) : Option (List (List Nat)) :=
  if ints.all IS_INT8 then
    some [headerChunk (mask ||| TYPE_MASK .int8), int8Bytes ints]
  else if ints.all IS_INT16 then
    some [headerChunk (mask ||| TYPE_MASK .int16), int16Bytes ints]
  else if ints.all IS_INT32 then
    some [headerChunk (mask ||| TYPE_MASK .int32), int32Bytes ints]
  else if ints.all IS_UINT8 then
    some [headerChunk (mask ||| TYPE_MASK .uint8), int8Bytes ints]
  else if ints.all IS_UINT16 then
    some [headerChunk (mask ||| TYPE_MASK .uint16), int16Bytes ints]
  else if ints.all IS_UINT32 then
    some [headerChunk (mask ||| TYPE_MASK .uint32), int32Bytes ints]
  else none

/-- The end of `encodeCommand`: `float32` when the values survive it within `error`,
`float64` otherwise. -/
def floatChunks (mask : Nat) (floats : List JSNum) (error : JSNum) : List (List Nat) :=
  if numberArrayEquals floats ((Float32Array floats).map ofFloat32) error then
    [headerChunk (mask ||| TYPE_MASK .float32), float32Bytes (Float32Array floats)]
  else
    [headerChunk (mask ||| TYPE_MASK .float64), float64Bytes floats]

/-- The scaled values `floats` of `encodeCommand`. -/
def scaledValues (values : List JSNum) (factor : JSNum) : List JSNum :=
  if !factor.strictEq (JSNum.ofInt 1) then values.map (fun float => float.mul factor)
  else values

/-- `encodeCommand({type, values}, {factor, permissibleError})`: the chunks it yields
(it never throws). -/
def encodeCommand (c : Command) (o : Options) : List (List Nat) :=
  if c.values.length = 0 then [headerChunk (commandMask c.type)]
  else
    match (if numberArrayEquals (scaledValues c.values o.factor)
              ((scaledValues c.values o.factor).map JSNum.round)
              (o.permissibleError.mul o.factor)
           then integerChunks (commandMask c.type) ((scaledValues c.values o.factor).map JSNum.round)
           else none) with
    | some chunks => chunks
    | none => floatChunks (commandMask c.type) (scaledValues c.values o.factor)
        (o.permissibleError.mul o.factor)

/-- `encode(string, {factor, permissibleError})`, started with
`FLOAT_RE.lastIndex = lastIndex` (0 when the module is fresh). -/
def encode (lastIndex : Nat) (string : String) (o : Options) : Gen (List Nat) :=
  Gen.stage (fun command => ⟨encodeCommand command o, none⟩)
    (expandACommands (ungroupCommands (parseGroupedCommands (tokenizePath lastIndex string))))

end Encode

namespace Decode

open Host

/-! ## `lib/decode.js` -/

/-- `COMMANDS`. -/
def COMMANDS : List Char := "_HVTMLQSAAAA__CZ".toList

/-- `ARGS` (the holes of the array literal are `none`). -/
def ARGS : List (Option Nat) :=
  [none, some 1, some 1, some 2, some 2, some 2, some 4, some 4,
   some 5, some 5, some 5, some 5, none, none, some 6, some 0]

/-- `MMAP`: the `DataView` getter for each type code, applied to the bytes it reads. -/
def MMAP (code : Nat) (bytes : List Nat) : JSNum :=
  match code with
  | 0 => getInt bytes
  | 1 => getUint bytes
  | 2 => getInt bytes
  | 3 => getUint bytes
  | 4 => getInt bytes
  | 5 => getUint bytes
  | 6 => getFloat32 bytes
  | _ => getFloat64 bytes

/-- `SMAP`. -/
def SMAP : List Nat := [1, 1, 2, 2, 4, 4, 4, 8]

/-- The loop `for (let j = 0; j < argCount; ++j, i += size) values[j] = method.call(view,
i, true) / factor` on the bytes from `i` on: the values and the bytes left, or `none`
when a read leaves the view (`RangeError`). -/
def readValues (code size : Nat) (factor : JSNum) : Nat → List Nat → Option (List JSNum × List Nat)
  | 0, bytes => some ([], bytes)
  | argCount + 1, bytes =>
    if bytes.length < size then none
    else
      match readValues code size factor argCount (bytes.drop size) with
      | none => none
      | some (values, rest) => some ((MMAP code (bytes.take size)).div factor :: values, rest)

/-- `values.splice(3, 0, x, y)`. -/
def splice3 (values : List JSNum) (x y : JSNum) : List JSNum :=
  values.take 3 ++ [x, y] ++ values.drop 3

/-- One record of `decode`, from its header `byte` (the result of `view.getUint8`) and
the bytes after it: the error thrown, or the command yielded and the bytes left. -/
def decodeRecord (factor : JSNum) (byte : Nat) (bytes : List Nat) : Except Err (Command × List Nat) :=
  if COMMANDS.getD (byte >>> 4) '_' = '_' then .error .unknownCommand
  else
    match readValues (byte &&& 0b111) (SMAP.getD (byte &&& 0b111) 0) factor
        ((ARGS.getD (byte >>> 4) none).getD 0) bytes with
    | none => .error .rangeError
    | some (values, rest) =>
      .ok (⟨if (byte >>> 3) &&& 1 = 1
              then toLowerCase (String.singleton (COMMANDS.getD (byte >>> 4) '_'))
              else String.singleton (COMMANDS.getD (byte >>> 4) '_'),
            if COMMANDS.getD (byte >>> 4) '_' = 'A' then
              splice3 values (JSNum.ofInt ((((byte >>> 4) &&& 0b11) >>> 1 : Nat) : Int))
                (JSNum.ofInt ((((byte >>> 4) &&& 0b11) &&& 1 : Nat) : Int))
            else values⟩, rest)

/-- The `while (i < byteLength)` loop of `decode` on the bytes of the view from `i` on;
every round consumes at least the header byte, so `fuel` rounds suffice for `fuel`
bytes. -/
def decodeLoop (factor : JSNum) : Nat → List Nat → Gen Command
  | 0, _ => ⟨[], none⟩
  | _ + 1, [] => ⟨[], none⟩
  | fuel + 1, byte :: bytes =>
    match decodeRecord factor (byte % 256) bytes with
    | .error e => ⟨[], some e⟩
    | .ok (command, rest) => Gen.cons command (decodeLoop factor fuel rest)

/-- `decode(buffer, byteOffset, byteLength, factor)`; the `DataView` constructor throws a
`RangeError` when the range leaves the buffer. -/
def decode (buffer : List Nat) (byteOffset byteLength : Nat) (factor : JSNum) : Gen Command :=
  if buffer.length < byteOffset + byteLength then ⟨[], some .rangeError⟩
  else decodeLoop factor byteLength ((buffer.drop byteOffset).take byteLength)

/-- `decode(buffer)` on a whole buffer with the given factor. -/
def decodeAll (buffer : List Nat) (factor : JSNum) : Gen Command :=
  decode buffer 0 buffer.length factor

end Decode

/-! ## Vocabulary of the specification

The definitions below follow the words of the specification; the theorems compare them
with the definitions above, which follow the code. -/

namespace Host

/-- The signed value belonging to a signed ordinal. -/
def sscaled (z : Int) : Int :=
  if z < 0 then -(b64.scaled z.natAbs : Int) else (b64.scaled z.natAbs : Int)

/-- A datum is well formed in format `f`: a finite ordinal stays below infinity. -/
def Flt.WFin (f : Fmt) : Flt → Prop
  | .fin _ n => n < f.infOrd
  | _ => True

end Host

namespace Spec

open Host Encode

/-- The command identities `encodeCommand` is given by `encode`: the letters other than
A/a, and A/a followed by the two flag digits. -/
def validTypes : List String :=
  ["H", "h", "V", "v", "T", "t", "M", "m", "L", "l", "Q", "q", "S", "s", "C", "c", "Z", "z",
   "A00", "A01", "A10", "A11", "a00", "a01", "a10", "a11"]

/-- The 20 command letters of the path grammar. -/
def letters : List String :=
  ["M", "m", "L", "l", "H", "h", "V", "v", "C", "c", "Q", "q", "S", "s", "T", "t", "A", "a",
   "Z", "z"]

/-- The command letter of an identity, without the flag digits. -/
def letter (type : String) : String := String.mk (type.toList.take 1)

/-- An identity is an arc (A or a with its flags). -/
def isArc (type : String) : Bool := letter type = "A" || letter type = "a"

/-- The identity is relative (lower-case letter). -/
def isRelative (type : String) : Bool := (type.toList.take 1).all Char.isLower

/-- Arity of a letter of the grammar, before flag extraction:
H/V 1, T/M/L 2, Q/S 4, C 6, A 7, Z 0. -/
def rawArity (type : String) : Nat :=
  match toUpperCase (letter type) with
  | "H" => 1 | "V" => 1 | "T" => 2 | "M" => 2 | "L" => 2
  | "Q" => 4 | "S" => 4 | "C" => 6 | "A" => 7 | _ => 0

/-- Number of payload values of an identity: the arity, 5 for arcs once the two flags
are extracted. -/
def arity (type : String) : Nat := if isArc type then 5 else rawArity type

/-- The large-arc flag carried by an arc identity. -/
def largeArc (type : String) : Nat := if type.toList.get? 1 = some '1' then 1 else 0

/-- The sweep flag carried by an arc identity. -/
def sweep (type : String) : Nat := if type.toList.get? 2 = some '1' then 1 else 0

/-- The 4-bit command code: H=1, V=2, T=3, M=4, L=5, Q=6, S=7, C=14, Z=15, and for an arc
`8 + 2 * largeArc + sweep`. -/
def commandCode (type : String) : Nat :=
  match toUpperCase (letter type) with
  | "H" => 1 | "V" => 2 | "T" => 3 | "M" => 4 | "L" => 5 | "Q" => 6 | "S" => 7
  | "C" => 14 | "Z" => 15
  | "A" => 8 + 2 * largeArc type + sweep type
  | _ => 0

/-- All eight storage types. -/
def storageTypes : List StorageType :=
  [.int8, .uint8, .int16, .uint16, .int32, .uint32, .float32, .float64]

/-- Code of a storage width in the header: int8=0, uint8=1, int16=2, uint16=3, int32=4,
uint32=5, float32=6, float64=7. -/
def widthCode : StorageType → Nat
  | .int8 => 0 | .uint8 => 1 | .int16 => 2 | .uint16 => 3
  | .int32 => 4 | .uint32 => 5 | .float32 => 6 | .float64 => 7

/-- Byte size of a storage type. -/
def width : StorageType → Nat
  | .int8 => 1 | .uint8 => 1 | .int16 => 2 | .uint16 => 2
  | .int32 => 4 | .uint32 => 4 | .float32 => 4 | .float64 => 8

/-- Byte size of the storage type named by a width code of the header. -/
def widthOfCode (code : Nat) : Nat :=
  match code with
  | 0 => 1 | 1 => 1 | 2 => 2 | 3 => 2 | 4 => 4 | 5 => 4 | 6 => 4 | _ => 8

/-- Number of payload values of the command named by a 4-bit command code:
H, V: 1; T, M, L: 2; Q, S: 4; the four arc codes: 5; C: 6; Z: 0. -/
def arityOfCode (code : Nat) : Nat :=
  match code with
  | 1 => 1 | 2 => 1 | 3 => 2 | 4 => 2 | 5 => 2 | 6 => 4 | 7 => 4
  | 8 => 5 | 9 => 5 | 10 => 5 | 11 => 5 | 14 => 6 | _ => 0

/-- The numeric range of an integer storage type (no range for the float types). -/
def range : StorageType → Option (Int × Int)
  | .int8 => some (-128, 127)
  | .uint8 => some (0, 255)
  | .int16 => some (-32768, 32767)
  | .uint16 => some (0, 65535)
  | .int32 => some (-2147483648, 2147483647)
  | .uint32 => some (0, 4294967295)
  | _ => none

/-- A Number lies in the numeric range of a storage type. -/
def inRange (t : StorageType) (x : JSNum) : Bool :=
  match range t with
  | some (lo, hi) => x.isFinite && decide ((lo : ℚ) ≤ x.toRat) && decide (x.toRat ≤ (hi : ℚ))
  | none => false

/-- The integer candidates in the order in which they are tried. -/
def integerCandidates : List StorageType := [.int8, .int16, .int32, .uint8, .uint16, .uint32]

/-- The range test the encoder applies for an integer storage type. -/
def rangeTest : StorageType → JSNum → Bool
  | .int8 => IS_INT8
  | .uint8 => IS_UINT8
  | .int16 => IS_INT16
  | .uint16 => IS_UINT16
  | .int32 => IS_INT32
  | .uint32 => IS_UINT32
  | _ => fun _ => false

/-- The payload of a record that stores the scaled values `floats` with type `t`: the
rounded values for the integer types, the values themselves for the float types. -/
def payloadBytes (t : StorageType) (floats : List JSNum) : List Nat :=
  match t with
  | .int8 => int8Bytes (floats.map JSNum.round)
  | .uint8 => int8Bytes (floats.map JSNum.round)
  | .int16 => int16Bytes (floats.map JSNum.round)
  | .uint16 => int16Bytes (floats.map JSNum.round)
  | .int32 => int32Bytes (floats.map JSNum.round)
  | .uint32 => int32Bytes (floats.map JSNum.round)
  | .float32 => float32Bytes (Float32Array floats)
  | .float64 => float64Bytes floats

/-- The values a decoder reads back from `payloadBytes t floats`, before it divides by
the factor. -/
def storedValues (t : StorageType) (floats : List JSNum) : List JSNum :=
  match t with
  | .float32 => floats.map (fun x => ofFloat32 (toFloat32 x))
  | .float64 => floats
  | _ => floats.map (fun x => JSNum.ofInt (JSNum.round x).trunc)

/-- The tests that hold when the encoder stores the scaled values `floats` with type `t`
under the tolerance `error`. -/
def Selected (t : StorageType) (floats : List JSNum) (error : JSNum) : Prop :=
  match t with
  | .float32 => numberArrayEquals floats (storedValues .float32 floats) error = true
  | .float64 => True
  | _ => numberArrayEquals floats (floats.map JSNum.round) error = true ∧
      (floats.map JSNum.round).all (rangeTest t) = true

end Spec

/-! ## More vocabulary of the specification -/

namespace Spec

open Host Encode

/-- A value is exactly 0 or 1, as a number (the negative zero is the number 0). -/
def isFlag (x : JSNum) : Bool :=
  x.isFinite && (decide (x.toRat = 0) || decide (x.toRat = 1))

/-- The binary digit of a flag value. -/
def flagBit (x : JSNum) : String := if x.toRat = 1 then "1" else "0"

end Spec

namespace Spec

/-- The command letter a 4-bit command code stands for: H=1, V=2, T=3, M=4, L=5, Q=6, S=7,
the arc command for 8 to 11, C=14, Z=15; `none` for a reserved code. -/
def codeLetter (code : Nat) : Option Char :=
  match code with
  | 1 => some 'H' | 2 => some 'V' | 3 => some 'T' | 4 => some 'M' | 5 => some 'L'
  | 6 => some 'Q' | 7 => some 'S'
  | 8 => some 'A' | 9 => some 'A' | 10 => some 'A' | 11 => some 'A'
  | 14 => some 'C' | 15 => some 'Z'
  | _ => none

/-- The codes of the 4-bit command field that are reserved. -/
def reservedCodes : List Nat := (List.range 16).filter (fun code => (codeLetter code).isNone)

end Spec

namespace Spec

/-- Number of payload bytes the header byte `b` declares: arity times width. -/
def payloadSize (b : Nat) : Nat := arityOfCode (b % 256 / 16) * widthOfCode (b % 256 % 8)

/-- The bytes `r` are one whole record: a header with a command code that is not
reserved, followed by exactly the payload bytes it declares. -/
def isWholeRecord (r : List Nat) : Bool :=
  match r with
  | [] => false
  | b :: payload => (codeLetter (b % 256 / 16)).isSome && decide (payload.length = payloadSize b)

/-- The bytes `r` are a truncated record: a header with a command code that is not
reserved, followed by fewer bytes than the payload it declares. -/
def isTruncatedRecord (r : List Nat) : Bool :=
  match r with
  | [] => false
  | b :: payload => (codeLetter (b % 256 / 16)).isSome && decide (payload.length < payloadSize b)

/-- The bytes `r` start with a header whose command code is reserved. -/
def isReservedRecord (r : List Nat) : Bool :=
  match r with
  | [] => false
  | b :: _ => (codeLetter (b % 256 / 16)).isNone

end Spec

namespace Encode

open Host

/-! ## The state of `FLOAT_RE` between calls

`FLOAT_RE` is one object of the module with the flag `g`: `exec` starts its search at
`FLOAT_RE.lastIndex`, leaves `lastIndex` at the end of the match it returns, and resets
it to 0 when it finds no match.  Indices count the characters of the string. -/

/-- The tokens of `tokenizePath(string)`, started with `FLOAT_RE.lastIndex = lastIndex`,
each with the value of `FLOAT_RE.lastIndex` after the call of `exec` that matched it. -/
def tokenizeStamped (lastIndex : Nat) (string : String) : List (Token × Nat) :=
  (tokenizeLoop (string.toList.drop lastIndex).length (string.toList.drop lastIndex)).map
    (fun p => (p.1, string.toList.length - p.2))

/-- The loop of `parseGroupedCommands` over the stamped tokens: every command yielded
comes with the value of `FLOAT_RE.lastIndex` at the moment it is yielded, and the result
ends with the error thrown, if any, and the value of `lastIndex` when the generator
returns or throws.  The loop ends when `exec` finds no further match, which resets
`lastIndex` to 0. -/
def parseGroupedStamped : Option Command → List (Token × Nat) →
    List (Command × Nat) × Option Err × Nat
  | command, [] =>
    match command with
    | some c => ([(c, 0)], none, 0)
    | none => ([], none, 0)
  | command, (⟨.command, value⟩, i) :: tokens =>
    match command with
    | some c =>
      ((c, i) :: (parseGroupedStamped (some ⟨value, []⟩) tokens).1,
        (parseGroupedStamped (some ⟨value, []⟩) tokens).2)
    | none => parseGroupedStamped (some ⟨value, []⟩) tokens
  | command, (⟨.float, value⟩, i) :: tokens =>
    match command with
    | none => ([], some .missingCommand, i)
    | some c =>
      if (parseFloat value).isNaN then ([], some .numberSyntax, i)
      else parseGroupedStamped (some ⟨c.type, c.values ++ [parseFloat value]⟩) tokens

/-- The consumer side of `encode`: the grouped commands are pulled one at a time, and the
first one for which `ungroupCommands` or `expandACommands` throws ends the run with
`lastIndex` as it was when that command was yielded (`encodeCommand` never throws);
otherwise the run ends when `parseGroupedCommands` does, with `final`. -/
def lastIndexLoop : List (Command × Nat) → Nat → Nat
  | [], final => final
  | (c, i) :: rest, final =>
    if (expandACommands (ungroupCommand c)).err.isSome then i else lastIndexLoop rest final

/-- The value of `FLOAT_RE.lastIndex` after `encode(string, options)`, started with
`FLOAT_RE.lastIndex = lastIndex`, has been iterated until it returned or threw. -/
def lastIndexAfter (lastIndex : Nat) (string : String) : Nat :=
  lastIndexLoop (parseGroupedStamped none (tokenizeStamped lastIndex string)).1
    (parseGroupedStamped none (tokenizeStamped lastIndex string)).2.2

end Encode

namespace Spec

open Host Encode

/-! ## The tokens of a path-data string, in the words of the specification -/

/-- The alphabet of command letters. -/
def letterChars : List Char :=
  ['M', 'm', 'L', 'l', 'H', 'h', 'V', 'v', 'C', 'c', 'S', 's', 'Q', 'q', 'T', 't', 'A', 'a',
   'Z', 'z']

/-- The decimal digits. -/
def digitChars : List Char := ['0', '1', '2', '3', '4', '5', '6', '7', '8', '9']

/-- Length of the longest run of digits at the head of the input. -/
def digitRun (s : List Char) : Nat :=
  (s.takeWhile (fun c => decide (c ∈ digitChars))).length

/-- Length of the exponent at the head of the input: `e` or `E`, an optional sign, and all
the digits that follow, at least one; 0 when there is no exponent. -/
def exponentLength (s : List Char) : Nat :=
  match s with
  | [] => 0
  | e :: t =>
    if e ∈ ['E', 'e'] then
      match t with
      | [] => 0
      | sg :: u =>
        if sg ∈ ['-', '+'] then (if digitRun u = 0 then 0 else 2 + digitRun u)
        else (if digitRun t = 0 then 0 else 1 + digitRun t)
    else 0

/-- Length of the unsigned numeric literal at the head of the input: all the digits
there, a fractional part (a point and all the digits that follow, at least one) if there
is one, and an exponent if there is one; the literal has at least one digit before the
exponent.  0 when there is no literal. -/
def unsignedLength (s : List Char) : Nat :=
  if (s.drop (digitRun s)).head? = some '.' ∧ digitRun (s.drop (digitRun s)).tail ≠ 0 then
    digitRun s + 1 + digitRun (s.drop (digitRun s)).tail +
      exponentLength ((s.drop (digitRun s)).tail.drop (digitRun (s.drop (digitRun s)).tail))
  else if digitRun s ≠ 0 then digitRun s + exponentLength (s.drop (digitRun s))
  else 0

/-- Length of the numeric literal at the head of the input: an optional sign and an
unsigned literal; 0 when there is no literal. -/
def literalLength (s : List Char) : Nat :=
  match s with
  | [] => 0
  | c :: t =>
    if c ∈ ['-', '+'] then (if unsignedLength t = 0 then 0 else 1 + unsignedLength t)
    else unsignedLength (c :: t)

/-- The tokens of the input, scanned from left to right; `inside` is the number of
characters that still belong to the match found last.  At a character outside a match, a
command letter is a command token, a numeric literal that starts there is a number
token, and a character at which neither starts is skipped. -/
def tokensFrom : Nat → List Char → List Token
  | _, [] => []
  | inside + 1, _ :: s => tokensFrom inside s
  | 0, c :: s =>
    if c ∈ letterChars then ⟨.command, String.mk [c]⟩ :: tokensFrom 0 s
    else
      match literalLength (c :: s) with
      | 0 => tokensFrom 0 s
      | n + 1 => ⟨.float, String.mk ((c :: s).take (n + 1))⟩ :: tokensFrom n s

/-- The tokens of a path-data string. -/
def tokens (s : String) : List Token := tokensFrom 0 s.toList

end Spec

/-! ## Facts about the floating-point model -/

namespace Host

theorem eager_eq {α : Type} (n : Nat) (k : Nat → α) : eager n k = k n := by
  cases n <;> rfl

theorem roundOrd_eq (f : Fmt) (num den : Nat) :
    roundOrd f num den =
      if 2 * (num * f.unit) <
          (f.scaled (floorOrd f (num * f.unit) den (f.fb + f.eb) 0) +
            f.scaled (floorOrd f (num * f.unit) den (f.fb + f.eb) 0 + 1)) * den
      then floorOrd f (num * f.unit) den (f.fb + f.eb) 0
      else if (f.scaled (floorOrd f (num * f.unit) den (f.fb + f.eb) 0) +
            f.scaled (floorOrd f (num * f.unit) den (f.fb + f.eb) 0 + 1)) * den <
          2 * (num * f.unit)
      then floorOrd f (num * f.unit) den (f.fb + f.eb) 0 + 1
      else if floorOrd f (num * f.unit) den (f.fb + f.eb) 0 % 2 = 0
      then floorOrd f (num * f.unit) den (f.fb + f.eb) 0
      else floorOrd f (num * f.unit) den (f.fb + f.eb) 0 + 1 := by
  simp only [roundOrd, eager_eq]

theorem Fmt.round_eq (f : Fmt) (neg : Bool) (num den : Nat) :
    f.round neg num den =
      if roundOrd f num den < f.infOrd then .fin neg (roundOrd f num den) else .inf neg := by
  simp only [Fmt.round, eager_eq]

theorem Fmt.scaled_succ (f : Fmt) (n : Nat) :
    f.scaled (n + 1) = f.scaled n + 2 ^ (n / 2 ^ f.fb - 1) := by
  unfold Fmt.scaled
  have hP : 0 < 2 ^ f.fb := by positivity
  generalize 2 ^ f.fb = P at hP ⊢
  have hdm := Nat.div_add_mod n P
  have hlt := Nat.mod_lt n hP
  by_cases h : n % P + 1 < P
  · have h12 : (n + 1) / P = n / P ∧ (n + 1) % P = n % P + 1 :=
      (Nat.div_mod_unique hP).2 ⟨by linarith, h⟩
    rw [h12.1, h12.2]
    by_cases hE : n / P = 0
    · simp [hE]
    · simp only [hE, if_false]; ring
  · have hF : n % P = P - 1 := by omega
    have h12 : (n + 1) / P = n / P + 1 ∧ (n + 1) % P = 0 :=
      (Nat.div_mod_unique hP).2 ⟨by
        have hr1 : n % P + 1 = P := by omega
        linarith, hP⟩
    rw [h12.1, h12.2]
    by_cases hE : n / P = 0
    · simp [hE, hF]; omega
    · obtain ⟨e, he⟩ : ∃ e, n / P = e + 1 := Nat.exists_eq_succ_of_ne_zero hE
      simp only [he, hF, Nat.add_sub_cancel, Nat.add_eq_zero, one_ne_zero, and_false, if_false,
        add_zero]
      have : P + (P - 1) + 1 = 2 * P := by omega
      calc P * 2 ^ (e + 1) = (P + (P - 1) + 1) * 2 ^ e := by rw [this, pow_succ]; ring
        _ = (P + (P - 1)) * 2 ^ e + 2 ^ e := by ring

theorem Fmt.scaled_lt_succ (f : Fmt) (n : Nat) : f.scaled n < f.scaled (n + 1) := by
  rw [f.scaled_succ]
  have : 0 < 2 ^ (n / 2 ^ f.fb - 1) := by positivity
  omega

theorem Fmt.scaled_strictMono (f : Fmt) : StrictMono f.scaled :=
  strictMono_nat_of_lt_succ f.scaled_lt_succ

theorem Fmt.scaled_zero (f : Fmt) : f.scaled 0 = 0 := by
  simp [Fmt.scaled]

/-- The bit-by-bit search returns the greatest ordinal in its window whose value does not
exceed the target. -/
theorem floorOrd_spec (f : Fmt) (a b : Nat) :
    ∀ (i n : Nat), f.scaled n * b ≤ a →
      f.scaled (floorOrd f a b i n) * b ≤ a ∧ n ≤ floorOrd f a b i n ∧
      floorOrd f a b i n < n + 2 ^ i ∧
      ∀ k, k < n + 2 ^ i → f.scaled k * b ≤ a → k ≤ floorOrd f a b i n := by
  intro i
  induction i with
  | zero =>
    intro n h
    have h0 : floorOrd f a b 0 n = n := by simp only [floorOrd]
    rw [h0]
    refine ⟨h, le_refl _, by simp, ?_⟩
    intro k hk _
    simp at hk
    omega
  | succ i ih =>
    intro n h
    simp only [floorOrd]
    by_cases hc : f.scaled (n + 2 ^ i) * b ≤ a
    · simp only [hc, if_true]
      obtain ⟨h1, h2, h3, h4⟩ := ih (n + 2 ^ i) hc
      refine ⟨h1, by omega, by rw [pow_succ]; omega, ?_⟩
      intro k hk hka
      exact h4 k (by rw [pow_succ] at hk; omega) hka
    · simp only [hc, if_false]
      obtain ⟨h1, h2, h3, h4⟩ := ih n h
      refine ⟨h1, h2, by rw [pow_succ]; omega, ?_⟩
      intro k hk hka
      apply h4 k _ hka
      by_contra hge
      have hle : n + 2 ^ i ≤ k := by omega
      have := f.scaled_strictMono.monotone hle
      exact hc (le_trans (Nat.mul_le_mul_right b this) hka)

/-- The floor ordinal of `num / den` in format `f`. -/
theorem floorOrd_top (f : Fmt) (a b : Nat) :
    f.scaled (floorOrd f a b (f.fb + f.eb) 0) * b ≤ a ∧
    floorOrd f a b (f.fb + f.eb) 0 < 2 ^ (f.fb + f.eb) ∧
    ∀ k, k < 2 ^ (f.fb + f.eb) → f.scaled k * b ≤ a → k ≤ floorOrd f a b (f.fb + f.eb) 0 := by
  have h := floorOrd_spec f a b (f.fb + f.eb) 0 (by simp [f.scaled_zero])
  simp only [zero_add] at h
  exact ⟨h.1, h.2.2.1, h.2.2.2⟩

theorem floorOrd_le_roundOrd (f : Fmt) (num den : Nat) :
    floorOrd f (num * f.unit) den (f.fb + f.eb) 0 ≤ roundOrd f num den := by
  rw [roundOrd_eq]
  split_ifs <;> omega

/-- Rounding is exact on representable values. -/
theorem roundOrd_exact (f : Fmt) (num den n : Nat) (hden : 0 < den)
    (hn : n < 2 ^ (f.fb + f.eb)) (h : num * f.unit = f.scaled n * den) :
    roundOrd f num den = n := by
  obtain ⟨h1, _, h3⟩ := floorOrd_top f (num * f.unit) den
  have hm : floorOrd f (num * f.unit) den (f.fb + f.eb) 0 = n := by
    apply le_antisymm
    · have := Nat.le_of_mul_le_mul_right (le_trans h1 (le_of_eq h)) hden
      exact f.scaled_strictMono.le_iff_le.1 this
    · exact h3 n hn (le_of_eq h.symm)
  rw [roundOrd_eq, hm]
  have hlt := f.scaled_lt_succ n
  have : 2 * (num * f.unit) < (f.scaled n + f.scaled (n + 1)) * den := by
    rw [h]
    nlinarith
  simp [this]

/-- A lower bound passes through rounding: a representable value not above the target
is not above the rounded target. -/
theorem roundOrd_mono_lower (f : Fmt) (num den k : Nat) (hk : k < 2 ^ (f.fb + f.eb))
    (h : f.scaled k * den ≤ num * f.unit) : k ≤ roundOrd f num den :=
  le_trans ((floorOrd_top f (num * f.unit) den).2.2 k hk h) (floorOrd_le_roundOrd f num den)

theorem Fmt.infOrd_lt (f : Fmt) : f.infOrd < 2 ^ (f.fb + f.eb) := by
  unfold Fmt.infOrd
  have h1 : 0 < 2 ^ f.eb := by positivity
  have h2 : 0 < 2 ^ f.fb := by positivity
  rw [pow_add, mul_comm (2 ^ f.fb)]
  exact Nat.mul_lt_mul_of_pos_right (by omega) h2

theorem Fmt.round_exact (f : Fmt) (neg : Bool) (num den n : Nat) (hden : 0 < den)
    (hn : n < f.infOrd) (h : num * f.unit = f.scaled n * den) :
    f.round neg num den = .fin neg n := by
  rw [Fmt.round_eq]
  rw [roundOrd_exact f num den n hden (lt_trans hn f.infOrd_lt) h]
  simp [hn]

end Host

namespace Host

/-! ### Constants of binary64 -/

theorem b64_unit : b64.unit = 2 ^ 1074 := by decide!

theorem b64_infOrd : b64.infOrd = 2047 * 2 ^ 52 := by decide!

theorem b64_unit_pos : 0 < b64.unit := by rw [b64_unit]; positivity

theorem b32_unit_pos : 0 < b32.unit := by unfold Fmt.unit; positivity

/-- Normal values: exponent field `e + 1`, fraction `F`. -/
theorem Fmt.scaled_normal (f : Fmt) (e F : Nat) (hF : F < 2 ^ f.fb) :
    f.scaled ((e + 1) * 2 ^ f.fb + F) = (2 ^ f.fb + F) * 2 ^ e := by
  unfold Fmt.scaled
  have hP : 0 < 2 ^ f.fb := by positivity
  have h12 : ((e + 1) * 2 ^ f.fb + F) / 2 ^ f.fb = e + 1 ∧ ((e + 1) * 2 ^ f.fb + F) % 2 ^ f.fb = F :=
    (Nat.div_mod_unique hP).2 ⟨by ring, hF⟩
  rw [h12.1, h12.2]
  simp

/-- Every value is a multiple of the spacing at its ordinal. -/
theorem Fmt.scaled_eq_mul (f : Fmt) (n : Nat) :
    ∃ M, M < 2 ^ (f.fb + 1) ∧ f.scaled n = M * 2 ^ (n / 2 ^ f.fb - 1) := by
  unfold Fmt.scaled
  have hP : 0 < 2 ^ f.fb := by positivity
  have hlt := Nat.mod_lt n hP
  by_cases hE : n / 2 ^ f.fb = 0
  · refine ⟨n % 2 ^ f.fb, by rw [pow_succ]; omega, ?_⟩
    simp [hE]
  · refine ⟨2 ^ f.fb + n % 2 ^ f.fb, by rw [pow_succ]; omega, ?_⟩
    simp [hE]

/-! ### Order: ordinals against values -/

theorem sscaled_strictMono : StrictMono sscaled := by
  intro a b hab
  unfold sscaled
  have hm := b64.scaled_strictMono
  have h0 := b64.scaled_zero
  by_cases ha : a < 0 <;> by_cases hb : b < 0 <;> simp only [ha, hb, if_true, if_false]
  · have : b.natAbs < a.natAbs := by omega
    have := hm this
    omega
  · have h1 : 0 < a.natAbs := by omega
    have := hm h1
    omega
  · omega
  · have : a.natAbs < b.natAbs := by omega
    have := hm this
    omega

theorem JSNum.sint_eq_sscaled (s : Bool) (n : Nat) :
    JSNum.sint (.fin s n) = sscaled (JSNum.key (.fin s n)) := by
  unfold JSNum.sint JSNum.key sscaled
  cases s
  · have : ¬ ((n : Int) < 0) := by omega
    simp [this]
  · by_cases hn : n = 0
    · subst hn; simp [b64.scaled_zero]
    · have : -(n : Int) < 0 := by omega
      simp [this]

theorem JSNum.toRat_eq_sint (s : Bool) (n : Nat) :
    JSNum.toRat (.fin s n) = (JSNum.sint (.fin s n) : ℚ) / (b64.unit : ℚ) := by
  unfold JSNum.toRat JSNum.sint
  cases s <;> simp [neg_div]

/-- On finite Numbers the order of the keys is the order of the values. -/
theorem JSNum.key_lt_iff (s t : Bool) (n m : Nat) :
    JSNum.key (.fin s n) < JSNum.key (.fin t m) ↔
      JSNum.toRat (.fin s n) < JSNum.toRat (.fin t m) := by
  rw [JSNum.toRat_eq_sint, JSNum.toRat_eq_sint, JSNum.sint_eq_sscaled, JSNum.sint_eq_sscaled]
  have hu : (0 : ℚ) < (b64.unit : ℚ) := by exact_mod_cast b64_unit_pos
  rw [div_lt_div_iff_of_pos_right hu, Int.cast_lt]
  exact sscaled_strictMono.lt_iff_lt.symm

theorem JSNum.key_le_iff (s t : Bool) (n m : Nat) :
    JSNum.key (.fin s n) ≤ JSNum.key (.fin t m) ↔
      JSNum.toRat (.fin s n) ≤ JSNum.toRat (.fin t m) := by
  rw [JSNum.toRat_eq_sint, JSNum.toRat_eq_sint, JSNum.sint_eq_sscaled, JSNum.sint_eq_sscaled]
  have hu : (0 : ℚ) < (b64.unit : ℚ) := by exact_mod_cast b64_unit_pos
  rw [div_le_div_iff_of_pos_right hu, Int.cast_le]
  exact sscaled_strictMono.le_iff_le.symm

theorem JSNum.key_eq_iff (s t : Bool) (n m : Nat) :
    JSNum.key (.fin s n) = JSNum.key (.fin t m) ↔
      JSNum.toRat (.fin s n) = JSNum.toRat (.fin t m) := by
  constructor
  · intro h
    exact le_antisymm ((JSNum.key_le_iff _ _ _ _).1 (le_of_eq h))
      ((JSNum.key_le_iff _ _ _ _).1 (le_of_eq h.symm))
  · intro h
    exact le_antisymm ((JSNum.key_le_iff _ _ _ _).2 (le_of_eq h))
      ((JSNum.key_le_iff _ _ _ _).2 (le_of_eq h.symm))

end Host

namespace Host

/-! ### Integers as Numbers -/

/-- Every integer below `2^53` in magnitude is a binary64 value. -/
theorem exists_ord_of_nat (K : Nat) (hK : K < 2 ^ 53) :
    ∃ n, n < b64.infOrd ∧ b64.scaled n = K * b64.unit := by
  have hfb : b64.fb = 52 := rfl
  have heb : b64.eb = 11 := rfl
  rcases Nat.eq_zero_or_pos K with h0 | hpos
  · exact ⟨0, by rw [b64_infOrd]; positivity, by simp [h0, b64.scaled_zero]⟩
  obtain ⟨h1, h2, h3⟩ := floorOrd_top b64 (K * b64.unit) 1
  generalize floorOrd b64 (K * b64.unit) 1 (b64.fb + b64.eb) 0 = n at h1 h2 h3
  rw [hfb, heb] at h2 h3
  rw [mul_one] at h1
  simp only [mul_one] at h3
  have hUpos := b64_unit_pos
  -- the ordinal is a normal one
  have hA : 2 ^ 52 ≤ n := by
    apply h3 (2 ^ 52) (by norm_num)
    have : b64.scaled (2 ^ 52) = 2 ^ 52 := by decide!
    rw [this, b64_unit]
    calc 2 ^ 52 ≤ 2 ^ 1074 := Nat.pow_le_pow_right (by decide) (by decide)
      _ = 1 * 2 ^ 1074 := (one_mul _).symm
      _ ≤ K * 2 ^ 1074 := Nat.mul_le_mul_right _ hpos
  have hB : n < 1076 * 2 ^ 52 := by
    by_contra hge
    have hle : 1076 * 2 ^ 52 ≤ n := not_lt.1 hge
    have hmono := b64.scaled_strictMono.monotone hle
    have : b64.scaled (1076 * 2 ^ 52) = 2 ^ 52 * 2 ^ 1075 := by decide!
    rw [this] at hmono
    have hlt : K * b64.unit < 2 ^ 52 * 2 ^ 1075 := by
      rw [b64_unit]
      calc K * 2 ^ 1074 < 2 ^ 53 * 2 ^ 1074 := Nat.mul_lt_mul_of_pos_right hK (by positivity)
        _ = 2 ^ 52 * 2 ^ 1075 := by rw [← pow_add, ← pow_add]
    exact absurd (le_trans hmono h1) (not_le.2 hlt)
  have hC : K * b64.unit < b64.scaled (n + 1) := by
    by_contra hle
    have := h3 (n + 1) (lt_trans (Nat.succ_lt_succ hB) (by norm_num)) (not_lt.1 hle)
    exact absurd this (Nat.not_succ_le_self n)
  obtain ⟨M, _, hM⟩ := b64.scaled_eq_mul n
  rw [b64.scaled_succ, hM, hfb] at hC
  rw [hM, hfb] at h1
  have hE1 : 1 ≤ n / 2 ^ 52 := (Nat.one_le_div_iff (by positivity)).2 hA
  have hE2 : n / 2 ^ 52 < 1076 := (Nat.div_lt_iff_lt_mul (by positivity)).2 hB
  obtain ⟨e, he⟩ : ∃ e, n / 2 ^ 52 - 1 = e := ⟨_, rfl⟩
  have he' : e ≤ 1074 := by omega
  rw [he] at hC h1
  have hsplit : K * b64.unit = (K * 2 ^ (1074 - e)) * 2 ^ e := by
    rw [b64_unit, mul_assoc, ← pow_add]
    congr 2
    exact (Nat.sub_add_cancel he').symm
  rw [hsplit] at hC h1
  have hpe : 0 < 2 ^ e := by positivity
  have hle : M ≤ K * 2 ^ (1074 - e) := Nat.le_of_mul_le_mul_right h1 hpe
  have hlt : K * 2 ^ (1074 - e) < M + 1 := by
    have : K * 2 ^ (1074 - e) * 2 ^ e < (M + 1) * 2 ^ e := by rw [add_mul, one_mul]; exact hC
    exact Nat.lt_of_mul_lt_mul_right this
  have hMK : M = K * 2 ^ (1074 - e) := le_antisymm hle (Nat.lt_succ_iff.1 hlt)
  refine ⟨n, by rw [b64_infOrd]; exact lt_trans hB (by norm_num), ?_⟩
  rw [hM, hfb, he, hsplit, hMK]

/-- The Number of an integer below `2^53` in magnitude is that integer. -/
theorem JSNum.ofInt_spec (k : Int) (hk : k.natAbs < 2 ^ 53) :
    ∃ n, n < b64.infOrd ∧ b64.scaled n = k.natAbs * b64.unit ∧
      JSNum.ofInt k = .fin (decide (k < 0)) n := by
  obtain ⟨n, hn, hs⟩ := exists_ord_of_nat k.natAbs hk
  refine ⟨n, hn, hs, ?_⟩
  unfold JSNum.ofInt
  exact b64.round_exact _ _ _ n (by norm_num) hn (by rw [hs, mul_one])

theorem JSNum.toRat_ofInt (k : Int) (hk : k.natAbs < 2 ^ 53) :
    (JSNum.ofInt k).toRat = k := by
  obtain ⟨n, _, hs, he⟩ := JSNum.ofInt_spec k hk
  rw [he]
  show (if decide (k < 0) = true then -1 else 1) * ((b64.scaled n : ℚ) / (b64.unit : ℚ)) = k
  rw [hs]
  have hu : (b64.unit : ℚ) ≠ 0 := by exact_mod_cast (ne_of_gt b64_unit_pos)
  rw [Nat.cast_mul, mul_div_assoc, div_self hu, mul_one, Nat.cast_natAbs, Int.cast_abs]
  by_cases h : k < 0
  · have hq : (k : ℚ) < 0 := by exact_mod_cast h
    simp [h, abs_of_neg hq]
  · have hq : (0 : ℚ) ≤ (k : ℚ) := by exact_mod_cast (not_lt.1 h)
    simp [h, abs_of_nonneg hq]

theorem JSNum.ofInt_zero : JSNum.ofInt 0 = .fin false 0 := by decide!

theorem JSNum.ofInt_one : JSNum.ofInt 1 = .fin false (1023 * 2 ^ 52) := by decide!

theorem b64_scaled_one : b64.scaled (1023 * 2 ^ 52) = b64.unit := by decide!

/-- Dividing a Number by 1 returns it. -/
theorem JSNum.div_one (x : JSNum) (h : x.WF) : x.div (JSNum.ofInt 1) = x := by
  rw [JSNum.ofInt_one]
  cases x with
  | nan => rfl
  | inf s => simp [JSNum.div]
  | fin s n =>
    have hne : ¬ (1023 * 2 ^ 52 = 0) := by norm_num
    simp only [JSNum.div, hne, if_false, Bool.xor_false]
    exact b64.round_exact _ _ _ n (by rw [b64_scaled_one]; exact b64_unit_pos) h
      (by rw [b64_scaled_one])

theorem b64_scaled_eq_zero (n : Nat) (h : b64.scaled n = 0) : n = 0 := by
  by_contra hn
  have := b64.scaled_strictMono (Nat.pos_of_ne_zero hn)
  rw [b64.scaled_zero] at this
  omega

theorem JSNum.ofInt_signed (K n : Nat) (s : Bool)
    (hround : ∀ b, b64.round b K 1 = .fin b n) (hK0 : K = 0 ↔ n = 0) :
    JSNum.ofInt (if s then -(K : Int) else (K : Int)) = .fin (s && decide (n ≠ 0)) n := by
  unfold JSNum.ofInt
  cases s
  · simp only [Bool.false_eq_true, if_false, Int.natAbs_ofNat, Bool.false_and]
    rw [hround]
    have : ¬ ((K : Int) < 0) := by omega
    simp [this]
  · simp only [if_true, Int.natAbs_neg, Int.natAbs_ofNat, Bool.true_and]
    rw [hround]
    congr 1
    by_cases h0 : n = 0
    · have hz : K = 0 := hK0.2 h0
      subst hz h0
      simp
    · have hKpos : 0 < K := Nat.pos_of_ne_zero (fun h => h0 (hK0.1 h))
      simp only [h0, ne_eq, not_false_eq_true, decide_True, decide_eq_true_eq]
      omega

/-- Truncating an integral Number and converting back gives the same Number, except that
`-0` becomes `+0`. -/
theorem JSNum.ofInt_trunc (s : Bool) (n : Nat) (hn : n < b64.infOrd)
    (hint : JSNum.isIntegral (.fin s n) = true) :
    JSNum.ofInt (JSNum.trunc (.fin s n)) = .fin (s && decide (n ≠ 0)) n := by
  simp only [JSNum.isIntegral, decide_eq_true_eq] at hint
  have hK : b64.scaled n / b64.unit * b64.unit = b64.scaled n :=
    Nat.div_mul_cancel (Nat.dvd_of_mod_eq_zero hint)
  have hround : ∀ b, b64.round b (b64.scaled n / b64.unit) 1 = .fin b n := fun b =>
    b64.round_exact _ _ _ n (by norm_num) hn (by rw [hK, mul_one])
  have hK0 : b64.scaled n / b64.unit = 0 ↔ n = 0 := by
    constructor
    · intro h
      rw [h, zero_mul] at hK
      exact b64_scaled_eq_zero n hK.symm
    · intro h
      subst h
      rw [b64.scaled_zero]
      exact Nat.zero_div _
  exact JSNum.ofInt_signed _ n s hround hK0

end Host

namespace Host

/-! ### `Math.round` -/

/-- A Number that is not integral is below `2^52` in magnitude. -/
theorem b64_scaled_lt_of_not_integral (n : Nat) (h : b64.scaled n % b64.unit ≠ 0) :
    b64.scaled n < 2 ^ 52 * b64.unit := by
  obtain ⟨M, hM, hs⟩ := b64.scaled_eq_mul n
  have hfb : b64.fb = 52 := rfl
  rw [hfb] at hM hs
  generalize n / 2 ^ 52 - 1 = e at hs
  have he : e < 1074 := by
    by_contra hge
    have hge2 : 1074 ≤ e := not_lt.1 hge
    apply h
    rw [hs, b64_unit]
    apply Nat.mod_eq_zero_of_dvd
    exact Dvd.dvd.mul_left (pow_dvd_pow 2 hge2) M
  rw [hs, b64_unit]
  calc M * 2 ^ e < 2 ^ 53 * 2 ^ e := Nat.mul_lt_mul_of_pos_right hM (by positivity)
    _ ≤ 2 ^ 53 * 2 ^ 1073 := Nat.mul_le_mul_left _ (Nat.pow_le_pow_right (by decide) (Nat.le_of_lt_succ he))
    _ = 2 ^ 52 * 2 ^ 1074 := by rw [← pow_add, ← pow_add]

/-- `Math.round` of a finite Number is a finite, integral Number. -/
theorem JSNum.round_spec (s : Bool) (n : Nat) (hn : n < b64.infOrd) :
    ∃ s' n', JSNum.round (.fin s n) = .fin s' n' ∧ n' < b64.infOrd ∧
      JSNum.isIntegral (.fin s' n') = true := by
  unfold JSNum.round
  by_cases hint : JSNum.isIntegral (.fin s n) = true
  · exact ⟨s, n, by simp [hint], hn, hint⟩
  · simp only [hint, if_false, Bool.false_eq_true]
    by_cases hk0 : (2 * JSNum.sint (.fin s n) + (b64.unit : Int)) / (2 * (b64.unit : Int)) = 0
    · refine ⟨s, 0, by simp [hk0], by rw [b64_infOrd]; positivity, ?_⟩
      simp [JSNum.isIntegral, b64.scaled_zero]
    · simp only [hk0, if_false]
      have hlt : b64.scaled n < 2 ^ 52 * b64.unit := by
        apply b64_scaled_lt_of_not_integral
        simpa [JSNum.isIntegral] using hint
      have hU := b64_unit_pos
      have habs : (JSNum.sint (.fin s n)).natAbs < 2 ^ 52 * b64.unit := by
        unfold JSNum.sint
        cases s <;> simpa using hlt
      generalize JSNum.sint (.fin s n) = I at habs ⊢
      generalize b64.unit = U at habs hU ⊢
      have hUi : (0 : Int) < 2 * (U : Int) := by omega
      have hI1 : I < 2 ^ 52 * (U : Int) := by
        have : ((I.natAbs : Nat) : Int) < ((2 ^ 52 * U : Nat) : Int) := by exact_mod_cast habs
        push_cast at this
        omega
      have hI2 : -(2 ^ 52 * (U : Int)) < I := by
        have : ((I.natAbs : Nat) : Int) < ((2 ^ 52 * U : Nat) : Int) := by exact_mod_cast habs
        push_cast at this
        omega
      have hk1 : (2 * I + (U : Int)) / (2 * (U : Int)) < 2 ^ 52 + 1 := by
        apply Int.ediv_lt_of_lt_mul hUi
        nlinarith
      have hk2 : -(2 ^ 52 : Int) ≤ (2 * I + (U : Int)) / (2 * (U : Int)) := by
        apply Int.le_ediv_of_mul_le hUi
        nlinarith
      generalize (2 * I + (U : Int)) / (2 * (U : Int)) = k at hk1 hk2 ⊢
      obtain ⟨n', hn', hs', he⟩ := JSNum.ofInt_spec k (by omega)
      refine ⟨_, n', he, hn', ?_⟩
      simp [JSNum.isIntegral, hs']

/-! ### Bit patterns and bytes -/

theorem leBytes_length (w x : Nat) : (leBytes w x).length = w := by
  induction w generalizing x with
  | zero => rfl
  | succ w ih => simp [leBytes, ih]

theorem ofLeBytes_leBytes (w x : Nat) : ofLeBytes (leBytes w x) = x % 256 ^ w := by
  induction w generalizing x with
  | zero => simp [leBytes, ofLeBytes, Nat.mod_one]
  | succ w ih =>
    simp only [leBytes, ofLeBytes, ih, Nat.mod_mod]
    rw [pow_succ', Nat.mod_mul]

theorem ofLeBytes_leBytes_of_lt (w x : Nat) (h : x < 256 ^ w) :
    ofLeBytes (leBytes w x) = x := by
  rw [ofLeBytes_leBytes, Nat.mod_eq_of_lt h]

theorem Fmt.round_WFin (f : Fmt) (neg : Bool) (num den : Nat) :
    (f.round neg num den).WFin f := by
  rw [Fmt.round_eq]
  split_ifs with h
  · exact h
  · trivial

theorem Fmt.ofBits_bits (f : Fmt) (hfb : 0 < f.fb) (x : Flt) (h : x.WFin f) :
    f.ofBits (f.bits x) = x := by
  have hinf := f.infOrd_lt
  have hP : 0 < 2 ^ (f.fb + f.eb) := by positivity
  cases x with
  | nan =>
    unfold Fmt.bits Fmt.ofBits
    have h1 : 2 ^ (f.fb - 1) < 2 ^ f.fb := Nat.pow_lt_pow_right (by decide) (by omega)
    have h2 : f.infOrd + 2 ^ (f.fb - 1) < 2 ^ (f.fb + f.eb) := by
      unfold Fmt.infOrd
      have h3 : 1 ≤ 2 ^ f.eb := Nat.one_le_two_pow
      calc (2 ^ f.eb - 1) * 2 ^ f.fb + 2 ^ (f.fb - 1)
          < (2 ^ f.eb - 1) * 2 ^ f.fb + 2 ^ f.fb := by omega
        _ = (2 ^ f.eb - 1 + 1) * 2 ^ f.fb := by ring
        _ = 2 ^ (f.fb + f.eb) := by rw [Nat.sub_add_cancel h3, pow_add, mul_comm]
    have h4 : 0 < 2 ^ (f.fb - 1) := by positivity
    rw [Nat.mod_eq_of_lt h2]
    have h5 : ¬ (f.infOrd + 2 ^ (f.fb - 1) < f.infOrd) := by omega
    have h6 : ¬ (f.infOrd + 2 ^ (f.fb - 1) = f.infOrd) := by omega
    simp [h5, h6]
  | inf s =>
    unfold Fmt.bits Fmt.ofBits
    cases s
    · simp only [Bool.false_eq_true, if_false, zero_add, Nat.mod_eq_of_lt hinf, lt_irrefl,
        if_true, Nat.div_eq_of_lt hinf]
      simp
    · simp only [if_true, Nat.add_mod_left, Nat.mod_eq_of_lt hinf, lt_irrefl, if_false]
      have : (2 ^ (f.fb + f.eb) + f.infOrd) / 2 ^ (f.fb + f.eb) = 1 := by
        rw [Nat.add_div_left _ hP, Nat.div_eq_of_lt hinf]
      simp [this]
  | fin s n =>
    have hn : n < f.infOrd := h
    have hn2 : n < 2 ^ (f.fb + f.eb) := lt_trans hn hinf
    unfold Fmt.bits Fmt.ofBits
    cases s
    · simp only [Bool.false_eq_true, if_false, zero_add, Nat.mod_eq_of_lt hn2, hn, if_true,
        Nat.div_eq_of_lt hn2]
      simp
    · simp only [if_true, Nat.add_mod_left, Nat.mod_eq_of_lt hn2, hn]
      have : (2 ^ (f.fb + f.eb) + n) / 2 ^ (f.fb + f.eb) = 1 := by
        rw [Nat.add_div_left _ hP, Nat.div_eq_of_lt hn2]
      simp [this]

theorem Fmt.bits_lt (f : Fmt) (hfb : 0 < f.fb) (x : Flt) (h : x.WFin f) :
    f.bits x < 2 ^ (f.fb + f.eb + 1) := by
  have hinf := f.infOrd_lt
  have h1 : 2 ^ (f.fb - 1) < 2 ^ f.fb := Nat.pow_lt_pow_right (by decide) (by omega)
  have h2 : f.infOrd + 2 ^ (f.fb - 1) < 2 ^ (f.fb + f.eb) := by
    unfold Fmt.infOrd
    have h3 : 1 ≤ 2 ^ f.eb := Nat.one_le_two_pow
    calc (2 ^ f.eb - 1) * 2 ^ f.fb + 2 ^ (f.fb - 1)
        < (2 ^ f.eb - 1) * 2 ^ f.fb + 2 ^ f.fb := by omega
      _ = (2 ^ f.eb - 1 + 1) * 2 ^ f.fb := by ring
      _ = 2 ^ (f.fb + f.eb) := by rw [Nat.sub_add_cancel h3, pow_add, mul_comm]
  rw [pow_succ]
  cases x with
  | nan => simp only [Fmt.bits]; omega
  | inf s => simp only [Fmt.bits]; split_ifs <;> omega
  | fin s n =>
    have hn : n < f.infOrd := h
    simp only [Fmt.bits]; split_ifs <;> omega

end Host

namespace Host

/-! ### Values of integral Numbers and range tests -/

theorem JSNum.toRat_of_integral (s : Bool) (n : Nat)
    (hint : JSNum.isIntegral (.fin s n) = true) :
    JSNum.toRat (.fin s n) = ((JSNum.trunc (.fin s n) : Int) : ℚ) := by
  simp only [JSNum.isIntegral, decide_eq_true_eq] at hint
  have hK : b64.scaled n / b64.unit * b64.unit = b64.scaled n :=
    Nat.div_mul_cancel (Nat.dvd_of_mod_eq_zero hint)
  have hu : (b64.unit : ℚ) ≠ 0 := by exact_mod_cast (ne_of_gt b64_unit_pos)
  have hq : (b64.scaled n : ℚ) / (b64.unit : ℚ) = ((b64.scaled n / b64.unit : Nat) : ℚ) := by
    rw [div_eq_iff hu]
    exact_mod_cast hK.symm
  simp only [JSNum.toRat, JSNum.trunc, hq]
  generalize b64.scaled n / b64.unit = K
  cases s <;> simp

/-- The comparisons of the range tests, on values. -/
theorem JSNum.ge_ofInt_iff (s : Bool) (n : Nat) (k : Int) (hk : k.natAbs < 2 ^ 53) :
    JSNum.ge (.fin s n) (JSNum.ofInt k) = true ↔ (k : ℚ) ≤ JSNum.toRat (.fin s n) := by
  obtain ⟨m, _, _, he⟩ := JSNum.ofInt_spec k hk
  rw [← JSNum.toRat_ofInt k hk, he]
  simp only [JSNum.ge, JSNum.isNaN, Bool.not_false, Bool.true_and, decide_eq_true_eq]
  exact JSNum.key_le_iff _ _ _ _

theorem JSNum.lt_ofInt_iff (s : Bool) (n : Nat) (k : Int) (hk : k.natAbs < 2 ^ 53) :
    JSNum.lt (.fin s n) (JSNum.ofInt k) = true ↔ JSNum.toRat (.fin s n) < (k : ℚ) := by
  obtain ⟨m, _, _, he⟩ := JSNum.ofInt_spec k hk
  rw [← JSNum.toRat_ofInt k hk, he]
  simp only [JSNum.lt, JSNum.isNaN, Bool.not_false, Bool.true_and, decide_eq_true_eq]
  exact JSNum.key_lt_iff _ _ _ _

/-- A range test `int >= lo && int < hi` holds exactly for the finite Numbers whose value
lies in `[lo, hi)`. -/
theorem JSNum.range_test_iff (x : JSNum) (lo hi : Int) (hlo : lo.natAbs < 2 ^ 53)
    (hhi : hi.natAbs < 2 ^ 53) :
    (x.ge (JSNum.ofInt lo) && x.lt (JSNum.ofInt hi)) = true ↔
      x.isFinite = true ∧ (lo : ℚ) ≤ x.toRat ∧ x.toRat < (hi : ℚ) := by
  cases x with
  | nan => simp [JSNum.ge, JSNum.isNaN, JSNum.isFinite]
  | inf s =>
    obtain ⟨m, hm, _, he⟩ := JSNum.ofInt_spec lo hlo
    obtain ⟨m', hm', _, he'⟩ := JSNum.ofInt_spec hi hhi
    rw [he, he']
    simp only [JSNum.ge, JSNum.lt, JSNum.isNaN, JSNum.key, JSNum.isFinite, Bool.not_false,
      Bool.true_and, Bool.and_eq_true, decide_eq_true_eq, Bool.false_eq_true, false_and,
      iff_false, not_and, not_lt]
    intro h
    generalize b64.infOrd = I at *
    cases s <;> split_ifs at h ⊢ <;> omega
  | fin s n =>
    rw [Bool.and_eq_true, JSNum.ge_ofInt_iff s n lo hlo, JSNum.lt_ofInt_iff s n hi hhi]
    simp [JSNum.isFinite]

end Host

namespace Encode

open Host

theorem IS_INT8_iff (x : JSNum) :
    IS_INT8 x = true ↔ x.isFinite = true ∧ (-128 : ℚ) ≤ x.toRat ∧ x.toRat < 128 := by
  have := JSNum.range_test_iff x (-128) 128 (by decide) (by decide)
  simpa [IS_INT8] using this

theorem IS_INT16_iff (x : JSNum) :
    IS_INT16 x = true ↔ x.isFinite = true ∧ (-32768 : ℚ) ≤ x.toRat ∧ x.toRat < 32768 := by
  have := JSNum.range_test_iff x (-32768) 32768 (by decide) (by decide)
  simpa [IS_INT16] using this

theorem IS_INT32_iff (x : JSNum) :
    IS_INT32 x = true ↔
      x.isFinite = true ∧ (-2147483648 : ℚ) ≤ x.toRat ∧ x.toRat < 2147483648 := by
  have := JSNum.range_test_iff x (-2147483648) 2147483648 (by decide) (by decide)
  simpa [IS_INT32] using this

theorem IS_UINT8_iff (x : JSNum) :
    IS_UINT8 x = true ↔ x.isFinite = true ∧ (0 : ℚ) ≤ x.toRat ∧ x.toRat < 256 := by
  have := JSNum.range_test_iff x 0 256 (by decide) (by decide)
  simpa [IS_UINT8] using this

theorem IS_UINT16_iff (x : JSNum) :
    IS_UINT16 x = true ↔ x.isFinite = true ∧ (0 : ℚ) ≤ x.toRat ∧ x.toRat < 65536 := by
  have := JSNum.range_test_iff x 0 65536 (by decide) (by decide)
  simpa [IS_UINT16] using this

theorem IS_UINT32_iff (x : JSNum) :
    IS_UINT32 x = true ↔ x.isFinite = true ∧ (0 : ℚ) ≤ x.toRat ∧ x.toRat < 4294967296 := by
  have := JSNum.range_test_iff x 0 4294967296 (by decide) (by decide)
  simpa [IS_UINT32] using this

end Encode

namespace Host

/-! ### Typed arrays read back through `DataView` -/

theorem getInt_leBytes1 (k : Int) (h1 : -128 ≤ k) (h2 : k < 128) :
    getInt (leBytes 1 (k % ((2 ^ 8 : Nat) : Int)).toNat) = JSNum.ofInt k := by
  unfold getInt
  rw [leBytes_length, ofLeBytes_leBytes]
  norm_num
  split_ifs <;> congr 1 <;> omega

theorem getInt_leBytes2 (k : Int) (h1 : -32768 ≤ k) (h2 : k < 32768) :
    getInt (leBytes 2 (k % ((2 ^ 16 : Nat) : Int)).toNat) = JSNum.ofInt k := by
  unfold getInt
  rw [leBytes_length, ofLeBytes_leBytes]
  norm_num
  split_ifs <;> congr 1 <;> omega

theorem getInt_leBytes4 (k : Int) (h1 : -2147483648 ≤ k) (h2 : k < 2147483648) :
    getInt (leBytes 4 (k % ((2 ^ 32 : Nat) : Int)).toNat) = JSNum.ofInt k := by
  unfold getInt
  rw [leBytes_length, ofLeBytes_leBytes]
  norm_num
  split_ifs <;> congr 1 <;> omega

theorem getUint_leBytes1 (k : Int) (h1 : 0 ≤ k) (h2 : k < 256) :
    getUint (leBytes 1 (k % ((2 ^ 8 : Nat) : Int)).toNat) = JSNum.ofInt k := by
  unfold getUint
  rw [ofLeBytes_leBytes]
  norm_num
  congr 1
  omega

theorem getUint_leBytes2 (k : Int) (h1 : 0 ≤ k) (h2 : k < 65536) :
    getUint (leBytes 2 (k % ((2 ^ 16 : Nat) : Int)).toNat) = JSNum.ofInt k := by
  unfold getUint
  rw [ofLeBytes_leBytes]
  norm_num
  congr 1
  omega

theorem getUint_leBytes4 (k : Int) (h1 : 0 ≤ k) (h2 : k < 4294967296) :
    getUint (leBytes 4 (k % ((2 ^ 32 : Nat) : Int)).toNat) = JSNum.ofInt k := by
  unfold getUint
  rw [ofLeBytes_leBytes]
  norm_num
  congr 1
  omega

theorem getFloat32_leBytes (y : Flt) (h : y.WFin b32) :
    getFloat32 (leBytes 4 (b32.bits y)) = ofFloat32 y := by
  unfold getFloat32
  have hlt : b32.bits y < 256 ^ 4 := by
    have := b32.bits_lt (by decide) y h
    exact lt_of_lt_of_le this (by decide)
  rw [ofLeBytes_leBytes_of_lt _ _ hlt, b32.ofBits_bits (by decide) y h]

theorem JSNum.WF_iff_WFin (x : JSNum) : x.WF ↔ Flt.WFin b64 x := by
  cases x <;> exact Iff.rfl

theorem getFloat64_leBytes (x : JSNum) (h : x.WF) :
    getFloat64 (leBytes 8 (b64.bits x)) = x := by
  unfold getFloat64
  have hx : Flt.WFin b64 x := (JSNum.WF_iff_WFin x).1 h
  have hlt : b64.bits x < 256 ^ 8 := by
    have := b64.bits_lt (by decide) x hx
    exact lt_of_lt_of_le this (by decide)
  rw [ofLeBytes_leBytes_of_lt _ _ hlt, b64.ofBits_bits (by decide) x hx]

theorem toFloat32_WFin (x : JSNum) : (toFloat32 x).WFin b32 := by
  cases x with
  | nan => trivial
  | inf s => trivial
  | fin s n => exact b32.round_WFin _ _ _

theorem ofFloat32_WF (y : Flt) : (ofFloat32 y).WF := by
  cases y with
  | nan => trivial
  | inf s => trivial
  | fin s n =>
    exact (JSNum.WF_iff_WFin _).2 (b64.round_WFin s (b32.scaled n) b32.unit)

end Host

namespace Decode

open Host

/-- Reading back a payload made of one fixed-size element per value. -/
theorem readValues_flatMap {α : Type} (code size : Nat) (factor : JSNum) (enc : α → List Nat)
    (xs : List α) (rest : List Nat) (hlen : ∀ x ∈ xs, (enc x).length = size) :
    readValues code size factor xs.length (xs.flatMap enc ++ rest) =
      some (xs.map (fun x => (MMAP code (enc x)).div factor), rest) := by
  induction xs with
  | nil => simp [readValues]
  | cons x xs ih =>
    have hx : (enc x).length = size := hlen x (List.mem_cons_self _ _)
    have ih' := ih (fun y hy => hlen y (List.mem_cons_of_mem _ hy))
    simp only [List.flatMap_cons, List.length_cons, readValues, List.append_assoc]
    have h1 : ¬ ((enc x ++ (xs.flatMap enc ++ rest)).length < size) := by
      simp only [List.length_append, hx]; omega
    have h2 : (enc x ++ (xs.flatMap enc ++ rest)).drop size = xs.flatMap enc ++ rest := by
      rw [← hx]; exact List.drop_left _ _
    have h3 : (enc x ++ (xs.flatMap enc ++ rest)).take size = enc x := by
      rw [← hx]; exact List.take_left _ _
    simp only [h1, if_false, h2, h3, ih', List.map_cons]

theorem readValues_length (code size : Nat) (factor : JSNum) :
    ∀ (argCount : Nat) (bytes : List Nat) (values : List JSNum) (rest : List Nat),
      readValues code size factor argCount bytes = some (values, rest) →
      values.length = argCount ∧ bytes.length = argCount * size + rest.length := by
  intro argCount
  induction argCount with
  | zero =>
    intro bytes values rest h
    simp only [readValues, Option.some.injEq, Prod.mk.injEq] at h
    obtain ⟨h1, h2⟩ := h
    subst h1 h2
    simp
  | succ k ih =>
    intro bytes values rest h
    simp only [readValues] at h
    split_ifs at h with hlt
    cases hr : readValues code size factor k (bytes.drop size) with
    | none => simp [hr] at h
    | some p =>
      obtain ⟨vs, r⟩ := p
      simp only [hr, Option.some.injEq, Prod.mk.injEq] at h
      obtain ⟨h1, h2⟩ := h
      subst h1 h2
      obtain ⟨ih1, ih2⟩ := ih _ _ _ hr
      simp only [List.length_drop] at ih2
      refine ⟨by simp [ih1], ?_⟩
      have : (k + 1) * size = k * size + size := by ring
      omega

end Decode

namespace Encode

open Host

/-! ### The header byte -/

/-- The header of every identity and storage type, against the tables of the decoder. -/
theorem header_facts : ∀ ty ∈ Spec.validTypes, ∀ t ∈ Spec.storageTypes,
    (commandMask ty ||| TYPE_MASK t) < 256 ∧
    (commandMask ty ||| TYPE_MASK t) / 16 = Spec.commandCode ty ∧
    (commandMask ty ||| TYPE_MASK t) % 8 = Spec.widthCode t ∧
    (decide ((commandMask ty ||| TYPE_MASK t) / 8 % 2 = 1) = Spec.isRelative ty) ∧
    Decode.COMMANDS.getD ((commandMask ty ||| TYPE_MASK t) >>> 4) '_' ≠ '_' ∧
    (if ((commandMask ty ||| TYPE_MASK t) >>> 3) &&& 1 = 1
      then toLowerCase (String.singleton
        (Decode.COMMANDS.getD ((commandMask ty ||| TYPE_MASK t) >>> 4) '_'))
      else String.singleton
        (Decode.COMMANDS.getD ((commandMask ty ||| TYPE_MASK t) >>> 4) '_')) = Spec.letter ty ∧
    (decide (Decode.COMMANDS.getD ((commandMask ty ||| TYPE_MASK t) >>> 4) '_' = 'A')
      = Spec.isArc ty) ∧
    (Decode.ARGS.getD ((commandMask ty ||| TYPE_MASK t) >>> 4) none).getD 0 = Spec.arity ty ∧
    (commandMask ty ||| TYPE_MASK t) &&& 0b111 = Spec.widthCode t ∧
    Decode.SMAP.getD ((commandMask ty ||| TYPE_MASK t) &&& 0b111) 0 = Spec.width t ∧
    ((((commandMask ty ||| TYPE_MASK t) >>> 4) &&& 0b11) >>> 1 = Spec.largeArc ty ∨
      Spec.isArc ty = false) ∧
    ((((commandMask ty ||| TYPE_MASK t) >>> 4) &&& 0b11) &&& 1 = Spec.sweep ty ∨
      Spec.isArc ty = false) := by
  decide!

theorem mem_storageTypes (t : StorageType) : t ∈ Spec.storageTypes := by
  cases t <;> decide

theorem commandMask_int8 (ty : String) : commandMask ty ||| TYPE_MASK .int8 = commandMask ty := by
  simp [TYPE_MASK]

end Encode

namespace Encode

open Host

/-! ### The storage type `encodeCommand` selects -/

theorem integerChunks_some (mask : Nat) (ints : List JSNum) (chunks : List (List Nat))
    (h : integerChunks mask ints = some chunks) :
    ∃ t ∈ Spec.integerCandidates, ints.all (Spec.rangeTest t) = true ∧
      chunks = [headerChunk (mask ||| TYPE_MASK t),
        match t with
        | .int8 => int8Bytes ints
        | .uint8 => int8Bytes ints
        | .int16 => int16Bytes ints
        | .uint16 => int16Bytes ints
        | _ => int32Bytes ints] := by
  unfold integerChunks at h
  split_ifs at h with h1 h2 h3 h4 h5 h6
  · exact ⟨.int8, by decide, h1, (Option.some.inj h).symm⟩
  · exact ⟨.int16, by decide, h2, (Option.some.inj h).symm⟩
  · exact ⟨.int32, by decide, h3, (Option.some.inj h).symm⟩
  · exact ⟨.uint8, by decide, h4, (Option.some.inj h).symm⟩
  · exact ⟨.uint16, by decide, h5, (Option.some.inj h).symm⟩
  · exact ⟨.uint32, by decide, h6, (Option.some.inj h).symm⟩

/-- Every command with values is encoded as a header chunk and a payload chunk of one
storage type, whose tests passed. -/
theorem encodeCommand_select (c : Command) (o : Options) (hne : c.values ≠ []) :
    ∃ t, encodeCommand c o =
        [headerChunk (commandMask c.type ||| TYPE_MASK t),
         Spec.payloadBytes t (scaledValues c.values o.factor)] ∧
      Spec.Selected t (scaledValues c.values o.factor) (o.permissibleError.mul o.factor) := by
  have hlen : ¬ (c.values.length = 0) := by
    intro h
    exact hne (List.length_eq_zero.1 h)
  unfold encodeCommand
  simp only [hlen, if_false]
  generalize scaledValues c.values o.factor = floats
  generalize o.permissibleError.mul o.factor = error
  have hfloat : ∃ t, floatChunks (commandMask c.type) floats error =
      [headerChunk (commandMask c.type ||| TYPE_MASK t), Spec.payloadBytes t floats] ∧
      Spec.Selected t floats error := by
    unfold floatChunks
    split_ifs with hf
    · exact ⟨.float32, rfl, by
        simpa [Spec.Selected, Spec.storedValues, Float32Array, List.map_map] using hf⟩
    · exact ⟨.float64, rfl, trivial⟩
  by_cases hNAE : numberArrayEquals floats (floats.map JSNum.round) error = true
  · simp only [hNAE, if_true]
    cases hic : integerChunks (commandMask c.type) (floats.map JSNum.round) with
    | none => exact hfloat
    | some chunks =>
      obtain ⟨t, ht, hall, hch⟩ := integerChunks_some _ _ _ hic
      refine ⟨t, ?_, ?_⟩
      · simp only [hch]
        simp only [Spec.integerCandidates, List.mem_cons, List.mem_singleton,
          List.not_mem_nil, or_false] at ht
        rcases ht with rfl | rfl | rfl | rfl | rfl | rfl <;> rfl
      · simp only [Spec.integerCandidates, List.mem_cons, List.mem_singleton,
          List.not_mem_nil, or_false] at ht
        rcases ht with rfl | rfl | rfl | rfl | rfl | rfl <;> exact ⟨hNAE, hall⟩
  · simp only [hNAE, if_false, Bool.false_eq_true]
    exact hfloat

end Encode

namespace Decode

open Host Encode

/-- The decoder on the header byte of an identity and a storage type. -/
theorem decodeRecord_header (ty : String) (hty : ty ∈ Spec.validTypes) (t : StorageType)
    (factor : JSNum) (bytes : List Nat) :
    decodeRecord factor (commandMask ty ||| TYPE_MASK t) bytes =
      match readValues (Spec.widthCode t) (Spec.width t) factor (Spec.arity ty) bytes with
      | none => .error .rangeError
      | some (values, rest) =>
        .ok (⟨Spec.letter ty,
              if Spec.isArc ty then
                splice3 values (JSNum.ofInt (Spec.largeArc ty)) (JSNum.ofInt (Spec.sweep ty))
              else values⟩, rest) := by
  obtain ⟨_, _, _, _, h5, h6, h7, h8, h9, h10, h11, h12⟩ :=
    header_facts ty hty t (mem_storageTypes t)
  unfold decodeRecord
  rw [if_neg h5, h8, h10, h9, h6]
  cases hr : readValues (Spec.widthCode t) (Spec.width t) factor (Spec.arity ty) bytes with
  | none => rfl
  | some p =>
    obtain ⟨values, rest⟩ := p
    simp only
    congr 2
    cases harc : Spec.isArc ty with
    | false =>
      have : ¬ (COMMANDS.getD ((commandMask ty ||| TYPE_MASK t) >>> 4) '_' = 'A') := by
        rw [harc] at h7
        exact of_decide_eq_false h7
      rw [if_neg this]
      rfl
    | true =>
      have : COMMANDS.getD ((commandMask ty ||| TYPE_MASK t) >>> 4) '_' = 'A' := by
        rw [harc] at h7
        exact of_decide_eq_true h7
      rw [harc] at h11 h12
      simp only [Bool.true_eq_false, or_false] at h11 h12
      rw [if_pos this, h11, h12]
      rfl

end Decode

namespace Host

/-- A finite result of `Math.round` is integral. -/
theorem JSNum.round_integral (x : JSNum) (hfin : (JSNum.round x).isFinite = true) :
    (JSNum.round x).isIntegral = true := by
  cases x with
  | nan => simp [JSNum.round, JSNum.isFinite] at hfin
  | inf s => simp [JSNum.round, JSNum.isFinite] at hfin
  | fin s n =>
    clear hfin
    unfold JSNum.round
    by_cases hint : JSNum.isIntegral (.fin s n) = true
    · simp [hint]
    · simp only [hint, if_false, Bool.false_eq_true]
      by_cases hk0 : (2 * JSNum.sint (.fin s n) + (b64.unit : Int)) / (2 * (b64.unit : Int)) = 0
      · simp [hk0, JSNum.isIntegral, b64.scaled_zero]
      · simp only [hk0, if_false]
        have hlt : b64.scaled n < 2 ^ 52 * b64.unit := by
          apply b64_scaled_lt_of_not_integral
          simpa [JSNum.isIntegral] using hint
        have hU := b64_unit_pos
        have habs : (JSNum.sint (.fin s n)).natAbs < 2 ^ 52 * b64.unit := by
          unfold JSNum.sint
          cases s <;> simpa using hlt
        generalize JSNum.sint (.fin s n) = I at habs ⊢
        generalize b64.unit = U at habs hU ⊢
        have hUi : (0 : Int) < 2 * (U : Int) := by omega
        have hI1 : I < 2 ^ 52 * (U : Int) := by
          have : ((I.natAbs : Nat) : Int) < ((2 ^ 52 * U : Nat) : Int) := by exact_mod_cast habs
          push_cast at this
          omega
        have hI2 : -(2 ^ 52 * (U : Int)) < I := by
          have : ((I.natAbs : Nat) : Int) < ((2 ^ 52 * U : Nat) : Int) := by exact_mod_cast habs
          push_cast at this
          omega
        have hk1 : (2 * I + (U : Int)) / (2 * (U : Int)) < 2 ^ 52 + 1 := by
          apply Int.ediv_lt_of_lt_mul hUi
          nlinarith
        have hk2 : -(2 ^ 52 : Int) ≤ (2 * I + (U : Int)) / (2 * (U : Int)) := by
          apply Int.le_ediv_of_mul_le hUi
          nlinarith
        generalize (2 * I + (U : Int)) / (2 * (U : Int)) = k at hk1 hk2 ⊢
        obtain ⟨n', hn', hs', he⟩ := JSNum.ofInt_spec k (by omega)
        rw [he]
        simp [JSNum.isIntegral, hs']

/-- In the range of an integer type, truncation of an integral Number is its value. -/
theorem JSNum.trunc_bounds (x : JSNum) (lo hi : Int) (hfin : x.isFinite = true)
    (hint : x.isIntegral = true) (h1 : (lo : ℚ) ≤ x.toRat) (h2 : x.toRat < (hi : ℚ)) :
    lo ≤ x.trunc ∧ x.trunc < hi := by
  cases x with
  | nan => simp [JSNum.isFinite] at hfin
  | inf s => simp [JSNum.isFinite] at hfin
  | fin s n =>
    rw [JSNum.toRat_of_integral s n hint] at h1 h2
    exact ⟨by exact_mod_cast h1, by exact_mod_cast h2⟩

end Host

namespace Decode

open Host Encode

theorem MMAP_float32 (bytes : List Nat) : MMAP 6 bytes = getFloat32 bytes := rfl

theorem MMAP_float64 (bytes : List Nat) : MMAP 7 bytes = getFloat64 bytes := rfl

/-- The element read back from a stored rounded value, for each integer type. -/
theorem MMAP_int (t : StorageType) (ht : t ∈ Spec.integerCandidates) (v : JSNum)
    (h : Spec.rangeTest t (JSNum.round v) = true) :
    MMAP (Spec.widthCode t)
      (leBytes (Spec.width t) (toIntBits (8 * Spec.width t) (JSNum.round v))) =
      JSNum.ofInt (JSNum.round v).trunc := by
  simp only [Spec.integerCandidates, List.mem_cons, List.mem_singleton, List.not_mem_nil,
    or_false] at ht
  rcases ht with rfl | rfl | rfl | rfl | rfl | rfl
  · obtain ⟨hf, h1, h2⟩ := (IS_INT8_iff _).1 h
    obtain ⟨b1, b2⟩ := JSNum.trunc_bounds _ (-128) 128 hf (JSNum.round_integral v hf)
      (by exact_mod_cast h1) (by exact_mod_cast h2)
    exact getInt_leBytes1 _ b1 b2
  · obtain ⟨hf, h1, h2⟩ := (IS_INT16_iff _).1 h
    obtain ⟨b1, b2⟩ := JSNum.trunc_bounds _ (-32768) 32768 hf (JSNum.round_integral v hf)
      (by exact_mod_cast h1) (by exact_mod_cast h2)
    exact getInt_leBytes2 _ b1 b2
  · obtain ⟨hf, h1, h2⟩ := (IS_INT32_iff _).1 h
    obtain ⟨b1, b2⟩ := JSNum.trunc_bounds _ (-2147483648) 2147483648 hf
      (JSNum.round_integral v hf) (by exact_mod_cast h1) (by exact_mod_cast h2)
    exact getInt_leBytes4 _ b1 b2
  · obtain ⟨hf, h1, h2⟩ := (IS_UINT8_iff _).1 h
    obtain ⟨b1, b2⟩ := JSNum.trunc_bounds _ 0 256 hf (JSNum.round_integral v hf)
      (by exact_mod_cast h1) (by exact_mod_cast h2)
    exact getUint_leBytes1 _ b1 b2
  · obtain ⟨hf, h1, h2⟩ := (IS_UINT16_iff _).1 h
    obtain ⟨b1, b2⟩ := JSNum.trunc_bounds _ 0 65536 hf (JSNum.round_integral v hf)
      (by exact_mod_cast h1) (by exact_mod_cast h2)
    exact getUint_leBytes2 _ b1 b2
  · obtain ⟨hf, h1, h2⟩ := (IS_UINT32_iff _).1 h
    obtain ⟨b1, b2⟩ := JSNum.trunc_bounds _ 0 4294967296 hf (JSNum.round_integral v hf)
      (by exact_mod_cast h1) (by exact_mod_cast h2)
    exact getUint_leBytes4 _ b1 b2

/-- The payload of an integer type as one element per value. -/
theorem payloadBytes_int (t : StorageType) (ht : t ∈ Spec.integerCandidates)
    (floats : List JSNum) :
    Spec.payloadBytes t floats =
      floats.flatMap (fun v => leBytes (Spec.width t) (toIntBits (8 * Spec.width t) (JSNum.round v))) := by
  simp only [Spec.integerCandidates, List.mem_cons, List.mem_singleton, List.not_mem_nil,
    or_false] at ht
  rcases ht with rfl | rfl | rfl | rfl | rfl | rfl <;>
    simp [Spec.payloadBytes, int8Bytes, int16Bytes, int32Bytes, Spec.width, List.flatMap_map]

/-- Reading back the payload of a record gives the stored values divided by the
factor. -/
theorem readValues_payload (t : StorageType) (floats : List JSNum) (error factor : JSNum)
    (rest : List Nat) (hsel : Spec.Selected t floats error) (hWF : ∀ x ∈ floats, x.WF) :
    readValues (Spec.widthCode t) (Spec.width t) factor floats.length
        (Spec.payloadBytes t floats ++ rest) =
      some ((Spec.storedValues t floats).map (fun x => x.div factor), rest) := by
  have hint : ∀ t', t' ∈ Spec.integerCandidates →
      (floats.map JSNum.round).all (Spec.rangeTest t') = true →
      readValues (Spec.widthCode t') (Spec.width t') factor floats.length
        (Spec.payloadBytes t' floats ++ rest) =
      some ((floats.map (fun x => JSNum.ofInt (JSNum.round x).trunc)).map
        (fun x => x.div factor), rest) := by
    intro t' ht' hall
    rw [payloadBytes_int t' ht', readValues_flatMap _ _ _ _ _ _ (fun x _ => leBytes_length _ _)]
    rw [List.all_eq_true] at hall
    have hmap : floats.map (fun x => (MMAP (Spec.widthCode t')
          (leBytes (Spec.width t') (toIntBits (8 * Spec.width t') (JSNum.round x)))).div factor) =
        (floats.map (fun x => JSNum.ofInt (JSNum.round x).trunc)).map (fun x => x.div factor) := by
      rw [List.map_map]
      apply List.map_congr_left
      intro v hv
      simp only [Function.comp]
      rw [MMAP_int t' ht' v (hall _ (List.mem_map_of_mem _ hv))]
    rw [hmap]
  cases t with
  | float32 =>
    simp only [Spec.payloadBytes, Spec.storedValues, float32Bytes, Float32Array,
      List.flatMap_map, Spec.widthCode, Spec.width]
    rw [readValues_flatMap _ _ _ _ _ _ (fun x _ => leBytes_length _ _)]
    have hmap : floats.map (fun x => (MMAP 6 (leBytes 4 (b32.bits (toFloat32 x)))).div factor) =
        (floats.map (fun x => ofFloat32 (toFloat32 x))).map (fun x => x.div factor) := by
      rw [List.map_map]
      apply List.map_congr_left
      intro v _
      simp only [Function.comp]
      rw [MMAP_float32, getFloat32_leBytes _ (toFloat32_WFin v)]
    rw [hmap]
  | float64 =>
    simp only [Spec.payloadBytes, Spec.storedValues, float64Bytes, Spec.widthCode, Spec.width]
    rw [readValues_flatMap _ _ _ _ _ _ (fun x _ => leBytes_length _ _)]
    have hmap : floats.map (fun x => (MMAP 7 (leBytes 8 (b64.bits x))).div factor) =
        floats.map (fun x => x.div factor) := by
      apply List.map_congr_left
      intro v hv
      rw [MMAP_float64, getFloat64_leBytes _ (hWF v hv)]
    rw [hmap]
  | int8 => exact hint _ (by decide) hsel.2
  | uint8 => exact hint _ (by decide) hsel.2
  | int16 => exact hint _ (by decide) hsel.2
  | uint16 => exact hint _ (by decide) hsel.2
  | int32 => exact hint _ (by decide) hsel.2
  | uint32 => exact hint _ (by decide) hsel.2

end Decode

/-! ### Generators -/

namespace Gen

theorem forEach_err_none {α β : Type} (body : α → Gen β) (rest : Gen β) (xs : List α)
    (h : (forEach body rest xs).err = none) :
    rest.err = none ∧ (∀ x ∈ xs, (body x).err = none) ∧
      (forEach body rest xs).items = xs.flatMap (fun x => (body x).items) ++ rest.items := by
  induction xs with
  | nil => simpa [forEach] using h
  | cons x xs ih =>
    simp only [forEach] at h ⊢
    cases hb : (body x).err with
    | some e => simp [hb] at h
    | none =>
      simp only [hb] at h ⊢
      obtain ⟨h1, h2, h3⟩ := ih h
      refine ⟨h1, ?_, ?_⟩
      · intro y hy
        rcases List.mem_cons.1 hy with rfl | hy
        · exact hb
        · exact h2 y hy
      · simp [append, h3]

/-- A stage that ends without error: neither the upstream nor any body threw, and the
items are those of the bodies in order. -/
theorem stage_err_none {α β : Type} (body : α → Gen β) (up : Gen α)
    (h : (stage body up).err = none) :
    up.err = none ∧ (∀ x ∈ up.items, (body x).err = none) ∧
      (stage body up).items = up.items.flatMap (fun x => (body x).items) := by
  obtain ⟨h1, h2, h3⟩ := forEach_err_none body ⟨[], up.err⟩ up.items h
  exact ⟨h1, h2, by simpa [stage] using h3⟩

/-- When nothing throws, a stage yields the items of the bodies in order. -/
theorem stage_ok {α β : Type} (body : α → Gen β) (xs : List α)
    (h : ∀ x ∈ xs, (body x).err = none) :
    stage body ⟨xs, none⟩ = ⟨xs.flatMap (fun x => (body x).items), none⟩ := by
  unfold stage
  simp only
  induction xs with
  | nil => rfl
  | cons x xs ih =>
    simp only [forEach, h x (List.mem_cons_self _ _)]
    rw [ih (fun y hy => h y (List.mem_cons_of_mem _ hy))]
    simp [append]

end Gen

namespace Decode

open Host Encode

/-! ### The decoding loop -/

theorem decodeRecord_rest_le (factor : JSNum) (byte : Nat) (bytes rest : List Nat)
    (command : Command) (h : decodeRecord factor byte bytes = .ok (command, rest)) :
    rest.length ≤ bytes.length := by
  unfold decodeRecord at h
  by_cases h0 : COMMANDS.getD (byte >>> 4) '_' = '_'
  · rw [if_pos h0] at h
    cases h
  · rw [if_neg h0] at h
    cases hr : readValues (byte &&& 0b111) (SMAP.getD (byte &&& 0b111) 0) factor
        ((ARGS.getD (byte >>> 4) none).getD 0) bytes with
    | none =>
      rw [hr] at h
      cases h
    | some p =>
      obtain ⟨values, rest'⟩ := p
      rw [hr] at h
      have := (readValues_length _ _ _ _ _ _ _ hr).2
      simp only [Except.ok.injEq, Prod.mk.injEq] at h
      rw [← h.2]
      omega

/-- The loop gives the same result for every fuel that covers the bytes. -/
theorem decodeLoop_fuel (factor : JSNum) :
    ∀ (fuel fuel' : Nat) (bytes : List Nat), bytes.length ≤ fuel → bytes.length ≤ fuel' →
      decodeLoop factor fuel bytes = decodeLoop factor fuel' bytes := by
  intro fuel
  induction fuel with
  | zero =>
    intro fuel' bytes h _
    have : bytes = [] := List.length_eq_zero.1 (Nat.le_zero.1 h)
    subst this
    cases fuel' <;> rfl
  | succ f ih =>
    intro fuel' bytes h h'
    cases bytes with
    | nil => cases fuel' <;> rfl
    | cons b bs =>
      cases fuel' with
      | zero => simp at h'
      | succ f' =>
        simp only [decodeLoop]
        cases hr : decodeRecord factor (b % 256) bs with
        | error e => rfl
        | ok p =>
          obtain ⟨command, rest⟩ := p
          have hle := decodeRecord_rest_le _ _ _ _ _ hr
          simp only [List.length_cons] at h h'
          simp only
          rw [ih f' rest (by omega) (by omega)]

/-- One round of the loop on a well-formed record. -/
theorem decodeLoop_record (factor : JSNum) (b : Nat) (bytes rest : List Nat)
    (command : Command) (h : decodeRecord factor (b % 256) bytes = .ok (command, rest)) :
    decodeLoop factor (b :: bytes).length (b :: bytes) =
      Gen.cons command (decodeLoop factor rest.length rest) := by
  have hle := decodeRecord_rest_le _ _ _ _ _ h
  simp only [List.length_cons, decodeLoop, h]
  rw [decodeLoop_fuel factor bytes.length rest.length rest hle (le_refl _)]

theorem decodeAll_eq (buffer : List Nat) (factor : JSNum) :
    decodeAll buffer factor = decodeLoop factor buffer.length buffer := by
  unfold decodeAll decode
  simp

/-- Decoding a record followed by more bytes yields its command and then decodes the
rest. -/
theorem decodeAll_record (factor : JSNum) (b : Nat) (payload rest : List Nat)
    (command : Command)
    (h : decodeRecord factor (b % 256) (payload ++ rest) = .ok (command, rest)) :
    decodeAll (b :: payload ++ rest) factor = Gen.cons command (decodeAll rest factor) := by
  rw [decodeAll_eq, decodeAll_eq]
  exact decodeLoop_record factor b (payload ++ rest) rest command h

end Decode

namespace Encode

open Host Decode

theorem scaledValues_length (values : List JSNum) (factor : JSNum) :
    (scaledValues values factor).length = values.length := by
  unfold scaledValues
  split_ifs <;> simp

theorem selected_nil (error : JSNum) : Spec.Selected .int8 [] error := by
  simp [Spec.Selected, numberArrayEquals]

theorem scaledValues_nil (factor : JSNum) : scaledValues [] factor = [] := by
  unfold scaledValues
  split_ifs <;> rfl

/-- The bytes of every encoded command: a header byte and the payload of one storage
type, which a decoder reads back as the stored values divided by its factor. -/
theorem decodeRecord_encodeCommand (c : Command) (o : Options) (factor : JSNum)
    (rest : List Nat) (hty : c.type ∈ Spec.validTypes)
    (hlen : c.values.length = Spec.arity c.type)
    (hWF : ∀ x ∈ scaledValues c.values o.factor, x.WF) :
    ∃ t, (encodeCommand c o).flatten =
        (commandMask c.type ||| TYPE_MASK t) ::
          Spec.payloadBytes t (scaledValues c.values o.factor) ∧
      encodeCommand c o =
        (if c.values = [] then [[commandMask c.type ||| TYPE_MASK t]]
         else [[commandMask c.type ||| TYPE_MASK t],
           Spec.payloadBytes t (scaledValues c.values o.factor)]) ∧
      (c.values = [] → t = .int8) ∧
      Spec.Selected t (scaledValues c.values o.factor) (o.permissibleError.mul o.factor) ∧
      decodeRecord factor ((commandMask c.type ||| TYPE_MASK t) % 256)
          (Spec.payloadBytes t (scaledValues c.values o.factor) ++ rest) =
        .ok (⟨Spec.letter c.type,
              if Spec.isArc c.type then
                splice3 ((Spec.storedValues t (scaledValues c.values o.factor)).map
                    (fun x => x.div factor))
                  (JSNum.ofInt (Spec.largeArc c.type)) (JSNum.ofInt (Spec.sweep c.type))
              else (Spec.storedValues t (scaledValues c.values o.factor)).map
                    (fun x => x.div factor)⟩, rest) := by
  have hdec : ∀ t, Spec.Selected t (scaledValues c.values o.factor)
        (o.permissibleError.mul o.factor) →
      decodeRecord factor ((commandMask c.type ||| TYPE_MASK t) % 256)
          (Spec.payloadBytes t (scaledValues c.values o.factor) ++ rest) =
        .ok (⟨Spec.letter c.type,
              if Spec.isArc c.type then
                splice3 ((Spec.storedValues t (scaledValues c.values o.factor)).map
                    (fun x => x.div factor))
                  (JSNum.ofInt (Spec.largeArc c.type)) (JSNum.ofInt (Spec.sweep c.type))
              else (Spec.storedValues t (scaledValues c.values o.factor)).map
                    (fun x => x.div factor)⟩, rest) := by
    intro t hsel
    have hlt := (header_facts c.type hty t (mem_storageTypes t)).1
    rw [Nat.mod_eq_of_lt hlt, decodeRecord_header c.type hty t]
    have hr := readValues_payload t _ _ factor rest hsel hWF
    rw [scaledValues_length, hlen] at hr
    rw [hr]
  by_cases hnil : c.values = []
  · refine ⟨.int8, ?_, ?_, fun _ => rfl, ?_, ?_⟩
    · simp [encodeCommand, hnil, scaledValues_nil, Spec.payloadBytes, int8Bytes, headerChunk,
        commandMask_int8]
      have := (header_facts c.type hty .int8 (mem_storageTypes _)).1
      rwa [commandMask_int8] at this
    · simp [encodeCommand, hnil, headerChunk, commandMask_int8]
      have := (header_facts c.type hty .int8 (mem_storageTypes _)).1
      rwa [commandMask_int8] at this
    · rw [hnil, scaledValues_nil]; exact selected_nil _
    · apply hdec
      rw [hnil, scaledValues_nil]; exact selected_nil _
  · obtain ⟨t, ht, hsel⟩ := encodeCommand_select c o hnil
    have hlt := (header_facts c.type hty t (mem_storageTypes t)).1
    refine ⟨t, ?_, ?_, fun h => absurd h hnil, hsel, hdec t hsel⟩
    · rw [ht]
      simp [headerChunk, Nat.mod_eq_of_lt hlt]
    · rw [ht, if_neg hnil]
      simp [headerChunk, Nat.mod_eq_of_lt hlt]

end Encode

namespace Host

/-! ### Equality and closeness of Numbers -/

theorem JSNum.strictEq_iff (a b : JSNum) :
    a.strictEq b = true ↔ a.isNaN = false ∧ b.isNaN = false ∧ a.key = b.key := by
  unfold JSNum.strictEq
  cases ha : a.isNaN <;> cases hb : b.isNaN <;> simp

theorem JSNum.strictEq_refl (a : JSNum) (h : a.isNaN = false) : a.strictEq a = true :=
  (JSNum.strictEq_iff a a).2 ⟨h, h, rfl⟩

theorem JSNum.strictEq_symm (a b : JSNum) (h : a.strictEq b = true) : b.strictEq a = true := by
  obtain ⟨h1, h2, h3⟩ := (JSNum.strictEq_iff a b).1 h
  exact (JSNum.strictEq_iff b a).2 ⟨h2, h1, h3.symm⟩

theorem JSNum.strictEq_trans (a b c : JSNum) (h : a.strictEq b = true)
    (h' : b.strictEq c = true) : a.strictEq c = true := by
  obtain ⟨h1, _, h3⟩ := (JSNum.strictEq_iff a b).1 h
  obtain ⟨_, h5, h6⟩ := (JSNum.strictEq_iff b c).1 h'
  exact (JSNum.strictEq_iff a c).2 ⟨h1, h5, h3.trans h6⟩

/-- A Number that passes an integer range test survives the integer typed array. -/
theorem JSNum.ofInt_trunc_strictEq (x : JSNum) (hfin : x.isFinite = true) (hWF : x.WF)
    (hint : x.isIntegral = true) : (JSNum.ofInt x.trunc).strictEq x = true := by
  cases x with
  | nan => simp [JSNum.isFinite] at hfin
  | inf s => simp [JSNum.isFinite] at hfin
  | fin s n =>
    rw [JSNum.ofInt_trunc s n hWF hint]
    rw [JSNum.strictEq_iff]
    refine ⟨rfl, rfl, ?_⟩
    simp only [JSNum.key]
    by_cases h0 : n = 0
    · subst h0; simp
    · cases s <;> simp [h0]

theorem JSNum.ofInt_trunc_WF (x : JSNum) (hfin : x.isFinite = true) (hWF : x.WF)
    (hint : x.isIntegral = true) : (JSNum.ofInt x.trunc).WF := by
  cases x with
  | nan => simp [JSNum.isFinite] at hfin
  | inf s => simp [JSNum.isFinite] at hfin
  | fin s n =>
    rw [JSNum.ofInt_trunc s n hWF hint]
    exact hWF

theorem JSNum.round_WF (x : JSNum) (h : x.WF) : (JSNum.round x).WF := by
  cases x with
  | nan => exact h
  | inf s => exact h
  | fin s n =>
    obtain ⟨s', n', he, hn', _⟩ := JSNum.round_spec s n h
    rw [he]
    exact hn'

theorem JSNum.mul_WF (a b : JSNum) : (a.mul b).WF := by
  cases a with
  | nan => cases b <;> trivial
  | inf s =>
    cases b with
    | nan => trivial
    | inf t => trivial
    | fin t m =>
      simp only [JSNum.mul]
      split_ifs <;> trivial
  | fin s n =>
    cases b with
    | nan => trivial
    | inf t =>
      simp only [JSNum.mul]
      split_ifs <;> trivial
    | fin t m => exact (JSNum.WF_iff_WFin _).2 (b64.round_WFin _ _ _)

/-- Multiplying a Number by 1 returns it. -/
theorem JSNum.mul_one (x : JSNum) (h : x.WF) : x.mul (JSNum.ofInt 1) = x := by
  rw [JSNum.ofInt_one]
  cases x with
  | nan => rfl
  | inf s =>
    have hne : ¬ (1023 * 2 ^ 52 = 0) := by norm_num
    simp [JSNum.mul]
  | fin s n =>
    simp only [JSNum.mul, Bool.xor_false]
    exact b64.round_exact _ _ _ n (Nat.mul_pos b64_unit_pos b64_unit_pos) h
      (by rw [b64_scaled_one]; ring)

theorem JSNum.toRat_sub (s t : Bool) (n m : Nat) :
    JSNum.toRat (.fin s n) - JSNum.toRat (.fin t m) =
      ((JSNum.sint (.fin s n) - JSNum.sint (.fin t m) : Int) : ℚ) / (b64.unit : ℚ) := by
  rw [JSNum.toRat_eq_sint, JSNum.toRat_eq_sint]
  push_cast
  ring

/-- The test `Math.abs(num - bi) < epsilon`, on values: when it passes for a finite
`num` and a finite positive-or-zero `epsilon`, `bi` is finite and the values differ by
less than the value of `epsilon`. -/
theorem JSNum.abs_sub_lt (x y e : JSNum) (hx : x.isFinite = true) (he : e.isFinite = true)
    (heWF : e.WF) (h : ((x.sub y).abs).lt e = true) :
    y.isFinite = true ∧ |x.toRat - y.toRat| < e.toRat := by
  cases x with
  | nan => simp [JSNum.isFinite] at hx
  | inf s => simp [JSNum.isFinite] at hx
  | fin s n =>
  cases e with
  | nan => simp [JSNum.isFinite] at he
  | inf s => simp [JSNum.isFinite] at he
  | fin es en =>
  have hen : en < b64.infOrd := heWF
  cases y with
  | nan => simp [JSNum.sub, JSNum.abs, JSNum.lt, JSNum.isNaN] at h
  | inf t =>
    exfalso
    simp only [JSNum.sub, JSNum.abs, JSNum.lt, JSNum.isNaN, JSNum.key, Bool.not_false,
      Bool.true_and, decide_eq_true_eq, Bool.false_eq_true, if_false] at h
    split_ifs at h <;> omega
  | fin t m =>
    refine ⟨rfl, ?_⟩
    rw [JSNum.toRat_sub]
    have hu : (0 : ℚ) < (b64.unit : ℚ) := by exact_mod_cast b64_unit_pos
    rw [abs_div, abs_of_pos hu]
    simp only [JSNum.sub] at h
    generalize JSNum.sint (.fin s n) - JSNum.sint (.fin t m) = I at h ⊢
    have hkey : ∀ k, JSNum.lt (.fin false k) (.fin es en) = true → es = false ∧ k < en := by
      intro k hk
      simp only [JSNum.lt, JSNum.isNaN, JSNum.key, Bool.not_false, Bool.true_and,
        decide_eq_true_eq, Bool.false_eq_true, if_false] at hk
      cases es
      · simp only [Bool.false_eq_true, if_false] at hk
        exact ⟨rfl, by omega⟩
      · simp only [if_true] at hk
        omega
    by_cases hI : I = 0
    · simp only [hI, if_true, JSNum.abs] at h
      obtain ⟨hes, hlt⟩ := hkey 0 h
      subst hes
      have hpos := b64.scaled_strictMono hlt
      rw [b64.scaled_zero] at hpos
      simp only [hI, Int.cast_zero, abs_zero, zero_div, JSNum.toRat, Bool.false_eq_true,
        if_false, one_mul]
      apply div_pos _ hu
      exact_mod_cast hpos
    · simp only [hI, if_false] at h
      rw [Fmt.round_eq] at h
      split_ifs at h with hfin
      · simp only [JSNum.abs] at h
        obtain ⟨hes, hlt⟩ := hkey _ h
        subst hes
        have hlt2 : I.natAbs < b64.scaled en := by
          by_contra hge
          have hge2 : b64.scaled en ≤ I.natAbs := not_lt.1 hge
          have := roundOrd_mono_lower b64 I.natAbs b64.unit en
            (lt_trans hen b64.infOrd_lt) (Nat.mul_le_mul_right _ hge2)
          omega
        simp only [JSNum.toRat, Bool.false_eq_true, if_false, one_mul]
        rw [div_lt_div_iff_of_pos_right hu]
        have h1 : |(I : ℚ)| = ((I.natAbs : Nat) : ℚ) := by
          rw [Nat.cast_natAbs, Int.cast_abs]
        rw [h1]
        exact_mod_cast hlt2
      · exfalso
        simp only [JSNum.abs, JSNum.lt, JSNum.isNaN, JSNum.key, Bool.not_false, Bool.true_and,
          decide_eq_true_eq, Bool.false_eq_true, if_false] at h
        split_ifs at h <;> omega

end Host

namespace Encode

open Host Decode

/-! ### Lossless settings: factor 1 and no permissible error -/

theorem numberArrayEquals_forall₂ (a b : List JSNum) (epsilon : JSNum)
    (h : numberArrayEquals a b epsilon = true) :
    List.Forall₂ (fun x y => closeEnough epsilon x y = true) a b := by
  unfold numberArrayEquals at h
  rw [Bool.and_eq_true, decide_eq_true_eq] at h
  obtain ⟨hlen, hall⟩ := h
  induction a generalizing b with
  | nil =>
    cases b with
    | nil => exact List.Forall₂.nil
    | cons y ys => simp at hlen
  | cons x xs ih =>
    cases b with
    | nil => simp at hlen
    | cons y ys =>
      simp only [List.zipWith_cons_cons, List.all_cons, Bool.and_eq_true, id] at hall
      exact List.Forall₂.cons hall.1 (ih ys (by simpa using hlen) hall.2)

theorem scaledValues_one (values : List JSNum) :
    scaledValues values (JSNum.ofInt 1) = values := by
  have : (JSNum.ofInt 1).strictEq (JSNum.ofInt 1) = true := by decide!
  simp [scaledValues, this]

theorem error_default : (JSNum.ofInt 0).mul (JSNum.ofInt 1) = .fin false 0 := by decide!

theorem closeEnough_zero (x y : JSNum) : closeEnough (.fin false 0) x y = x.strictEq y := by
  have : JSNum.strictEq (.fin false 0) (JSNum.ofInt 0) = true := by decide!
  simp [closeEnough, this]

theorem rangeTest_finite (t : StorageType) (x : JSNum) (h : Spec.rangeTest t x = true) :
    x.isFinite = true := by
  cases t
  · exact ((IS_INT8_iff x).1 h).1
  · exact ((IS_UINT8_iff x).1 h).1
  · exact ((IS_INT16_iff x).1 h).1
  · exact ((IS_UINT16_iff x).1 h).1
  · exact ((IS_INT32_iff x).1 h).1
  · exact ((IS_UINT32_iff x).1 h).1
  · simp [Spec.rangeTest] at h
  · simp [Spec.rangeTest] at h

/-- The values read back from a record are well-formed Numbers. -/
theorem storedValues_WF (t : StorageType) (floats : List JSNum) (error : JSNum)
    (hsel : Spec.Selected t floats error) (hWF : ∀ x ∈ floats, x.WF) :
    ∀ y ∈ Spec.storedValues t floats, y.WF := by
  have hint : (floats.map JSNum.round).all (Spec.rangeTest t) = true →
      ∀ y ∈ floats.map (fun x => JSNum.ofInt (JSNum.round x).trunc), y.WF := by
    intro hall y hy
    rw [List.all_eq_true] at hall
    obtain ⟨v, hv, rfl⟩ := List.mem_map.1 hy
    have hr := hall _ (List.mem_map_of_mem _ hv)
    have hf := rangeTest_finite t _ hr
    exact JSNum.ofInt_trunc_WF _ hf (JSNum.round_WF v (hWF v hv)) (JSNum.round_integral v hf)
  cases t with
  | float32 =>
    intro y hy
    obtain ⟨v, _, rfl⟩ := List.mem_map.1 hy
    exact ofFloat32_WF _
  | float64 => exact hWF
  | int8 => exact hint hsel.2
  | uint8 => exact hint hsel.2
  | int16 => exact hint hsel.2
  | uint16 => exact hint hsel.2
  | int32 => exact hint hsel.2
  | uint32 => exact hint hsel.2

/-- With no permissible error, the values read back from a record are equal (`===`) to
the scaled values. -/
theorem storedValues_strictEq (t : StorageType) (floats : List JSNum)
    (hsel : Spec.Selected t floats (.fin false 0)) (hWF : ∀ x ∈ floats, x.WF)
    (hnan : ∀ x ∈ floats, x.isNaN = false) :
    List.Forall₂ (fun d v => JSNum.strictEq d v = true) (Spec.storedValues t floats) floats := by
  have hint : numberArrayEquals floats (floats.map JSNum.round) (.fin false 0) = true →
      (floats.map JSNum.round).all (Spec.rangeTest t) = true →
      List.Forall₂ (fun d v => JSNum.strictEq d v = true)
        (floats.map (fun x => JSNum.ofInt (JSNum.round x).trunc)) floats := by
    intro hnae hall
    have h2 := numberArrayEquals_forall₂ _ _ _ hnae
    rw [List.all_eq_true] at hall
    rw [List.forall₂_map_left_iff]
    rw [List.forall₂_map_right_iff] at h2
    rw [List.forall₂_same] at h2 ⊢
    intro v hv
    have hr := hall _ (List.mem_map_of_mem _ hv)
    have hf := rangeTest_finite t _ hr
    have h3 := JSNum.ofInt_trunc_strictEq _ hf (JSNum.round_WF v (hWF v hv))
      (JSNum.round_integral v hf)
    have h4 := h2 v hv
    rw [closeEnough_zero] at h4
    exact JSNum.strictEq_trans _ _ _ h3 (JSNum.strictEq_symm _ _ h4)
  cases t with
  | float32 =>
    have h2 := numberArrayEquals_forall₂ _ _ _ hsel
    simp only [Spec.storedValues] at h2 ⊢
    rw [List.forall₂_map_left_iff]
    rw [List.forall₂_map_right_iff] at h2
    rw [List.forall₂_same] at h2 ⊢
    intro v hv
    have h4 := h2 v hv
    rw [closeEnough_zero] at h4
    exact JSNum.strictEq_symm _ _ h4
  | float64 =>
    simp only [Spec.storedValues]
    rw [List.forall₂_same]
    intro v hv
    exact JSNum.strictEq_refl v (hnan v hv)
  | int8 => exact hint hsel.1 hsel.2
  | uint8 => exact hint hsel.1 hsel.2
  | int16 => exact hint hsel.1 hsel.2
  | uint16 => exact hint hsel.1 hsel.2
  | int32 => exact hint hsel.1 hsel.2
  | uint32 => exact hint hsel.1 hsel.2

theorem map_div_one (xs : List JSNum) (h : ∀ x ∈ xs, x.WF) :
    xs.map (fun x => x.div (JSNum.ofInt 1)) = xs := by
  induction xs with
  | nil => rfl
  | cons x xs ih =>
    simp only [List.map_cons]
    rw [JSNum.div_one x (h x (List.mem_cons_self _ _)),
      ih (fun y hy => h y (List.mem_cons_of_mem _ hy))]

/-- A command encoded with the default options and decoded with factor 1 comes back with
its letter and with values equal (`===`) to the original ones; the flags of an arc
identity are put back at position 3. -/
theorem roundtrip_default (c : Command) (rest : List Nat) (hty : c.type ∈ Spec.validTypes)
    (hlen : c.values.length = Spec.arity c.type) (hWF : ∀ x ∈ c.values, x.WF)
    (hnan : ∀ x ∈ c.values, x.isNaN = false) :
    ∃ vals, List.Forall₂ (fun d v => JSNum.strictEq d v = true) vals c.values ∧
      decodeAll ((encodeCommand c defaultOptions).flatten ++ rest) (JSNum.ofInt 1) =
        Gen.cons ⟨Spec.letter c.type,
            if Spec.isArc c.type then
              splice3 vals (JSNum.ofInt (Spec.largeArc c.type)) (JSNum.ofInt (Spec.sweep c.type))
            else vals⟩
          (decodeAll rest (JSNum.ofInt 1)) := by
  have hf : defaultOptions.factor = JSNum.ofInt 1 := rfl
  have he : defaultOptions.permissibleError = JSNum.ofInt 0 := rfl
  have hsv : scaledValues c.values defaultOptions.factor = c.values := by
    rw [hf]; exact scaledValues_one _
  have herr : defaultOptions.permissibleError.mul defaultOptions.factor = .fin false 0 := by
    rw [hf, he]; exact error_default
  obtain ⟨t, hjoin, _, _, hsel, hdec⟩ :=
    decodeRecord_encodeCommand c defaultOptions (JSNum.ofInt 1) rest hty hlen
      (by rw [hsv]; exact hWF)
  rw [hsv] at hjoin hdec hsel
  rw [herr] at hsel
  have hst := storedValues_WF t c.values _ hsel hWF
  rw [map_div_one _ hst] at hdec
  refine ⟨Spec.storedValues t c.values, storedValues_strictEq t c.values hsel hWF hnan, ?_⟩
  rw [hjoin]
  exact decodeAll_record _ _ _ _ _ hdec

end Encode

namespace Encode

open Host Decode

/-! ### Header layout, record size and selection order -/

theorem rangeTest_eq_inRange (t : StorageType) (ht : t ∈ Spec.integerCandidates) (x : JSNum)
    (hint : x.isFinite = true → x.isIntegral = true) :
    Spec.rangeTest t x = Spec.inRange t x := by
  have key : ∀ (lo hi : Int), (x.isFinite = true ∧ (lo : ℚ) ≤ x.toRat ∧ x.toRat < ((hi + 1 : Int) : ℚ)) ↔
      (x.isFinite = true ∧ (lo : ℚ) ≤ x.toRat ∧ x.toRat ≤ (hi : ℚ)) := by
    intro lo hi
    constructor
    · rintro ⟨hf, h1, h2⟩
      refine ⟨hf, h1, ?_⟩
      cases x with
      | nan => simp [JSNum.isFinite] at hf
      | inf s => simp [JSNum.isFinite] at hf
      | fin s n =>
        rw [JSNum.toRat_of_integral s n (hint hf)] at h2 ⊢
        have : JSNum.trunc (.fin s n) < hi + 1 := by exact_mod_cast h2
        exact_mod_cast (Int.lt_add_one_iff.1 this)
    · rintro ⟨hf, h1, h2⟩
      refine ⟨hf, h1, lt_of_le_of_lt h2 ?_⟩
      exact_mod_cast (Int.lt_add_one_iff.2 (le_refl hi))
  simp only [Spec.integerCandidates, List.mem_cons, List.mem_singleton, List.not_mem_nil,
    or_false] at ht
  rw [Bool.eq_iff_iff]
  rcases ht with rfl | rfl | rfl | rfl | rfl | rfl
  · have := key (-128) 127
    simp only [Spec.rangeTest, IS_INT8_iff, Spec.inRange, Spec.range, Bool.and_eq_true,
      decide_eq_true_eq, and_assoc]
    norm_num at this ⊢
    exact this
  · have := key (-32768) 32767
    simp only [Spec.rangeTest, IS_INT16_iff, Spec.inRange, Spec.range, Bool.and_eq_true,
      decide_eq_true_eq, and_assoc]
    norm_num at this ⊢
    exact this
  · have := key (-2147483648) 2147483647
    simp only [Spec.rangeTest, IS_INT32_iff, Spec.inRange, Spec.range, Bool.and_eq_true,
      decide_eq_true_eq, and_assoc]
    norm_num at this ⊢
    exact this
  · have := key 0 255
    simp only [Spec.rangeTest, IS_UINT8_iff, Spec.inRange, Spec.range, Bool.and_eq_true,
      decide_eq_true_eq, and_assoc]
    norm_num at this ⊢
    exact this
  · have := key 0 65535
    simp only [Spec.rangeTest, IS_UINT16_iff, Spec.inRange, Spec.range, Bool.and_eq_true,
      decide_eq_true_eq, and_assoc]
    norm_num at this ⊢
    exact this
  · have := key 0 4294967295
    simp only [Spec.rangeTest, IS_UINT32_iff, Spec.inRange, Spec.range, Bool.and_eq_true,
      decide_eq_true_eq, and_assoc]
    norm_num at this ⊢
    exact this

/-- On rounded values the range tests of the encoder decide membership in the numeric
range of the storage type. -/
theorem all_rangeTest_round (t : StorageType) (ht : t ∈ Spec.integerCandidates)
    (floats : List JSNum) :
    (floats.map JSNum.round).all (Spec.rangeTest t) =
      (floats.map JSNum.round).all (Spec.inRange t) := by
  induction floats with
  | nil => rfl
  | cons v vs ih =>
    simp only [List.map_cons, List.all_cons, ih]
    rw [rangeTest_eq_inRange t ht _ (JSNum.round_integral v)]

/-- A payload of `n` elements of `size` bytes is read back whole, whatever it holds. -/
theorem readValues_exact (code size : Nat) (factor : JSNum) (rest : List Nat) :
    ∀ (n : Nat) (payload : List Nat), payload.length = n * size →
      ∃ values, readValues code size factor n (payload ++ rest) = some (values, rest) := by
  intro n
  induction n with
  | zero =>
    intro payload h
    have : payload = [] := List.length_eq_zero.1 (by simpa using h)
    subst this
    exact ⟨[], rfl⟩
  | succ k ih =>
    intro payload h
    have hsz : size ≤ payload.length := by
      rw [h, Nat.succ_mul]; exact Nat.le_add_left _ _
    obtain ⟨vs, hvs⟩ := ih (payload.drop size) (by
      rw [List.length_drop, h, Nat.succ_mul]; omega)
    refine ⟨(MMAP code ((payload ++ rest).take size)).div factor :: vs, ?_⟩
    simp only [readValues]
    have h1 : ¬ ((payload ++ rest).length < size) := by
      simp only [List.length_append]; omega
    have h2 : (payload ++ rest).drop size = payload.drop size ++ rest :=
      List.drop_append_of_le_length hsz
    simp only [h1, if_false, h2, hvs]

theorem payloadBytes_length (t : StorageType) (floats : List JSNum) :
    (Spec.payloadBytes t floats).length = floats.length * Spec.width t := by
  have h : ∀ (w : Nat) (g : JSNum → Nat) (xs : List JSNum),
      (xs.flatMap (fun x => leBytes w (g x))).length = xs.length * w := by
    intro w g xs
    induction xs with
    | nil => simp
    | cons x xs ih =>
      simp only [List.flatMap_cons, List.length_append, leBytes_length, ih, List.length_cons]
      ring
  cases t <;>
    simp only [Spec.payloadBytes, int8Bytes, int16Bytes, int32Bytes, float32Bytes,
      float64Bytes, Float32Array, List.flatMap_map, Spec.width, h, List.length_map]

end Encode

/-! ## The claims -/

open Host Encode Decode

/-- C4. Header byte layout: for every command identity that reaches `encodeCommand`, the
first chunk is one byte `hd`; its bits 7-4 (`hd / 16`) are the 4-bit command code
(H=1, V=2, T=3, M=4, L=5, Q=6, S=7, C=14, Z=15, arc `8 + 2 * largeArc + sweep`), its
bit 3 is set exactly for a lower-case letter, and its bits 2-0 (`hd % 8`) are the code
of the storage type `t` of the payload chunk (int8=0 ... float64=7), and 0 when the
command has no values. -/
theorem C4_header_byte_layout (c : Command) (o : Options) (hty : c.type ∈ Spec.validTypes) :
    ∃ hd t, hd < 256 ∧
      encodeCommand c o =
        (if c.values = [] then [[hd]]
         else [[hd], Spec.payloadBytes t (scaledValues c.values o.factor)]) ∧
      hd / 16 = Spec.commandCode c.type ∧
      (hd / 8 % 2 = 1 ↔ Spec.isRelative c.type = true) ∧
      hd % 8 = Spec.widthCode t ∧
      (c.values = [] → hd % 8 = 0) := by
  have hfacts : ∀ t, commandMask c.type ||| TYPE_MASK t < 256 ∧
      (commandMask c.type ||| TYPE_MASK t) / 16 = Spec.commandCode c.type ∧
      ((commandMask c.type ||| TYPE_MASK t) / 8 % 2 = 1 ↔ Spec.isRelative c.type = true) ∧
      (commandMask c.type ||| TYPE_MASK t) % 8 = Spec.widthCode t := by
    intro t
    obtain ⟨h1, h2, h3, h4, _⟩ := header_facts c.type hty t (mem_storageTypes t)
    refine ⟨h1, h2, ?_, h3⟩
    rw [← h4, decide_eq_true_eq]
  by_cases hnil : c.values = []
  · obtain ⟨h1, h2, h3, h4⟩ := hfacts .int8
    refine ⟨commandMask c.type ||| TYPE_MASK .int8, .int8, h1, ?_, h2, h3, h4, fun _ => h4⟩
    rw [if_pos hnil, commandMask_int8]
    rw [commandMask_int8] at h1
    simp [encodeCommand, hnil, headerChunk, Nat.mod_eq_of_lt h1]
  · obtain ⟨t, ht, _⟩ := encodeCommand_select c o hnil
    obtain ⟨h1, h2, h3, h4⟩ := hfacts t
    refine ⟨commandMask c.type ||| TYPE_MASK t, t, h1, ?_, h2, h3, h4, fun h => absurd h hnil⟩
    rw [if_neg hnil, ht]
    simp [headerChunk, Nat.mod_eq_of_lt h1]

/-- C4 at the relative move `m 1 2`: the header is `0x48` (code 4, relative, int8). -/
theorem C4_header_byte_layout_witness :
    "m" ∈ Spec.validTypes ∧
    ∃ hd t, hd < 256 ∧
      encodeCommand ⟨"m", [JSNum.ofInt 1, JSNum.ofInt 2]⟩ defaultOptions =
        (if [JSNum.ofInt 1, JSNum.ofInt 2] = [] then [[hd]]
         else [[hd], Spec.payloadBytes t
            (scaledValues [JSNum.ofInt 1, JSNum.ofInt 2] defaultOptions.factor)]) ∧
      hd / 16 = Spec.commandCode "m" ∧
      (hd / 8 % 2 = 1 ↔ Spec.isRelative "m" = true) ∧
      hd % 8 = Spec.widthCode t ∧
      ([JSNum.ofInt 1, JSNum.ofInt 2] = [] → hd % 8 = 0) :=
  ⟨by decide, C4_header_byte_layout ⟨"m", [JSNum.ofInt 1, JSNum.ofInt 2]⟩ defaultOptions
    (by decide)⟩

/-- C5. Wire record size: the bytes `encodeCommand` emits for a command with `arity`
values are one header byte followed by exactly `arity * width` payload bytes, `width`
being the byte size of the storage type named by the low 3 bits of the header; a
zero-arity command emits the header byte alone; and `decode`, for every record it
yields, consumes exactly `1 + arity * width` bytes (as named by the header) before it
goes on with the rest. -/
theorem C5_wire_record_size (c : Command) (o : Options) (factor : JSNum)
    (hty : c.type ∈ Spec.validTypes) (hlen : c.values.length = Spec.arity c.type) :
    (∃ hd payload, (encodeCommand c o).flatten = hd :: payload ∧
      payload.length = Spec.arity c.type * Spec.widthOfCode (hd % 8) ∧
      (Spec.arity c.type = 0 → encodeCommand c o = [[hd]]) ∧
      ∀ rest, ∃ command,
        decodeAll (hd :: payload ++ rest) factor = Gen.cons command (decodeAll rest factor)) ∧
    (∀ (byte : Nat) (bytes rest : List Nat) (command : Command),
      decodeRecord factor (byte % 256) bytes = .ok (command, rest) →
      ∃ payload, bytes = payload ++ rest ∧
        payload.length =
          Spec.arityOfCode (byte % 256 / 16) * Spec.widthOfCode (byte % 256 % 8) ∧
        decodeAll (byte :: bytes) factor = Gen.cons command (decodeAll rest factor)) := by
  constructor
  · have hzero : Spec.arity c.type = 0 → c.values = [] := fun h =>
      List.length_eq_zero.1 (hlen.trans h)
    have hw : ∀ t, Spec.widthOfCode (Spec.widthCode t) = Spec.width t := by
      intro t; cases t <;> rfl
    have main : ∀ t, (encodeCommand c o =
          (if c.values = [] then [[commandMask c.type ||| TYPE_MASK t]]
           else [[commandMask c.type ||| TYPE_MASK t],
             Spec.payloadBytes t (scaledValues c.values o.factor)])) →
        (c.values = [] → t = .int8) →
        ∃ hd payload, (encodeCommand c o).flatten = hd :: payload ∧
          payload.length = Spec.arity c.type * Spec.widthOfCode (hd % 8) ∧
          (Spec.arity c.type = 0 → encodeCommand c o = [[hd]]) ∧
          ∀ rest, ∃ command,
            decodeAll (hd :: payload ++ rest) factor =
              Gen.cons command (decodeAll rest factor) := by
      intro t henc hnilt
      obtain ⟨h1, _, h3, _⟩ := header_facts c.type hty t (mem_storageTypes t)
      have hpl : (Spec.payloadBytes t (scaledValues c.values o.factor)).length =
          Spec.arity c.type * Spec.width t := by
        rw [payloadBytes_length, scaledValues_length, hlen]
      refine ⟨commandMask c.type ||| TYPE_MASK t,
        Spec.payloadBytes t (scaledValues c.values o.factor), ?_, ?_, ?_, ?_⟩
      · rw [henc]
        by_cases hnil : c.values = []
        · rw [if_pos hnil, hnil, scaledValues_nil, hnilt hnil]
          simp [Spec.payloadBytes, int8Bytes]
        · rw [if_neg hnil]
          simp
      · rw [h3, hw, hpl]
      · intro h0
        rw [henc, if_pos (hzero h0)]
      · intro rest
        obtain ⟨values, hv⟩ := readValues_exact (Spec.widthCode t) (Spec.width t) factor rest
          (Spec.arity c.type) _ hpl
        have hd := decodeRecord_header c.type hty t factor
          (Spec.payloadBytes t (scaledValues c.values o.factor) ++ rest)
        rw [hv] at hd
        exact ⟨_, decodeAll_record factor _ _ rest _ (by rw [Nat.mod_eq_of_lt h1]; exact hd)⟩
    by_cases hnil : c.values = []
    · apply main .int8 _ (fun _ => rfl)
      rw [if_pos hnil, commandMask_int8]
      have h1 := (header_facts c.type hty .int8 (mem_storageTypes _)).1
      rw [commandMask_int8] at h1
      simp [encodeCommand, hnil, headerChunk, Nat.mod_eq_of_lt h1]
    · obtain ⟨t, ht, _⟩ := encodeCommand_select c o hnil
      have h1 := (header_facts c.type hty t (mem_storageTypes _)).1
      apply main t _ (fun h => absurd h hnil)
      rw [if_neg hnil, ht]
      simp [headerChunk, Nat.mod_eq_of_lt h1]
  · intro byte bytes rest command h
    have hlt : byte % 256 < 256 := Nat.mod_lt _ (by decide)
    generalize hb : byte % 256 = b at h hlt
    have htab : ∀ b < 256, Decode.COMMANDS.getD (b >>> 4) '_' ≠ '_' →
        (Decode.ARGS.getD (b >>> 4) none).getD 0 = Spec.arityOfCode (b / 16) ∧
        Decode.SMAP.getD (b &&& 0b111) 0 = Spec.widthOfCode (b % 8) := by
      decide!
    have h' := h
    unfold decodeRecord at h
    by_cases h0 : Decode.COMMANDS.getD (b >>> 4) '_' = '_'
    · rw [if_pos h0] at h
      cases h
    · rw [if_neg h0] at h
      obtain ⟨ha, hs⟩ := htab b hlt h0
      cases hr : readValues (b &&& 0b111) (Decode.SMAP.getD (b &&& 0b111) 0) factor
          ((Decode.ARGS.getD (b >>> 4) none).getD 0) bytes with
      | none =>
        rw [hr] at h
        cases h
      | some p =>
        obtain ⟨values, rest'⟩ := p
        rw [hr] at h
        simp only [Except.ok.injEq, Prod.mk.injEq] at h
        obtain ⟨_, hrest⟩ := h
        rw [hrest] at hr
        have hl := (readValues_length _ _ _ _ _ _ _ hr).2
        have hsuf : ∀ (code size : Nat) (n : Nat) (bs vs r : List Nat) (vals : List JSNum),
            readValues code size factor n bs = some (vals, r) → ∃ p, bs = p ++ r := by
          intro code size n
          induction n with
          | zero =>
            intro bs _ r vals hh
            simp only [readValues, Option.some.injEq, Prod.mk.injEq] at hh
            exact ⟨[], by simp [hh.2]⟩
          | succ k ih =>
            intro bs vs r vals hh
            simp only [readValues] at hh
            split_ifs at hh with hlt2
            cases hq : readValues code size factor k (bs.drop size) with
            | none => simp [hq] at hh
            | some q =>
              obtain ⟨v2, r2⟩ := q
              simp only [hq, Option.some.injEq, Prod.mk.injEq] at hh
              obtain ⟨p, hp⟩ := ih (bs.drop size) vs r2 v2 hq
              refine ⟨bs.take size ++ p, ?_⟩
              rw [List.append_assoc, ← hh.2, ← hp, List.take_append_drop]
        obtain ⟨p, hp⟩ := hsuf _ _ _ bytes [] rest values hr
        refine ⟨p, hp, ?_, ?_⟩
        · rw [hp, List.length_append, ha, hs] at hl
          omega
        · rw [decodeAll_eq, decodeAll_eq]
          exact decodeLoop_record factor byte bytes rest command (by rw [hb]; exact h')

/-- C5 at `M 1 1` (header `0x40`, two int8 values) and at the record `0x40 0x01 0x01`. -/
theorem C5_wire_record_size_witness :
    (∃ hd payload, (encodeCommand ⟨"M", [JSNum.ofInt 1, JSNum.ofInt 1]⟩ defaultOptions).flatten =
        hd :: payload ∧
      payload.length = Spec.arity "M" * Spec.widthOfCode (hd % 8) ∧
      (Spec.arity "M" = 0 →
        encodeCommand ⟨"M", [JSNum.ofInt 1, JSNum.ofInt 1]⟩ defaultOptions = [[hd]]) ∧
      ∀ rest, ∃ command,
        decodeAll (hd :: payload ++ rest) (JSNum.ofInt 1) =
          Gen.cons command (decodeAll rest (JSNum.ofInt 1))) ∧
    (∀ (byte : Nat) (bytes rest : List Nat) (command : Command),
      decodeRecord (JSNum.ofInt 1) (byte % 256) bytes = .ok (command, rest) →
      ∃ payload, bytes = payload ++ rest ∧
        payload.length =
          Spec.arityOfCode (byte % 256 / 16) * Spec.widthOfCode (byte % 256 % 8) ∧
        decodeAll (byte :: bytes) (JSNum.ofInt 1) =
          Gen.cons command (decodeAll rest (JSNum.ofInt 1))) :=
  C5_wire_record_size ⟨"M", [JSNum.ofInt 1, JSNum.ofInt 1]⟩ defaultOptions (JSNum.ofInt 1)
    (by decide) (by decide)

open Host Encode Decode

/-- C6. Width-selection order: whenever every scaled value is within tolerance of its
rounded integer, `encodeCommand` stores the rounded values with the first of signed-8,
signed-16, signed-32, unsigned-8, unsigned-16, unsigned-32 (in that order) whose
numeric range contains every rounded value.  In particular the single value 200
(factor 1, no permissible error) is stored as signed-16 (width code 2) with the
2-byte payload `C8 00`, although the range of unsigned-8 contains it. -/
theorem C6_width_selection_order :
    (∀ (c : Command) (o : Options) (t : StorageType), c.values ≠ [] →
      numberArrayEquals (scaledValues c.values o.factor)
        ((scaledValues c.values o.factor).map JSNum.round)
        (o.permissibleError.mul o.factor) = true →
      Spec.integerCandidates.find?
        (fun t => ((scaledValues c.values o.factor).map JSNum.round).all (Spec.inRange t))
        = some t →
      encodeCommand c o =
        [[(commandMask c.type ||| Spec.widthCode t) % 256],
         Spec.payloadBytes t (scaledValues c.values o.factor)]) ∧
    encodeCommand ⟨"H", [JSNum.ofInt 200]⟩ defaultOptions = [[16 + 2], [200, 0]] ∧
    Spec.inRange .int8 (JSNum.ofInt 200) = false ∧
    Spec.inRange .uint8 (JSNum.ofInt 200) = true ∧
    Spec.integerCandidates = [.int8, .int16, .int32, .uint8, .uint16, .uint32] := by
  refine ⟨?_, by decide!, by decide!, by decide!, rfl⟩
  intro c o t hne htol hfind
  have hlen : ¬ (c.values.length = 0) := fun h => hne (List.length_eq_zero.1 h)
  have hR := fun t ht => all_rangeTest_round t ht (scaledValues c.values o.factor)
  have h8 := hR .int8 (by decide)
  have h16 := hR .int16 (by decide)
  have h32 := hR .int32 (by decide)
  have hu8 := hR .uint8 (by decide)
  have hu16 := hR .uint16 (by decide)
  have hu32 := hR .uint32 (by decide)
  simp only [Spec.rangeTest] at h8 h16 h32 hu8 hu16 hu32
  unfold encodeCommand
  simp only [hlen, if_false, htol, if_true]
  unfold integerChunks
  rw [h8, h16, h32, hu8, hu16, hu32]
  generalize scaledValues c.values o.factor = floats at hfind ⊢
  simp only [Spec.integerCandidates, List.find?] at hfind
  by_cases c1 : (floats.map JSNum.round).all (Spec.inRange .int8) = true
  · simp only [c1] at hfind
    cases hfind
    simp [c1, headerChunk, TYPE_MASK, Spec.widthCode, Spec.payloadBytes]
  · simp only [c1] at hfind
    by_cases c2 : (floats.map JSNum.round).all (Spec.inRange .int16) = true
    · simp only [c2] at hfind
      cases hfind
      simp [c1, c2, headerChunk, TYPE_MASK, Spec.widthCode, Spec.payloadBytes]
    · simp only [c2] at hfind
      by_cases c3 : (floats.map JSNum.round).all (Spec.inRange .int32) = true
      · simp only [c3] at hfind
        cases hfind
        simp [c1, c2, c3, headerChunk, TYPE_MASK, Spec.widthCode, Spec.payloadBytes]
      · simp only [c3] at hfind
        by_cases c4 : (floats.map JSNum.round).all (Spec.inRange .uint8) = true
        · simp only [c4] at hfind
          cases hfind
          simp [c1, c2, c3, c4, headerChunk, TYPE_MASK, Spec.widthCode, Spec.payloadBytes]
        · simp only [c4] at hfind
          by_cases c5 : (floats.map JSNum.round).all (Spec.inRange .uint16) = true
          · simp only [c5] at hfind
            cases hfind
            simp [c1, c2, c3, c4, c5, headerChunk, TYPE_MASK, Spec.widthCode,
              Spec.payloadBytes]
          · simp only [c5] at hfind
            by_cases c6 : (floats.map JSNum.round).all (Spec.inRange .uint32) = true
            · simp only [c6] at hfind
              cases hfind
              simp [c1, c2, c3, c4, c5, c6, headerChunk, TYPE_MASK, Spec.widthCode,
                Spec.payloadBytes]
            · simp [c6] at hfind

/-- C6 at `H 200`: signed-8 does not contain 200, signed-16 is the first candidate that
does, and the record is `12 C8 00`. -/
theorem C6_width_selection_order_witness :
    encodeCommand ⟨"H", [JSNum.ofInt 200]⟩ defaultOptions =
      [[(commandMask "H" ||| Spec.widthCode .int16) % 256],
       Spec.payloadBytes .int16 (scaledValues [JSNum.ofInt 200] defaultOptions.factor)] :=
  C6_width_selection_order.1 ⟨"H", [JSNum.ofInt 200]⟩ defaultOptions .int16
    (by decide) (by decide!) (by decide!)

open Host Encode Decode

namespace Encode

/-! ### Ungrouping -/

theorem sliceLoop_spec (values : List JSNum) (n : Nat) (hn : 0 < n) :
    ∀ (k fuel i : Nat), k ≤ fuel → values.length = i + k * n →
      (sliceLoop values n fuel i).length = k ∧
      (∀ vs ∈ sliceLoop values n fuel i, vs.length = n) ∧
      (sliceLoop values n fuel i).flatten = values.drop i := by
  intro k
  induction k with
  | zero =>
    intro fuel i _ hlen
    have hi : ¬ (i < values.length) := by omega
    have hdrop : values.drop i = [] := List.drop_eq_nil_of_le (by omega)
    cases fuel with
    | zero => simp [sliceLoop, hdrop]
    | succ f => simp [sliceLoop, hi, hdrop]
  | succ k ih =>
    intro fuel i hk hlen
    cases fuel with
    | zero => omega
    | succ f =>
      have hexp : (k + 1) * n = k * n + n := by ring
      have hi : i < values.length := by omega
      obtain ⟨h1, h2, h3⟩ := ih f (i + n) (by omega) (by omega)
      simp only [sliceLoop, hi, if_true]
      refine ⟨by simp [h1], ?_, ?_⟩
      · intro vs hvs
        rcases List.mem_cons.1 hvs with rfl | hvs
        · simp only [List.length_take, List.length_drop]
          omega
        · exact h2 vs hvs
      · simp only [List.flatten_cons, h3]
        rw [← List.drop_drop, List.take_append_drop]

theorem raw_arg_counts_letters : ∀ ty ∈ Spec.letters,
    RAW_ARG_COUNTS (toUpperCase ty) = some (Spec.rawArity ty) := by
  decide!

theorem ungroupCommands_single (c : Command) :
    ungroupCommands ⟨[c], none⟩ = ungroupCommand c := by
  unfold ungroupCommands Gen.stage
  simp only [Gen.forEach]
  cases h : (ungroupCommand c).err with
  | none =>
    simp only [Gen.append, List.append_nil]
    rw [← h]
  | some e =>
    simp only
    rw [← h]

end Encode

/-- C9. Shorthand expansion: a grouped command whose letter has arity `n > 0` and whose
value list has length `k * n`, `k ≥ 1`, ungroups into exactly `k` commands with the same
letter and `n` values each, whose value lists concatenate to the original list.  In
particular `"L10 10 20 20"` ungroups into two `L` commands with values `[10, 10]` and
`[20, 20]`. -/
theorem C9_shorthand_expansion :
    (∀ (c : Command) (k : Nat), c.type ∈ Spec.letters → 0 < Spec.rawArity c.type → 1 ≤ k →
      c.values.length = k * Spec.rawArity c.type →
      ∃ cmds, ungroupCommands ⟨[c], none⟩ = ⟨cmds, none⟩ ∧ cmds.length = k ∧
        (∀ d ∈ cmds, d.type = c.type ∧ d.values.length = Spec.rawArity c.type) ∧
        (cmds.map Command.values).flatten = c.values) ∧
    ungroupCommands (parseGroupedCommands (tokenizePath 0 "L10 10 20 20")) =
      ⟨[⟨"L", [JSNum.ofInt 10, JSNum.ofInt 10]⟩, ⟨"L", [JSNum.ofInt 20, JSNum.ofInt 20]⟩],
       none⟩ := by
  refine ⟨?_, by decide!⟩
  intro c k hty hn hk hlen
  have hraw := raw_arg_counts_letters c.type hty
  have hn0 : ¬ (Spec.rawArity c.type = 0) := by omega
  have hkpos : 0 < k * Spec.rawArity c.type := Nat.mul_pos (by omega) hn
  have hl0 : ¬ (c.values.length = 0) := by omega
  have hmod : c.values.length % Spec.rawArity c.type = 0 := by
    rw [hlen]; exact Nat.mul_mod_left _ _
  have hk2 : k ≤ c.values.length := by
    rw [hlen]; exact Nat.le_mul_of_pos_right k hn
  obtain ⟨h1, h2, h3⟩ := sliceLoop_spec c.values (Spec.rawArity c.type) hn k
    c.values.length 0 hk2 (by omega)
  refine ⟨(sliceLoop c.values (Spec.rawArity c.type) c.values.length 0).map
    (fun vs => ⟨c.type, vs⟩), ?_, by simp [h1], ?_, ?_⟩
  · rw [ungroupCommands_single]
    simp [ungroupCommand, hraw, hn0, hl0, hmod]
  · intro d hd
    obtain ⟨vs, hvs, rfl⟩ := List.mem_map.1 hd
    exact ⟨rfl, h2 vs hvs⟩
  · rw [List.map_map]
    have : (Command.values ∘ fun vs => (⟨c.type, vs⟩ : Command)) = id := rfl
    rw [this, List.map_id, h3, List.drop_zero]

/-- C9 at the grouped command `L 10 10 20 20` (`k = 2`, arity 2). -/
theorem C9_shorthand_expansion_witness :
    ∃ cmds, ungroupCommands ⟨[⟨"L", [JSNum.ofInt 10, JSNum.ofInt 10, JSNum.ofInt 20,
          JSNum.ofInt 20]⟩], none⟩ = ⟨cmds, none⟩ ∧ cmds.length = 2 ∧
      (∀ d ∈ cmds, d.type = "L" ∧ d.values.length = Spec.rawArity "L") ∧
      (cmds.map Command.values).flatten =
        [JSNum.ofInt 10, JSNum.ofInt 10, JSNum.ofInt 20, JSNum.ofInt 20] :=
  C9_shorthand_expansion.1
    ⟨"L", [JSNum.ofInt 10, JSNum.ofInt 10, JSNum.ofInt 20, JSNum.ofInt 20]⟩ 2
    (by decide) (by decide) (by decide) (by decide)

/-- C10. `ArityMismatch` exactly when required: for a grouped command with one of the 20
letters, ungrouping fails, with the arity error, if and only if either the arity of the
letter is 0 (Z/z) and there are values, or the arity is positive and the number of
values is 0 or not a multiple of it.  In particular `"L10"` is rejected, and `Z`/`z`
without values yields one command with an empty value list. -/
theorem C10_arity_mismatch :
    (∀ (c : Command), c.type ∈ Spec.letters →
      ((ungroupCommands ⟨[c], none⟩).err ≠ none ↔
        (Spec.rawArity c.type = 0 ∧ c.values ≠ []) ∨
        (0 < Spec.rawArity c.type ∧
          (c.values.length = 0 ∨ c.values.length % Spec.rawArity c.type ≠ 0))) ∧
      ((ungroupCommands ⟨[c], none⟩).err ≠ none →
        ungroupCommands ⟨[c], none⟩ = ⟨[], some .arityMismatch⟩)) ∧
    ungroupCommands (parseGroupedCommands (tokenizePath 0 "L10")) = ⟨[], some .arityMismatch⟩ ∧
    encode 0 "L10" defaultOptions = ⟨[], some .arityMismatch⟩ ∧
    ungroupCommands ⟨[⟨"Z", []⟩], none⟩ = ⟨[⟨"Z", []⟩], none⟩ ∧
    ungroupCommands ⟨[⟨"z", []⟩], none⟩ = ⟨[⟨"z", []⟩], none⟩ := by
  refine ⟨?_, by decide!, by decide!, by decide!, by decide!⟩
  intro c hty
  have hraw := raw_arg_counts_letters c.type hty
  rw [ungroupCommands_single]
  unfold ungroupCommand
  rw [hraw]
  simp only
  by_cases h0 : Spec.rawArity c.type = 0
  · rw [if_pos h0]
    by_cases hv : c.values.length > 0
    · rw [if_pos hv]
      have hne : c.values ≠ [] := fun h => by simp [h] at hv
      simp [h0, hne]
    · rw [if_neg hv]
      have hnil : c.values = [] := List.length_eq_zero.1 (by omega)
      simp [h0, hnil]
  · rw [if_neg h0]
    have hpos : 0 < Spec.rawArity c.type := Nat.pos_of_ne_zero h0
    by_cases hl : c.values.length = 0
    · rw [if_pos hl]
      simp [hpos, hl]
    · rw [if_neg hl]
      by_cases hm : c.values.length % Spec.rawArity c.type ≠ 0
      · rw [if_pos hm]
        simp [hpos, hm]
      · rw [if_neg hm]
        simp [h0, hl, hm]

/-- C10 at the grouped command `L 10`: one value for arity 2 is rejected. -/
theorem C10_arity_mismatch_witness :
    ((ungroupCommands ⟨[⟨"L", [JSNum.ofInt 10]⟩], none⟩).err ≠ none ↔
        (Spec.rawArity "L" = 0 ∧ [JSNum.ofInt 10] ≠ []) ∨
        (0 < Spec.rawArity "L" ∧
          ([JSNum.ofInt 10].length = 0 ∨ [JSNum.ofInt 10].length % Spec.rawArity "L" ≠ 0))) ∧
      ((ungroupCommands ⟨[⟨"L", [JSNum.ofInt 10]⟩], none⟩).err ≠ none →
        ungroupCommands ⟨[⟨"L", [JSNum.ofInt 10]⟩], none⟩ = ⟨[], some .arityMismatch⟩) :=
  C10_arity_mismatch.1 ⟨"L", [JSNum.ofInt 10]⟩ (by decide)

open Host Encode Decode

/-- C7 at its failing input `H 200` with the default options: `encodeCommand` emits
header `0x12` (signed-16) and the 2-byte payload `C8 00`, while unsigned-8, one byte
wide, holds 200 exactly: written as a `Uint8Array` element and read back it is 200
again, and it passes the encoder's own `IS_UINT8` test. -/
theorem C7_narrowest_width_failing_input :
    encodeCommand ⟨"H", [JSNum.ofInt 200]⟩ defaultOptions = [[0x12], [200, 0]] ∧
    Spec.widthOfCode (0x12 % 8) = 2 ∧
    Spec.width .uint8 = 1 ∧
    IS_UINT8 (JSNum.ofInt 200) = true ∧
    MMAP (Spec.widthCode .uint8) (Spec.payloadBytes .uint8 [JSNum.ofInt 200]) = JSNum.ofInt 200 ∧
    numberArrayEquals [JSNum.ofInt 200] (Spec.storedValues .uint8 [JSNum.ofInt 200])
      (JSNum.ofInt 0) = true := by
  decide!

/-- C8, refuted: encoding `"M1.005 2.005"` with factor 100 and no permissible error does
not give a record with an integer storage type (and so no decoding of it gives
`1.00, 2.01`). -/
theorem C8_factor_scaling_counterexample :
    ¬ ∃ t hd payload, t ∈ Spec.integerCandidates ∧
      encode 0 "M1.005 2.005" ⟨JSNum.ofInt 100, JSNum.ofInt 0⟩ = ⟨[[hd], payload], none⟩ ∧
      hd % 8 = Spec.widthCode t ∧
      decodeAll (hd :: payload) (JSNum.ofInt 100) =
        ⟨[⟨"M", [parseFloat "1.00", parseFloat "2.01"]⟩], none⟩ := by
  rintro ⟨t, hd, payload, ht, henc, hmod, _⟩
  have hval : encode 0 "M1.005 2.005" ⟨JSNum.ofInt 100, JSNum.ofInt 0⟩ =
      ⟨[[0x47], [255, 255, 255, 255, 255, 31, 89, 64, 0, 0, 0, 0, 0, 16, 105, 64]], none⟩ := by
    decide!
  rw [hval] at henc
  have h1 : hd = 0x47 := by
    injection henc with hitems _
    injection hitems with hhead _
    injection hhead with hh _
    exact hh.symm
  subst h1
  simp only [Spec.integerCandidates, List.mem_cons, List.mem_singleton, List.not_mem_nil,
    or_false] at ht
  rcases ht with rfl | rfl | rfl | rfl | rfl | rfl <;> simp [Spec.widthCode] at hmod

/-- C8, amended: encoding `"M1.005 2.005"` with factor 100 and no permissible error
produces one record with header `0x47` (command M, width code 7: float64) whose
16-byte payload holds the two scaled values `1.005 * 100 = 100.49999999999999` and
`2.005 * 100 = 200.5` as float64, neither being an integer; decoding that record with
factor 100 yields the Numbers `1.005` and `2.005`. -/
theorem C8_factor_scaling_amended :
    encode 0 "M1.005 2.005" ⟨JSNum.ofInt 100, JSNum.ofInt 0⟩ =
      ⟨[[0x47], float64Bytes [(parseFloat "1.005").mul (JSNum.ofInt 100),
          (parseFloat "2.005").mul (JSNum.ofInt 100)]], none⟩ ∧
    0x47 / 16 = Spec.commandCode "M" ∧ 0x47 % 8 = Spec.widthCode .float64 ∧
    (parseFloat "1.005").mul (JSNum.ofInt 100) = parseFloat "100.49999999999999" ∧
    (parseFloat "2.005").mul (JSNum.ofInt 100) = parseFloat "200.5" ∧
    ((parseFloat "1.005").mul (JSNum.ofInt 100)).isIntegral = false ∧
    ((parseFloat "2.005").mul (JSNum.ofInt 100)).isIntegral = false ∧
    decodeAll (encode 0 "M1.005 2.005" ⟨JSNum.ofInt 100, JSNum.ofInt 0⟩).items.flatten
        (JSNum.ofInt 100) =
      ⟨[⟨"M", [parseFloat "1.005", parseFloat "2.005"]⟩], none⟩ := by
  decide!

/-- C2, refuted at factor 3: the value `0.1` of `H 0.1`, encoded with factor 3 and
decoded with factor 3, comes back as `0.10000000000000002`, one unit in the last place
above `0.1`: not equal to it when the permissible error is 0, and not closer to it than
the permissible error `1e-17`. -/
theorem C2_lossy_round_trip_counterexample :
    decodeAll (encodeCommand ⟨"H", [parseFloat "0.1"]⟩ ⟨JSNum.ofInt 3, JSNum.ofInt 0⟩).flatten
        (JSNum.ofInt 3) = ⟨[⟨"H", [parseFloat "0.10000000000000002"]⟩], none⟩ ∧
    JSNum.strictEq (parseFloat "0.10000000000000002") (parseFloat "0.1") = false ∧
    decodeAll (encodeCommand ⟨"H", [parseFloat "0.1"]⟩ ⟨JSNum.ofInt 3, parseFloat "1e-17"⟩).flatten
        (JSNum.ofInt 3) = ⟨[⟨"H", [parseFloat "0.10000000000000002"]⟩], none⟩ ∧
    JSNum.lt (JSNum.abs (JSNum.sub (parseFloat "0.10000000000000002") (parseFloat "0.1")))
      (parseFloat "1e-17") = false ∧
    ¬ (|(parseFloat "0.10000000000000002").toRat - (parseFloat "0.1").toRat| <
        (parseFloat "1e-17").toRat) := by
  decide!

open Host Encode Decode

namespace Host

/-! ### Lossy settings with factor 1 -/

theorem JSNum.strictEq_zero_iff (s : Bool) (n : Nat) :
    JSNum.strictEq (.fin s n) (JSNum.ofInt 0) = true ↔ JSNum.toRat (.fin s n) = 0 := by
  rw [JSNum.ofInt_zero, JSNum.strictEq_iff]
  have h0 : JSNum.toRat (.fin false 0) = 0 := by simp [JSNum.toRat, b64.scaled_zero]
  rw [← h0, ← JSNum.key_eq_iff]
  simp [JSNum.isNaN]

theorem JSNum.strictEq_toRat (a b : JSNum) (ha : a.isFinite = true) (hb : b.isFinite = true)
    (h : a.strictEq b = true) : a.toRat = b.toRat := by
  cases a with
  | nan => simp [JSNum.isFinite] at ha
  | inf s => simp [JSNum.isFinite] at ha
  | fin s n =>
    cases b with
    | nan => simp [JSNum.isFinite] at hb
    | inf t => simp [JSNum.isFinite] at hb
    | fin t m => exact (JSNum.key_eq_iff s t n m).1 ((JSNum.strictEq_iff _ _).1 h).2.2

theorem JSNum.strictEq_finite (a b : JSNum) (ha : a.WF) (hb : b.isFinite = true) (hbWF : b.WF)
    (h : a.strictEq b = true) : a.isFinite = true := by
  obtain ⟨h1, _, h3⟩ := (JSNum.strictEq_iff _ _).1 h
  cases b with
  | nan => simp [JSNum.isFinite] at hb
  | inf t => simp [JSNum.isFinite] at hb
  | fin t m =>
    have hm : m < b64.infOrd := hbWF
    cases a with
    | nan => simp [JSNum.isNaN] at h1
    | inf s =>
      exfalso
      simp only [JSNum.key] at h3
      generalize b64.infOrd = I at hm h3
      cases s <;> cases t <;> simp at h3 <;> omega
    | fin s n => rfl

end Host

namespace Encode

/-- What the tests of the encoder give for a value `d` read back from the record of the
scaled value `v` under the tolerance `e`. -/
theorem closeEnough_within (e v d : JSNum) (hv : v.isFinite = true) (hvWF : v.WF)
    (he : e.isFinite = true) (heWF : e.WF) (hpos : 0 ≤ e.toRat) (hdWF : d.WF)
    (h : closeEnough e v d = true) :
    d.isFinite = true ∧ (0 < e.toRat → |d.toRat - v.toRat| < e.toRat) ∧
      (e.toRat = 0 → d.strictEq v = true) := by
  cases e with
  | nan => simp [JSNum.isFinite] at he
  | inf s => simp [JSNum.isFinite] at he
  | fin es en =>
    unfold closeEnough at h
    by_cases hz : JSNum.strictEq (.fin es en) (JSNum.ofInt 0) = true
    · rw [if_pos hz] at h
      have h0 := (JSNum.strictEq_zero_iff es en).1 hz
      have hd := JSNum.strictEq_symm _ _ h
      refine ⟨JSNum.strictEq_finite d v hdWF hv hvWF hd, ?_, fun _ => hd⟩
      intro hlt
      rw [h0] at hlt
      exact absurd hlt (lt_irrefl _)
    · rw [if_neg hz] at h
      obtain ⟨hdf, hlt⟩ := JSNum.abs_sub_lt v d _ hv he heWF h
      refine ⟨hdf, fun _ => by rw [abs_sub_comm]; exact hlt, ?_⟩
      intro h0
      exact absurd ((JSNum.strictEq_zero_iff es en).2 h0) hz

theorem closeEnough_self (e v : JSNum) (hv : v.isFinite = true) :
    v.isFinite = true ∧ (0 < e.toRat → |v.toRat - v.toRat| < e.toRat) ∧
      (e.toRat = 0 → v.strictEq v = true) := by
  refine ⟨hv, fun h => by simpa using h, fun _ => JSNum.strictEq_refl v ?_⟩
  cases v <;> simp_all [JSNum.isFinite, JSNum.isNaN]

theorem closeEnough_congr (e v a b : JSNum) (hab : a.strictEq b = true)
    (ha : a.isFinite = true) (hb : b.isFinite = true)
    (h : b.isFinite = true ∧ (0 < e.toRat → |b.toRat - v.toRat| < e.toRat) ∧
      (e.toRat = 0 → b.strictEq v = true)) :
    a.isFinite = true ∧ (0 < e.toRat → |a.toRat - v.toRat| < e.toRat) ∧
      (e.toRat = 0 → a.strictEq v = true) := by
  have hr := JSNum.strictEq_toRat a b ha hb hab
  refine ⟨ha, ?_, fun h0 => JSNum.strictEq_trans _ _ _ hab (h.2.2 h0)⟩
  rw [hr]
  exact h.2.1

/-- With factor 1, every value read back from a record is finite and within the
permissible error of the value it stores. -/
theorem storedValues_within (t : StorageType) (floats : List JSNum) (e : JSNum)
    (hsel : Spec.Selected t floats e) (hfin : ∀ v ∈ floats, v.isFinite = true ∧ v.WF)
    (he : e.isFinite = true) (heWF : e.WF) (hpos : 0 ≤ e.toRat) :
    List.Forall₂ (fun d v => d.isFinite = true ∧
        (0 < e.toRat → |d.toRat - v.toRat| < e.toRat) ∧ (e.toRat = 0 → d.strictEq v = true))
      (Spec.storedValues t floats) floats := by
  have hWF : ∀ v ∈ floats, v.WF := fun v hv => (hfin v hv).2
  have hint : numberArrayEquals floats (floats.map JSNum.round) e = true →
      (floats.map JSNum.round).all (Spec.rangeTest t) = true →
      List.Forall₂ (fun d v => d.isFinite = true ∧
        (0 < e.toRat → |d.toRat - v.toRat| < e.toRat) ∧ (e.toRat = 0 → d.strictEq v = true))
        (floats.map (fun x => JSNum.ofInt (JSNum.round x).trunc)) floats := by
    intro hnae hall
    have h2 := numberArrayEquals_forall₂ _ _ _ hnae
    rw [List.all_eq_true] at hall
    rw [List.forall₂_map_left_iff]
    rw [List.forall₂_map_right_iff] at h2
    rw [List.forall₂_same] at h2 ⊢
    intro v hv
    have hr := hall _ (List.mem_map_of_mem _ hv)
    have hf := rangeTest_finite t _ hr
    have hrWF := JSNum.round_WF v (hWF v hv)
    have hri := JSNum.round_integral v hf
    have h3 := JSNum.ofInt_trunc_strictEq _ hf hrWF hri
    have h3WF := JSNum.ofInt_trunc_WF _ hf hrWF hri
    have h4 := closeEnough_within e v (JSNum.round v) (hfin v hv).1 (hWF v hv) he heWF hpos
      hrWF (h2 v hv)
    exact closeEnough_congr e v _ _ h3 (JSNum.strictEq_finite _ _ h3WF hf hrWF h3) hf h4
  cases t with
  | float32 =>
    have h2 := numberArrayEquals_forall₂ _ _ _ hsel
    simp only [Spec.storedValues] at h2 ⊢
    rw [List.forall₂_map_left_iff]
    rw [List.forall₂_map_right_iff] at h2
    rw [List.forall₂_same] at h2 ⊢
    intro v hv
    exact closeEnough_within e v _ (hfin v hv).1 (hWF v hv) he heWF hpos (ofFloat32_WF _)
      (h2 v hv)
  | float64 =>
    simp only [Spec.storedValues]
    rw [List.forall₂_same]
    intro v hv
    exact closeEnough_self e v (hfin v hv).1
  | int8 => exact hint hsel.1 hsel.2
  | uint8 => exact hint hsel.1 hsel.2
  | int16 => exact hint hsel.1 hsel.2
  | uint16 => exact hint hsel.1 hsel.2
  | int32 => exact hint hsel.1 hsel.2
  | uint32 => exact hint hsel.1 hsel.2

end Encode

/-- C2, amended to factor 1: for every command with finite values and every finite
permissible error `e ≥ 0`, encoding with `{factor: 1, permissibleError: e}` and decoding
the record with factor 1 gives back the letter and, for every value, a finite Number
that differs from the original by strictly less than `e` when `e > 0` and is equal
(`===`) to it when `e = 0` (the arc flags, carried by the header, are put back at
position 3). -/
theorem C2_lossy_round_trip_factor_one (c : Command) (e : JSNum)
    (hty : c.type ∈ Spec.validTypes) (hlen : c.values.length = Spec.arity c.type)
    (hfin : ∀ v ∈ c.values, v.isFinite = true ∧ v.WF)
    (he : e.isFinite = true ∧ e.WF ∧ 0 ≤ e.toRat) :
    ∃ vals,
      decodeAll (encodeCommand c ⟨JSNum.ofInt 1, e⟩).flatten (JSNum.ofInt 1) =
        ⟨[⟨Spec.letter c.type,
            if Spec.isArc c.type then
              splice3 vals (JSNum.ofInt (Spec.largeArc c.type)) (JSNum.ofInt (Spec.sweep c.type))
            else vals⟩], none⟩ ∧
      List.Forall₂ (fun d v => d.isFinite = true ∧
          (0 < e.toRat → |d.toRat - v.toRat| < e.toRat) ∧
          (e.toRat = 0 → d.strictEq v = true)) vals c.values := by
  obtain ⟨hef, heWF, hpos⟩ := he
  have hWF : ∀ v ∈ c.values, v.WF := fun v hv => (hfin v hv).2
  have hsv : scaledValues c.values (JSNum.ofInt 1) = c.values := scaledValues_one _
  have herr : e.mul (JSNum.ofInt 1) = e := JSNum.mul_one e heWF
  obtain ⟨t, hjoin, _, _, hsel, hdec⟩ :=
    decodeRecord_encodeCommand c ⟨JSNum.ofInt 1, e⟩ (JSNum.ofInt 1) [] hty hlen
      (by rw [hsv]; exact hWF)
  simp only [hsv, herr] at hjoin hdec hsel
  have hst := storedValues_WF t c.values _ hsel hWF
  rw [map_div_one _ hst] at hdec
  refine ⟨Spec.storedValues t c.values, ?_,
    storedValues_within t c.values e hsel hfin hef heWF hpos⟩
  rw [hjoin]
  have := decodeAll_record (JSNum.ofInt 1) _ _ [] _ hdec
  rw [List.append_nil] at this
  rw [this]
  rfl

/-- C2 (amended) at `H 0.5` with permissible error 0.6: the value comes back as 1. -/
theorem C2_lossy_round_trip_factor_one_witness :
    ∃ vals,
      decodeAll (encodeCommand ⟨"H", [parseFloat "0.5"]⟩ ⟨JSNum.ofInt 1, parseFloat "0.6"⟩).flatten
          (JSNum.ofInt 1) =
        ⟨[⟨Spec.letter "H",
            if Spec.isArc "H" then
              splice3 vals (JSNum.ofInt (Spec.largeArc "H")) (JSNum.ofInt (Spec.sweep "H"))
            else vals⟩], none⟩ ∧
      List.Forall₂ (fun d v => d.isFinite = true ∧
          (0 < (parseFloat "0.6").toRat → |d.toRat - v.toRat| < (parseFloat "0.6").toRat) ∧
          ((parseFloat "0.6").toRat = 0 → d.strictEq v = true)) vals [parseFloat "0.5"] :=
  C2_lossy_round_trip_factor_one ⟨"H", [parseFloat "0.5"]⟩ (parseFloat "0.6")
    (by decide) (by decide) (by decide!) (by decide!)

open Host Encode Decode

namespace Encode

/-! ### Arc flags -/

theorem expandACommands_single (c : Command) :
    expandACommands ⟨[c], none⟩ = expandACommand c := by
  unfold expandACommands Gen.stage
  simp only [Gen.forEach]
  cases h : (expandACommand c).err with
  | none =>
    simp only [Gen.append, List.append_nil]
    rw [← h]
  | some e =>
    simp only
    rw [← h]

theorem flag_tests :
    JSNum.strictEq (JSNum.ofInt 0) (JSNum.ofInt 0) = true ∧
    JSNum.strictEq (JSNum.ofInt 0) (JSNum.ofInt 1) = false ∧
    JSNum.strictEq (JSNum.ofInt 1) (JSNum.ofInt 0) = false ∧
    JSNum.strictEq (JSNum.ofInt 1) (JSNum.ofInt 1) = true := by
  decide!

/-- `expandACommand` on an arc with flags 0 or 1: the flags leave the values and their
digits join the letter. -/
theorem expandACommand_arc (ty : String) (rx ry rot f1 f2 x y : JSNum)
    (hty : ty = "A" ∨ ty = "a") (hf1 : f1 = JSNum.ofInt 0 ∨ f1 = JSNum.ofInt 1)
    (hf2 : f2 = JSNum.ofInt 0 ∨ f2 = JSNum.ofInt 1) :
    ∃ ety, expandACommand ⟨ty, [rx, ry, rot, f1, f2, x, y]⟩ = ⟨[⟨ety, [rx, ry, rot, x, y]⟩], none⟩ ∧
      ety ∈ Spec.validTypes ∧ Spec.letter ety = ty ∧ Spec.isArc ety = true ∧
      Spec.arity ety = 5 ∧
      JSNum.ofInt (Spec.largeArc ety) = f1 ∧ JSNum.ofInt (Spec.sweep ety) = f2 := by
  obtain ⟨s00, s01, s10, s11⟩ := flag_tests
  rcases hty with rfl | rfl <;> rcases hf1 with rfl | rfl <;> rcases hf2 with rfl | rfl
  · exact ⟨"A00", by simp [expandACommand, flagDigit, s00, s01],
      by decide, by decide, by decide, by decide, rfl, rfl⟩
  · exact ⟨"A01", by simp [expandACommand, flagDigit, s00, s01, s10, s11],
      by decide, by decide, by decide, by decide, rfl, rfl⟩
  · exact ⟨"A10", by simp [expandACommand, flagDigit, s00, s01, s10, s11],
      by decide, by decide, by decide, by decide, rfl, rfl⟩
  · exact ⟨"A11", by simp [expandACommand, flagDigit, s00, s01, s10, s11],
      by decide, by decide, by decide, by decide, rfl, rfl⟩
  · exact ⟨"a00", by simp [expandACommand, flagDigit, s00, s01],
      by decide, by decide, by decide, by decide, rfl, rfl⟩
  · exact ⟨"a01", by simp [expandACommand, flagDigit, s00, s01, s10, s11],
      by decide, by decide, by decide, by decide, rfl, rfl⟩
  · exact ⟨"a10", by simp [expandACommand, flagDigit, s00, s01, s10, s11],
      by decide, by decide, by decide, by decide, rfl, rfl⟩
  · exact ⟨"a11", by simp [expandACommand, flagDigit, s00, s01, s10, s11],
      by decide, by decide, by decide, by decide, rfl, rfl⟩

end Encode

/-- C3. Arc flag fidelity: an arc command (letter A or a) with values
`[rx, ry, rot, f1, f2, x, y]`, the flags being 0 or 1, passed through
`expandACommands`, `encodeCommand` and `decode` (default options, factor 1), comes back
as one command with the base letter, same case and no flag suffix, and seven values:
`f1` and `f2` at positions 3 and 4, and around them, in the original order, Numbers
equal (`===`) to the five residual values. -/
theorem C3_arc_flag_fidelity (ty : String) (rx ry rot f1 f2 x y : JSNum)
    (hty : ty = "A" ∨ ty = "a") (hf1 : f1 = JSNum.ofInt 0 ∨ f1 = JSNum.ofInt 1)
    (hf2 : f2 = JSNum.ofInt 0 ∨ f2 = JSNum.ofInt 1)
    (hnum : ∀ v ∈ [rx, ry, rot, x, y], v.WF ∧ v.isNaN = false) :
    ∃ e rx' ry' rot' x' y',
      expandACommands ⟨[⟨ty, [rx, ry, rot, f1, f2, x, y]⟩], none⟩ = ⟨[e], none⟩ ∧
      decodeAll (encodeCommand e defaultOptions).flatten (JSNum.ofInt 1) =
        ⟨[⟨ty, [rx', ry', rot', f1, f2, x', y']⟩], none⟩ ∧
      rx'.strictEq rx = true ∧ ry'.strictEq ry = true ∧ rot'.strictEq rot = true ∧
      x'.strictEq x = true ∧ y'.strictEq y = true := by
  obtain ⟨ety, hexp, hvt, hlet, harc, har, hla, hsw⟩ :=
    expandACommand_arc ty rx ry rot f1 f2 x y hty hf1 hf2
  obtain ⟨vals, hall, hdec⟩ := roundtrip_default ⟨ety, [rx, ry, rot, x, y]⟩ [] hvt
    (by rw [har]; rfl) (fun v hv => (hnum v hv).1) (fun v hv => (hnum v hv).2)
  rw [List.append_nil] at hdec
  simp only [harc, if_true, hlet, hla, hsw] at hdec
  obtain ⟨a1, l1, h1, g1, rfl⟩ := List.forall₂_cons_right_iff.1 hall
  obtain ⟨a2, l2, h2, g2, rfl⟩ := List.forall₂_cons_right_iff.1 g1
  obtain ⟨a3, l3, h3, g3, rfl⟩ := List.forall₂_cons_right_iff.1 g2
  obtain ⟨a4, l4, h4, g4, rfl⟩ := List.forall₂_cons_right_iff.1 g3
  obtain ⟨a5, l5, h5, g5, rfl⟩ := List.forall₂_cons_right_iff.1 g4
  have hnil : l5 = [] := List.forall₂_nil_right_iff.1 g5
  subst hnil
  refine ⟨⟨ety, [rx, ry, rot, x, y]⟩, a1, a2, a3, a4, a5, ?_, ?_, h1, h2, h3, h4, h5⟩
  · rw [expandACommands_single, hexp]
  · rw [hdec]
    rfl

/-- C3 at `a 25 26 -30 0 1 50 -25`. -/
theorem C3_arc_flag_fidelity_witness :
    ∃ e rx' ry' rot' x' y',
      expandACommands ⟨[⟨"a", [JSNum.ofInt 25, JSNum.ofInt 26, JSNum.ofInt (-30), JSNum.ofInt 0,
        JSNum.ofInt 1, JSNum.ofInt 50, JSNum.ofInt (-25)]⟩], none⟩ = ⟨[e], none⟩ ∧
      decodeAll (encodeCommand e defaultOptions).flatten (JSNum.ofInt 1) =
        ⟨[⟨"a", [rx', ry', rot', JSNum.ofInt 0, JSNum.ofInt 1, x', y']⟩], none⟩ ∧
      rx'.strictEq (JSNum.ofInt 25) = true ∧ ry'.strictEq (JSNum.ofInt 26) = true ∧
      rot'.strictEq (JSNum.ofInt (-30)) = true ∧
      x'.strictEq (JSNum.ofInt 50) = true ∧ y'.strictEq (JSNum.ofInt (-25)) = true :=
  C3_arc_flag_fidelity "a" (JSNum.ofInt 25) (JSNum.ofInt 26) (JSNum.ofInt (-30)) (JSNum.ofInt 0)
    (JSNum.ofInt 1) (JSNum.ofInt 50) (JSNum.ofInt (-25)) (Or.inr rfl) (Or.inl rfl) (Or.inr rfl)
    (by decide!)

open Host Encode Decode

namespace Encode

/-! ### The stages of `encode` on accepted input -/

theorem command_letters : ∀ c ∈ COMMANDS, String.mk [c] ∈ Spec.letters := by
  decide

/-- Every command token carries one of the 20 letters. -/
theorem tokenizeLoop_command (fuel : Nat) :
    ∀ (s : List Char), ∀ p ∈ tokenizeLoop fuel s, p.1.type = .command →
      p.1.value ∈ Spec.letters := by
  induction fuel with
  | zero => intro s p hp; simp [tokenizeLoop] at hp
  | succ f ih =>
    intro s p hp hc
    simp only [tokenizeLoop] at hp
    cases he : exec s.length s with
    | none => simp [he] at hp
    | some mr =>
      obtain ⟨m, rest⟩ := mr
      simp only [he, List.mem_cons] at hp
      rcases hp with rfl | hp
      · match m, hc with
        | [], hc => simp at hc
        | [c], hc =>
          by_cases hmem : c ∈ COMMANDS
          · simp only [hmem, if_true]
            exact command_letters c hmem
          · simp [hmem] at hc
        | _ :: _ :: _, hc => simp at hc
      · exact ih rest p hp hc

theorem tokenizePath_command (lastIndex : Nat) (string : String) :
    ∀ tok ∈ tokenizePath lastIndex string, tok.type = .command → tok.value ∈ Spec.letters := by
  intro tok htok hc
  unfold tokenizePath at htok
  obtain ⟨p, hp, rfl⟩ := List.mem_map.1 htok
  exact tokenizeLoop_command _ _ p hp hc

theorem parseFloat_WF (s : String) : (parseFloat s).WF := by
  unfold parseFloat
  simp only
  split_ifs
  · trivial
  · trivial
  · exact (JSNum.WF_iff_WFin _).2 (b64.round_WFin _ _ _)
  · exact (JSNum.WF_iff_WFin _).2 (b64.round_WFin _ _ _)

/-- The commands `parseGroupedCommands` yields carry letters of the grammar and
well-formed Numbers other than NaN. -/
theorem parseGroupedLoop_good :
    ∀ (tokens : List Token) (command : Option Command),
      (∀ tok ∈ tokens, tok.type = .command → tok.value ∈ Spec.letters) →
      (∀ c, command = some c →
        c.type ∈ Spec.letters ∧ ∀ v ∈ c.values, v.WF ∧ v.isNaN = false) →
      ∀ d ∈ (parseGroupedLoop command tokens).items,
        d.type ∈ Spec.letters ∧ ∀ v ∈ d.values, v.WF ∧ v.isNaN = false := by
  intro tokens
  induction tokens with
  | nil =>
    intro command _ hc d hd
    cases command with
    | none => simp [parseGroupedLoop] at hd
    | some c =>
      simp only [parseGroupedLoop, List.mem_singleton] at hd
      subst hd
      exact hc _ rfl
  | cons tok tokens ih =>
    intro command htoks hc d hd
    have htl : ∀ t ∈ tokens, t.type = .command → t.value ∈ Spec.letters :=
      fun t ht => htoks t (List.mem_cons_of_mem _ ht)
    obtain ⟨ttype, value⟩ := tok
    cases ttype with
    | command =>
      have hv : value ∈ Spec.letters := htoks ⟨.command, value⟩ (List.mem_cons_self _ _) rfl
      have hnew : ∀ c, some (⟨value, []⟩ : Command) = some c →
          c.type ∈ Spec.letters ∧ ∀ v ∈ c.values, v.WF ∧ v.isNaN = false := by
        intro c hc'
        cases hc'
        exact ⟨hv, fun v hv' => by simp at hv'⟩
      cases command with
      | none =>
        simp only [parseGroupedLoop] at hd
        exact ih _ htl hnew d hd
      | some c =>
        simp only [parseGroupedLoop, Gen.cons, List.mem_cons] at hd
        rcases hd with rfl | hd
        · exact hc _ rfl
        · exact ih _ htl hnew d hd
    | float =>
      cases command with
      | none => simp [parseGroupedLoop] at hd
      | some c =>
        simp only [parseGroupedLoop] at hd
        by_cases hn : (parseFloat value).isNaN = true
        · simp [hn] at hd
        · simp only [hn, if_false, Bool.false_eq_true] at hd
          apply ih _ htl _ d hd
          intro c' hc'
          cases hc'
          obtain ⟨h1, h2⟩ := hc c rfl
          refine ⟨h1, ?_⟩
          intro v hv
          rcases List.mem_append.1 hv with hv | hv
          · exact h2 v hv
          · rw [List.mem_singleton] at hv
            subst hv
            exact ⟨parseFloat_WF value, by simpa using hn⟩

/-- A grouped command that ungroups without error gives commands with its letter, as many
values as the arity of the letter, all taken from its values. -/
theorem ungroupCommand_ok (c : Command) (hty : c.type ∈ Spec.letters)
    (h : (ungroupCommand c).err = none) :
    ∀ d ∈ (ungroupCommand c).items, d.type = c.type ∧
      d.values.length = Spec.rawArity c.type ∧ ∀ v ∈ d.values, v ∈ c.values := by
  have hraw := raw_arg_counts_letters c.type hty
  unfold ungroupCommand at h ⊢
  rw [hraw] at h ⊢
  simp only at h ⊢
  by_cases h0 : Spec.rawArity c.type = 0
  · rw [if_pos h0] at h ⊢
    by_cases hv : c.values.length > 0
    · rw [if_pos hv] at h; cases h
    · rw [if_neg hv]
      intro d hd
      rw [List.mem_singleton] at hd
      subst hd
      exact ⟨rfl, by simp [h0], fun v hv' => by simp at hv'⟩
  · rw [if_neg h0] at h ⊢
    by_cases hl : c.values.length = 0
    · rw [if_pos hl] at h; cases h
    · rw [if_neg hl] at h ⊢
      by_cases hm : c.values.length % Spec.rawArity c.type ≠ 0
      · rw [if_pos hm] at h; cases h
      · rw [if_neg hm]
        have hm' : c.values.length % Spec.rawArity c.type = 0 := not_not.1 hm
        have hpos : 0 < Spec.rawArity c.type := Nat.pos_of_ne_zero h0
        have hk : c.values.length =
            0 + (c.values.length / Spec.rawArity c.type) * Spec.rawArity c.type := by
          rw [Nat.zero_add, Nat.div_mul_cancel (Nat.dvd_of_mod_eq_zero hm')]
        have hle : c.values.length / Spec.rawArity c.type ≤ c.values.length :=
          Nat.div_le_self _ _
        obtain ⟨_, h2, h3⟩ := sliceLoop_spec c.values _ hpos _ c.values.length 0 hle hk
        intro d hd
        obtain ⟨vs, hvs, rfl⟩ := List.mem_map.1 hd
        refine ⟨rfl, h2 vs hvs, ?_⟩
        intro v hv
        have : v ∈ (sliceLoop c.values (Spec.rawArity c.type) c.values.length 0).flatten :=
          List.mem_flatten.2 ⟨vs, hvs, hv⟩
        rw [h3, List.drop_zero] at this
        exact this

end Encode

open Host Encode Decode

namespace Encode

theorem arc_type_facts : ∀ ty ∈ ["A", "a"], ∀ d1 ∈ ["0", "1"], ∀ d2 ∈ ["0", "1"],
    (ty ++ d1 ++ d2) ∈ Spec.validTypes ∧ Spec.letter (ty ++ d1 ++ d2) = ty ∧
    Spec.isArc (ty ++ d1 ++ d2) = true ∧ Spec.arity (ty ++ d1 ++ d2) = 5 ∧
    Spec.largeArc (ty ++ d1 ++ d2) = (if d1 = "1" then 1 else 0) ∧
    Spec.sweep (ty ++ d1 ++ d2) = (if d2 = "1" then 1 else 0) := by
  decide!

theorem flagDigit_spec (f : JSNum)
    (h : (!f.strictEq (JSNum.ofInt 0) && !f.strictEq (JSNum.ofInt 1)) = false) :
    flagDigit f ∈ ["0", "1"] ∧
    JSNum.strictEq (JSNum.ofInt ((if flagDigit f = "1" then 1 else 0 : Nat) : Int)) f = true := by
  unfold flagDigit
  cases h1 : f.strictEq (JSNum.ofInt 1) with
  | true =>
    refine ⟨by simp, ?_⟩
    simp only [if_true]
    exact JSNum.strictEq_symm _ _ h1
  | false =>
    have h0 : f.strictEq (JSNum.ofInt 0) = true := by
      rw [h1] at h
      simpa using h
    refine ⟨by simp, ?_⟩
    have hne : ¬ ("0" = "1") := by decide
    simp only [Bool.false_eq_true, if_false, hne]
    exact JSNum.strictEq_symm _ _ h0

/-- `expandACommand` on an arc with seven values, when it does not throw. -/
theorem expandACommand_arc_ok (ty : String) (hty : ty ∈ ["A", "a"])
    (rx ry rot f1 f2 x y : JSNum)
    (h : (expandACommand ⟨ty, [rx, ry, rot, f1, f2, x, y]⟩).err = none) :
    ∃ ety, expandACommand ⟨ty, [rx, ry, rot, f1, f2, x, y]⟩ =
        ⟨[⟨ety, [rx, ry, rot, x, y]⟩], none⟩ ∧
      ety ∈ Spec.validTypes ∧ Spec.letter ety = ty ∧ Spec.isArc ety = true ∧
      Spec.arity ety = 5 ∧
      JSNum.strictEq (JSNum.ofInt (Spec.largeArc ety)) f1 = true ∧
      JSNum.strictEq (JSNum.ofInt (Spec.sweep ety)) f2 = true := by
  have hA : ¬ (ty ≠ "A" ∧ ty ≠ "a") := by
    simp only [List.mem_cons, List.mem_singleton, List.not_mem_nil, or_false] at hty
    rcases hty with rfl | rfl <;> simp
  unfold expandACommand at h ⊢
  simp only [hA, if_false, List.drop_succ_cons, List.drop_zero, List.take_succ_cons,
    List.take_zero] at h ⊢
  cases c1 : (!f1.strictEq (JSNum.ofInt 0) && !f1.strictEq (JSNum.ofInt 1)) with
  | true => simp [c1] at h
  | false =>
    cases c2 : (!f2.strictEq (JSNum.ofInt 0) && !f2.strictEq (JSNum.ofInt 1)) with
    | true => simp [c1, c2] at h
    | false =>
      obtain ⟨m1, e1⟩ := flagDigit_spec f1 c1
      obtain ⟨m2, e2⟩ := flagDigit_spec f2 c2
      obtain ⟨g1, g2, g3, g4, g5, g6⟩ := arc_type_facts ty hty _ m1 _ m2
      refine ⟨ty ++ flagDigit f1 ++ flagDigit f2, ?_, g1, g2, g3, g4, ?_, ?_⟩
      · simp
      · rw [g5]; exact e1
      · rw [g6]; exact e2

theorem nonarc_facts : ∀ ty ∈ Spec.letters, ty ∉ ["A", "a"] →
    ty ∈ Spec.validTypes ∧ Spec.arity ty = Spec.rawArity ty ∧ Spec.letter ty = ty ∧
    Spec.isArc ty = false := by
  decide!

/-- A command that passes `expandACommands` comes out as one identity with its payload
values; putting the flags of the identity back at position 3 of values equal to the
payload gives values equal to the original ones. -/
theorem expandACommand_ok (u : Command) (hty : u.type ∈ Spec.letters)
    (hlen : u.values.length = Spec.rawArity u.type)
    (h : (expandACommand u).err = none) :
    ∃ e, expandACommand u = ⟨[e], none⟩ ∧ e.type ∈ Spec.validTypes ∧
      e.values.length = Spec.arity e.type ∧ Spec.letter e.type = u.type ∧
      (∀ v ∈ e.values, v ∈ u.values) ∧
      ∀ vals, List.Forall₂ (fun d v => JSNum.strictEq d v = true) vals e.values →
        List.Forall₂ (fun d v => JSNum.strictEq d v = true)
          (if Spec.isArc e.type then
            splice3 vals (JSNum.ofInt (Spec.largeArc e.type)) (JSNum.ofInt (Spec.sweep e.type))
           else vals) u.values := by
  by_cases harc : u.type ∈ ["A", "a"]
  · obtain ⟨ty, values⟩ := u
    simp only at harc hty hlen
    have h7 : Spec.rawArity ty = 7 := by
      simp only [List.mem_cons, List.mem_singleton, List.not_mem_nil, or_false] at harc
      rcases harc with rfl | rfl <;> decide
    rw [h7] at hlen
    rcases values with _ | ⟨rx, _ | ⟨ry, _ | ⟨rot, _ | ⟨f1, _ | ⟨f2, _ | ⟨x, _ | ⟨y, _ | ⟨z, tl⟩⟩⟩⟩⟩⟩⟩⟩ <;>
      simp only [List.length_cons, List.length_nil] at hlen <;> try omega
    obtain ⟨ety, hexp, g1, g2, g3, g4, e1, e2⟩ := expandACommand_arc_ok ty harc rx ry rot f1 f2 x y h
    refine ⟨⟨ety, [rx, ry, rot, x, y]⟩, hexp, g1, by rw [g4]; rfl, g2, ?_, ?_⟩
    · intro v hv
      simp only [List.mem_cons, List.mem_singleton, List.not_mem_nil, or_false] at hv ⊢
      tauto
    · intro vals hall
      obtain ⟨a1, l1, h1, q1, rfl⟩ := List.forall₂_cons_right_iff.1 hall
      obtain ⟨a2, l2, h2, q2, rfl⟩ := List.forall₂_cons_right_iff.1 q1
      obtain ⟨a3, l3, h3, q3, rfl⟩ := List.forall₂_cons_right_iff.1 q2
      obtain ⟨a4, l4, h4, q4, rfl⟩ := List.forall₂_cons_right_iff.1 q3
      obtain ⟨a5, l5, h5, q5, rfl⟩ := List.forall₂_cons_right_iff.1 q4
      have hnil : l5 = [] := List.forall₂_nil_right_iff.1 q5
      subst hnil
      simp only [g3, if_true, splice3, List.take_succ_cons, List.take_zero, List.drop_succ_cons,
        List.drop_zero, List.cons_append, List.nil_append]
      exact List.Forall₂.cons h1 (List.Forall₂.cons h2 (List.Forall₂.cons h3
        (List.Forall₂.cons e1 (List.Forall₂.cons e2 (List.Forall₂.cons h4
          (List.Forall₂.cons h5 List.Forall₂.nil))))))
  · obtain ⟨g1, g2, g3, g4⟩ := nonarc_facts u.type hty harc
    have hne : u.type ≠ "A" ∧ u.type ≠ "a" := by
      simp only [List.mem_cons, List.mem_singleton, List.not_mem_nil, or_false, not_or] at harc
      exact harc
    refine ⟨u, by simp [expandACommand, hne], g1, by rw [g2]; exact hlen, g3,
      fun v hv => hv, ?_⟩
    intro vals hall
    simp only [g4, Bool.false_eq_true, if_false]
    exact hall

end Encode

open Host Encode Decode

namespace Encode

/-- Decoding the records of a list of ungrouped commands gives the commands back. -/
theorem decode_records (us : List Command)
    (hgood : ∀ u ∈ us, u.type ∈ Spec.letters ∧ u.values.length = Spec.rawArity u.type ∧
      ∀ v ∈ u.values, v.WF ∧ v.isNaN = false)
    (hexp : ∀ u ∈ us, (expandACommand u).err = none) :
    ∃ cmds,
      decodeAll (((us.flatMap (fun u => (expandACommand u).items)).flatMap
        (fun c => encodeCommand c defaultOptions)).flatten) (JSNum.ofInt 1) = ⟨cmds, none⟩ ∧
      List.Forall₂ (fun d u => d.type = u.type ∧
        List.Forall₂ (fun a b => JSNum.strictEq a b = true) d.values u.values) cmds us := by
  induction us with
  | nil =>
    refine ⟨[], ?_, List.Forall₂.nil⟩
    simp [decodeAll, decode, decodeLoop]
  | cons u us ih =>
    obtain ⟨cmds, hdec, hall⟩ := ih (fun v hv => hgood v (List.mem_cons_of_mem _ hv))
      (fun v hv => hexp v (List.mem_cons_of_mem _ hv))
    obtain ⟨hty, hlen, hnum⟩ := hgood u (List.mem_cons_self _ _)
    obtain ⟨e, he, hvt, hel, hlet, hsub, hback⟩ :=
      expandACommand_ok u hty hlen (hexp u (List.mem_cons_self _ _))
    obtain ⟨vals, hvals, hrt⟩ := roundtrip_default e
      (((us.flatMap (fun u => (expandACommand u).items)).flatMap
        (fun c => encodeCommand c defaultOptions)).flatten) hvt hel
      (fun v hv => (hnum v (hsub v hv)).1) (fun v hv => (hnum v (hsub v hv)).2)
    refine ⟨(⟨Spec.letter e.type,
        if Spec.isArc e.type then
          splice3 vals (JSNum.ofInt (Spec.largeArc e.type)) (JSNum.ofInt (Spec.sweep e.type))
        else vals⟩ : Command) :: cmds, ?_, List.Forall₂.cons ⟨hlet, hback vals hvals⟩ hall⟩
    simp only [List.flatMap_cons, he, List.singleton_append, List.flatten_append, List.flatten_cons,
      List.flatMap_append, List.flatMap_nil, List.append_nil]
    rw [hrt, hdec]
    rfl

end Encode

/-- C1. Lossless round trip: for every path-data string `s` that `encode` accepts with
`{factor: 1, permissibleError: 0}` (module state fresh), decoding the concatenation of
the chunks with factor 1 succeeds and yields exactly the commands obtained by
tokenizing, grouping and ungrouping `s`: as many commands, in the same order, each with
the same letter (case preserved, arcs without flag suffix) and a list of values equal
(`===`) one by one to the original list, the flags of an arc included.  The strings
whose values are all integers are among them: no restriction on the values is needed. -/
theorem C1_lossless_round_trip (s : String) (chunks : List (List Nat))
    (h : encode 0 s defaultOptions = ⟨chunks, none⟩) :
    ∃ cmds ungrouped,
      ungroupCommands (parseGroupedCommands (tokenizePath 0 s)) = ⟨ungrouped, none⟩ ∧
      decodeAll chunks.flatten (JSNum.ofInt 1) = ⟨cmds, none⟩ ∧
      cmds.length = ungrouped.length ∧
      List.Forall₂ (fun d u => d.type = u.type ∧
        List.Forall₂ (fun a b => JSNum.strictEq a b = true) d.values u.values)
        cmds ungrouped := by
  unfold encode at h
  have herr : (Gen.stage (fun command => (⟨encodeCommand command defaultOptions, none⟩ : Gen (List Nat)))
      (expandACommands (ungroupCommands (parseGroupedCommands (tokenizePath 0 s))))).err = none := by
    rw [h]
  have hitems : (Gen.stage (fun command => (⟨encodeCommand command defaultOptions, none⟩ : Gen (List Nat)))
      (expandACommands (ungroupCommands (parseGroupedCommands (tokenizePath 0 s))))).items = chunks := by
    rw [h]
  obtain ⟨hE, _, hEi⟩ := Gen.stage_err_none _ _ herr
  rw [hEi] at hitems
  obtain ⟨hU, hUexp, hUi⟩ := Gen.stage_err_none expandACommand _ hE
  obtain ⟨_, hGun, hGi⟩ := Gen.stage_err_none ungroupCommand _ hU
  have hGgood := parseGroupedLoop_good (tokenizePath 0 s) none (tokenizePath_command 0 s)
    (fun c hc => by cases hc)
  have hgood : ∀ u ∈ (ungroupCommands (parseGroupedCommands (tokenizePath 0 s))).items,
      u.type ∈ Spec.letters ∧ u.values.length = Spec.rawArity u.type ∧
      ∀ v ∈ u.values, v.WF ∧ v.isNaN = false := by
    intro u hu
    have hu' : u ∈ (Gen.stage ungroupCommand (parseGroupedCommands (tokenizePath 0 s))).items := hu
    rw [hGi] at hu'
    obtain ⟨g, hg, hug⟩ := List.mem_flatMap.1 hu'
    obtain ⟨g1, g2⟩ := hGgood g hg
    obtain ⟨k1, k2, k3⟩ := ungroupCommand_ok g g1 (hGun g hg) u hug
    exact ⟨by rw [k1]; exact g1, by rw [k2, k1], fun v hv => g2 v (k3 v hv)⟩
  obtain ⟨cmds, hdec, hall⟩ := decode_records _ hgood hUexp
  have hEi' : (expandACommands (ungroupCommands (parseGroupedCommands (tokenizePath 0 s)))).items =
      (ungroupCommands (parseGroupedCommands (tokenizePath 0 s))).items.flatMap
        (fun u => (expandACommand u).items) := hUi
  rw [← hEi', hitems] at hdec
  refine ⟨cmds, (ungroupCommands (parseGroupedCommands (tokenizePath 0 s))).items, ?_, hdec,
    hall.length_eq, hall⟩
  cases hq : ungroupCommands (parseGroupedCommands (tokenizePath 0 s)) with
  | mk items err =>
    rw [hq] at hU
    simp only at hU
    subst hU
    rfl

/-- C1 at `"M1 1L200 -3 a1 1 0 1 0 5 5z"`. -/
theorem C1_lossless_round_trip_witness :
    ∃ cmds ungrouped,
      ungroupCommands (parseGroupedCommands (tokenizePath 0 "M1 1L200 -3 a1 1 0 1 0 5 5z")) =
        ⟨ungrouped, none⟩ ∧
      decodeAll [[0x40], [1, 1], [0x52], [200, 0, 253, 255], [0xa8], [1, 1, 0, 5, 5],
        [0xf8]].flatten (JSNum.ofInt 1) = ⟨cmds, none⟩ ∧
      cmds.length = ungrouped.length ∧
      List.Forall₂ (fun d u => d.type = u.type ∧
        List.Forall₂ (fun a b => JSNum.strictEq a b = true) d.values u.values)
        cmds ungrouped :=
  C1_lossless_round_trip "M1 1L200 -3 a1 1 0 1 0 5 5z"
    [[0x40], [1, 1], [0x52], [200, 0, 253, 255], [0xa8], [1, 1, 0, 5, 5], [0xf8]] (by decide!)

/-! ## Error handling, the tokenizer, the state of `FLOAT_RE`, and the decoder -/

open Host Encode Decode

/-! ## Missing first command -/

/-- Once a command is being accumulated, the grouping loop never reports a missing
command. -/
theorem parseGroupedLoop_some_err :
    ∀ (tokens : List Token) (c : Command),
      (parseGroupedLoop (some c) tokens).err ≠ some .missingCommand := by
  intro tokens
  induction tokens with
  | nil => intro c; simp [parseGroupedLoop]
  | cons tok tokens ih =>
    intro c
    obtain ⟨ty, value⟩ := tok
    cases ty with
    | command =>
      simp only [parseGroupedLoop, Gen.cons]
      exact ih _
    | float =>
      simp only [parseGroupedLoop]
      split
      · simp
      · exact ih _

/-- A stage fed by a generator that throws before yielding anything throws the same
error and yields nothing. -/
theorem stage_failed {α β : Type} (body : α → Gen β) (e : Err) :
    Gen.stage body ⟨[], some e⟩ = ⟨[], some e⟩ := rfl

/-- C11. `MissingCommand`: for every token sequence, `parseGroupedCommands` fails with the
missing-command error if and only if the first token is a number token, and it then
fails before yielding any command, so that `encode` yields no chunk and fails with the
same error.  In particular `encode("10 10")` (fresh module, default options) tokenizes
to two number tokens and fails with `MissingCommand`. -/
theorem C11_missing_command :
    (∀ tokens : List Token,
      ((parseGroupedCommands tokens).err = some .missingCommand ↔
        ∃ value rest, tokens = ⟨.float, value⟩ :: rest) ∧
      ((parseGroupedCommands tokens).err = some .missingCommand →
        parseGroupedCommands tokens = ⟨[], some .missingCommand⟩)) ∧
    (∀ (lastIndex : Nat) (s : String) (o : Options),
      (parseGroupedCommands (tokenizePath lastIndex s)).err = some .missingCommand →
      encode lastIndex s o = ⟨[], some .missingCommand⟩) ∧
    tokenizePath 0 "10 10" = [⟨.float, "10"⟩, ⟨.float, "10"⟩] ∧
    encode 0 "10 10" defaultOptions = ⟨[], some .missingCommand⟩ := by
  have key : ∀ tokens : List Token,
      ((parseGroupedCommands tokens).err = some .missingCommand ↔
        ∃ value rest, tokens = ⟨.float, value⟩ :: rest) ∧
      ((parseGroupedCommands tokens).err = some .missingCommand →
        parseGroupedCommands tokens = ⟨[], some .missingCommand⟩) := by
    intro tokens
    cases tokens with
    | nil => simp [parseGroupedCommands, parseGroupedLoop]
    | cons tok rest =>
      obtain ⟨ty, value⟩ := tok
      cases ty with
      | float => simp [parseGroupedCommands, parseGroupedLoop]
      | command =>
        have h := parseGroupedLoop_some_err rest ⟨value, []⟩
        simp only [parseGroupedCommands, parseGroupedLoop]
        simp [h]
  refine ⟨key, ?_, by decide!, by decide!⟩
  intro lastIndex s o h
  unfold encode
  rw [(key _).2 h]
  rfl

/-- C11 at the tokens of `"10 10"`: the first token is a number, nothing is yielded. -/
theorem C11_missing_command_witness :
    ((parseGroupedCommands [⟨.float, "10"⟩, ⟨.float, "10"⟩]).err = some .missingCommand ↔
        ∃ value rest, [(⟨.float, "10"⟩ : Token), ⟨.float, "10"⟩] = ⟨.float, value⟩ :: rest) ∧
      ((parseGroupedCommands [⟨.float, "10"⟩, ⟨.float, "10"⟩]).err = some .missingCommand →
        parseGroupedCommands [⟨.float, "10"⟩, ⟨.float, "10"⟩] = ⟨[], some .missingCommand⟩) :=
  C11_missing_command.1 [⟨.float, "10"⟩, ⟨.float, "10"⟩]

open Host Encode Decode

/-! ## Invalid arc flags -/

theorem JSNum.strictEq_one_iff (s : Bool) (n : Nat) :
    JSNum.strictEq (.fin s n) (JSNum.ofInt 1) = true ↔ JSNum.toRat (.fin s n) = 1 := by
  rw [JSNum.ofInt_one, JSNum.strictEq_iff]
  have hu : (b64.unit : ℚ) ≠ 0 := by exact_mod_cast (ne_of_gt b64_unit_pos)
  have h1 : JSNum.toRat (.fin false (1023 * 2 ^ 52)) = 1 := by
    simp only [JSNum.toRat, b64_scaled_one]
    simp [div_self hu]
  rw [← h1, ← JSNum.key_eq_iff]
  simp [JSNum.isNaN]

/-- The test `flag !== 0 && flag !== 1` of `expandACommands` holds exactly for the values
that are not the number 0 or 1. -/
theorem flag_test_eq (f : JSNum) :
    (!f.strictEq (JSNum.ofInt 0) && !f.strictEq (JSNum.ofInt 1)) = !Spec.isFlag f := by
  cases f with
  | nan => simp [JSNum.strictEq, JSNum.isNaN, Spec.isFlag, JSNum.isFinite]
  | inf s =>
    have h0 : JSNum.strictEq (.inf s) (JSNum.ofInt 0) = false := by
      rw [JSNum.ofInt_zero]; cases s <;> decide!
    have h1 : JSNum.strictEq (.inf s) (JSNum.ofInt 1) = false := by
      rw [JSNum.ofInt_one]; cases s <;> decide!
    simp [h0, h1, Spec.isFlag, JSNum.isFinite]
  | fin s n =>
    have h0 := JSNum.strictEq_zero_iff s n
    have h1 := JSNum.strictEq_one_iff s n
    unfold Spec.isFlag
    by_cases e0 : JSNum.toRat (.fin s n) = 0
    · simp [h0.2 e0, e0, JSNum.isFinite]
    · by_cases e1 : JSNum.toRat (.fin s n) = 1
      · simp [h1.2 e1, e1, JSNum.isFinite]
      · have g0 : JSNum.strictEq (.fin s n) (JSNum.ofInt 0) = false := by
          cases h : JSNum.strictEq (.fin s n) (JSNum.ofInt 0)
          · rfl
          · exact absurd (h0.1 h) e0
        have g1 : JSNum.strictEq (.fin s n) (JSNum.ofInt 1) = false := by
          cases h : JSNum.strictEq (.fin s n) (JSNum.ofInt 1)
          · rfl
          · exact absurd (h1.1 h) e1
        simp [g0, g1, e0, e1, JSNum.isFinite]

/-- For a flag value, `flag.toString(2)` is its binary digit. -/
theorem flagDigit_eq (f : JSNum) (h : Spec.isFlag f = true) : flagDigit f = Spec.flagBit f := by
  cases f with
  | nan => simp [Spec.isFlag, JSNum.isFinite] at h
  | inf s => simp [Spec.isFlag, JSNum.isFinite] at h
  | fin s n =>
    unfold flagDigit Spec.flagBit
    by_cases e1 : JSNum.toRat (.fin s n) = 1
    · rw [if_pos ((JSNum.strictEq_one_iff s n).2 e1), if_pos e1]
    · have g1 : ¬ JSNum.strictEq (.fin s n) (JSNum.ofInt 1) = true :=
        fun h => e1 ((JSNum.strictEq_one_iff s n).1 h)
      rw [if_neg g1, if_neg e1]

/-- The body of `expandACommands` on an arc command with seven values. -/
theorem expandACommand_seven (ty : String) (hty : ty = "A" ∨ ty = "a")
    (rx ry rot f1 f2 x y : JSNum) :
    expandACommand ⟨ty, [rx, ry, rot, f1, f2, x, y]⟩ =
      if Spec.isFlag f1 = true ∧ Spec.isFlag f2 = true then
        ⟨[⟨ty ++ Spec.flagBit f1 ++ Spec.flagBit f2, [rx, ry, rot, x, y]⟩], none⟩
      else ⟨[], some .invalidFlag⟩ := by
  have hc : ¬ (ty ≠ "A" ∧ ty ≠ "a") := by
    rcases hty with h | h <;> simp [h]
  unfold expandACommand
  simp only [hc, if_false, List.drop_succ_cons, List.drop_zero, List.take_succ_cons,
    List.take_zero, flag_test_eq]
  cases h1 : Spec.isFlag f1 <;> cases h2 : Spec.isFlag f2 <;>
    simp [flagDigit_eq, h1, h2]

/-- C12. `InvalidFlag`: for every command with letter A or a and seven values,
`expandACommands` fails if and only if the value at position 3 or the value at position 4
is not exactly 0 or 1, and it then fails with the invalid-flag error without yielding
anything; when both are 0 or 1 the two values are removed, the other five keep their
order, and the two binary digits are appended to the letter.  Every command with another
letter passes through unchanged.  In particular `"A1 1 0 2 0 5 5"` is rejected with
`InvalidFlag`. -/
theorem C12_invalid_flag :
    (∀ (ty : String) (rx ry rot f1 f2 x y : JSNum), ty = "A" ∨ ty = "a" →
      ((expandACommands ⟨[⟨ty, [rx, ry, rot, f1, f2, x, y]⟩], none⟩).err ≠ none ↔
        (Spec.isFlag f1 = false ∨ Spec.isFlag f2 = false)) ∧
      ((expandACommands ⟨[⟨ty, [rx, ry, rot, f1, f2, x, y]⟩], none⟩).err ≠ none →
        expandACommands ⟨[⟨ty, [rx, ry, rot, f1, f2, x, y]⟩], none⟩ =
          ⟨[], some .invalidFlag⟩) ∧
      ((expandACommands ⟨[⟨ty, [rx, ry, rot, f1, f2, x, y]⟩], none⟩).err = none →
        expandACommands ⟨[⟨ty, [rx, ry, rot, f1, f2, x, y]⟩], none⟩ =
          ⟨[⟨ty ++ Spec.flagBit f1 ++ Spec.flagBit f2, [rx, ry, rot, x, y]⟩], none⟩)) ∧
    (∀ c : Command, c.type ≠ "A" → c.type ≠ "a" →
      expandACommands ⟨[c], none⟩ = ⟨[c], none⟩) ∧
    Spec.isFlag (parseFloat "2") = false ∧
    encode 0 "A1 1 0 2 0 5 5" defaultOptions = ⟨[], some .invalidFlag⟩ := by
  refine ⟨?_, ?_, ?_, by decide!⟩
  · intro ty rx ry rot f1 f2 x y hty
    rw [expandACommands_single, expandACommand_seven ty hty]
    cases h1 : Spec.isFlag f1 <;> cases h2 : Spec.isFlag f2 <;> simp
  · intro c hA ha
    rw [expandACommands_single]
    unfold expandACommand
    rw [if_pos ⟨hA, ha⟩]
  · have h : parseFloat "2" = JSNum.ofInt 2 := by decide!
    rw [h]
    have h2 := JSNum.toRat_ofInt 2 (by norm_num)
    obtain ⟨n, _, _, he⟩ := JSNum.ofInt_spec 2 (by norm_num)
    rw [he] at h2 ⊢
    unfold Spec.isFlag
    rw [h2]
    norm_num

/-- C12 at `a 1 1 0 1 0 5 5`: both flags are 0 or 1, and the arc becomes `a10`. -/
theorem C12_invalid_flag_witness :
    ((expandACommands ⟨[⟨"a", [JSNum.ofInt 1, JSNum.ofInt 1, JSNum.ofInt 0, JSNum.ofInt 1,
        JSNum.ofInt 0, JSNum.ofInt 5, JSNum.ofInt 5]⟩], none⟩).err ≠ none ↔
        (Spec.isFlag (JSNum.ofInt 1) = false ∨ Spec.isFlag (JSNum.ofInt 0) = false)) ∧
      ((expandACommands ⟨[⟨"a", [JSNum.ofInt 1, JSNum.ofInt 1, JSNum.ofInt 0, JSNum.ofInt 1,
        JSNum.ofInt 0, JSNum.ofInt 5, JSNum.ofInt 5]⟩], none⟩).err ≠ none →
        expandACommands ⟨[⟨"a", [JSNum.ofInt 1, JSNum.ofInt 1, JSNum.ofInt 0, JSNum.ofInt 1,
          JSNum.ofInt 0, JSNum.ofInt 5, JSNum.ofInt 5]⟩], none⟩ = ⟨[], some .invalidFlag⟩) ∧
      ((expandACommands ⟨[⟨"a", [JSNum.ofInt 1, JSNum.ofInt 1, JSNum.ofInt 0, JSNum.ofInt 1,
        JSNum.ofInt 0, JSNum.ofInt 5, JSNum.ofInt 5]⟩], none⟩).err = none →
        expandACommands ⟨[⟨"a", [JSNum.ofInt 1, JSNum.ofInt 1, JSNum.ofInt 0, JSNum.ofInt 1,
          JSNum.ofInt 0, JSNum.ofInt 5, JSNum.ofInt 5]⟩], none⟩ =
          ⟨[⟨"a" ++ Spec.flagBit (JSNum.ofInt 1) ++ Spec.flagBit (JSNum.ofInt 0),
            [JSNum.ofInt 1, JSNum.ofInt 1, JSNum.ofInt 0, JSNum.ofInt 5, JSNum.ofInt 5]⟩],
            none⟩) :=
  C12_invalid_flag.1 "a" _ _ _ _ _ _ _ (Or.inr rfl)

open Host Encode Decode

/-! ## Reserved command codes -/

/-- The tables of the decoder against the table of codes, for every header byte. -/
theorem decode_tables : ∀ b < 256,
    b >>> 4 = b / 16 ∧
    (Decode.COMMANDS.getD (b >>> 4) '_' = '_' ↔ Spec.codeLetter (b / 16) = none) ∧
    (∀ l, Spec.codeLetter (b / 16) = some l →
      Decode.COMMANDS.getD (b >>> 4) '_' = l ∧
      (Decode.ARGS.getD (b >>> 4) none).getD 0 = Spec.arityOfCode (b / 16) ∧
      ((b >>> 3) &&& 1 = 1 ↔ b / 8 % 2 = 1)) := by
  decide!

/-- A result whose success part is `a` is the success `a`. -/
theorem except_eq_ok {ε α : Type} (x : Except ε α) (a : α) (h : x.toOption = some a) :
    x = .ok a := by
  cases x with
  | error e => simp [Except.toOption] at h
  | ok b => simp [Except.toOption] at h; rw [h]

/-- The error of a record is the unknown-command error exactly when the letter of its
command field is the placeholder. -/
theorem decodeRecord_unknown (factor : JSNum) (b : Nat) (bytes : List Nat) :
    decodeRecord factor b bytes = .error .unknownCommand ↔
      Decode.COMMANDS.getD (b >>> 4) '_' = '_' := by
  unfold decodeRecord
  by_cases h : Decode.COMMANDS.getD (b >>> 4) '_' = '_'
  · rw [if_pos h]
    exact ⟨fun _ => h, fun _ => rfl⟩
  · rw [if_neg h]
    cases hr : readValues (b &&& 0b111) (Decode.SMAP.getD (b &&& 0b111) 0) factor
        ((Decode.ARGS.getD (b >>> 4) none).getD 0) bytes with
    | none => exact ⟨fun hc => (by cases hc), fun hc => absurd hc h⟩
    | some p =>
      obtain ⟨values, rest⟩ := p
      exact ⟨fun hc => (by cases hc), fun hc => absurd hc h⟩

/-- C13, as the claim states it, fails: the command field has three reserved codes, not
two.  Each of the headers `0x00`, `0xC0` and `0xD0` (codes 0, 12 and 13) makes `decode`
fail with the unknown-command error, whatever the factor. -/
theorem C13_reserved_codes_counterexample :
    Spec.reservedCodes = [0, 12, 13] ∧ Spec.reservedCodes.length ≠ 2 ∧
    (∀ factor : JSNum,
      decodeAll [0x00] factor = ⟨[], some .unknownCommand⟩ ∧
      decodeAll [0xC0] factor = ⟨[], some .unknownCommand⟩ ∧
      decodeAll [0xD0] factor = ⟨[], some .unknownCommand⟩) := by
  refine ⟨by decide, by decide, ?_⟩
  intro factor
  have h : ∀ b : Nat, Decode.COMMANDS.getD ((b % 256) >>> 4) '_' = '_' →
      decodeAll [b] factor = ⟨[], some .unknownCommand⟩ := by
    intro b hb
    rw [decodeAll_eq]
    show (match decodeRecord factor (b % 256) [] with
      | .error e => (⟨[], some e⟩ : Gen Command)
      | .ok (command, rest) => Gen.cons command (decodeLoop factor 0 rest)) = _
    rw [(decodeRecord_unknown factor (b % 256) []).2 hb]
  exact ⟨h 0x00 (by decide), h 0xC0 (by decide), h 0xD0 (by decide)⟩

/-- C13, amended.  Of the 16 values of the command field exactly three are reserved: 0, 12
and 13.  H, V, T, M, L, Q, S, C and Z have one code each and the arc command has the four
codes 8 to 11.  A record makes `decode` fail with the unknown-command error exactly when
the command field of its header is reserved; for every other value, a record that is
decoded carries the letter of the code (in lower case when bit 3 is set) and as many
values as the arity of the code, plus the two flags for the arc command. -/
theorem C13_reserved_codes_amended :
    Spec.reservedCodes = [0, 12, 13] ∧
    (∀ l ∈ "HVTMLQSCZ".toList,
      ((List.range 16).filter (fun code => Spec.codeLetter code = some l)).length = 1) ∧
    (List.range 16).filter (fun code => Spec.codeLetter code = some 'A') = [8, 9, 10, 11] ∧
    (∀ (factor : JSNum) (byte : Nat) (bytes : List Nat),
      (decodeRecord factor (byte % 256) bytes = .error .unknownCommand ↔
        byte % 256 / 16 ∈ Spec.reservedCodes) ∧
      (decodeAll (byte :: bytes) factor = ⟨[], some .unknownCommand⟩ ↔
        byte % 256 / 16 ∈ Spec.reservedCodes) ∧
      (∀ (command : Command) (rest : List Nat),
        decodeRecord factor (byte % 256) bytes = .ok (command, rest) →
        ∃ l, Spec.codeLetter (byte % 256 / 16) = some l ∧
          command.type = (if byte % 256 / 8 % 2 = 1 then toLowerCase (String.singleton l)
            else String.singleton l) ∧
          command.values.length =
            Spec.arityOfCode (byte % 256 / 16) + (if l = 'A' then 2 else 0))) := by
  refine ⟨by decide, by decide, by decide, ?_⟩
  intro factor byte bytes
  have hlt : byte % 256 < 256 := Nat.mod_lt _ (by decide)
  have hres : ∀ b < 256, (b / 16 ∈ Spec.reservedCodes ↔ Spec.codeLetter (b / 16) = none) := by
    decide!
  have hrec : decodeRecord factor (byte % 256) bytes = .error .unknownCommand ↔
      byte % 256 / 16 ∈ Spec.reservedCodes := by
    rw [decodeRecord_unknown, (decode_tables _ hlt).2.1, hres _ hlt]
  refine ⟨hrec, ?_, ?_⟩
  · rw [← hrec, decodeAll_eq]
    show (match decodeRecord factor (byte % 256) bytes with
      | .error e => (⟨[], some e⟩ : Gen Command)
      | .ok (command, rest) => Gen.cons command (decodeLoop factor bytes.length rest)) = _ ↔ _
    cases hr : decodeRecord factor (byte % 256) bytes with
    | error e => simp
    | ok p => obtain ⟨command, rest⟩ := p; simp [Gen.cons]
  · intro command rest h
    generalize hb : byte % 256 = b at h hlt
    obtain ⟨hsh, hu, htab⟩ := decode_tables b hlt
    have hne : Decode.COMMANDS.getD (b >>> 4) '_' ≠ '_' := by
      intro hc
      rw [(decodeRecord_unknown factor b bytes).2 hc] at h
      cases h
    cases hl : Spec.codeLetter (b / 16) with
    | none => exact absurd (hu.2 hl) hne
    | some l =>
      obtain ⟨hc, ha, hbit⟩ := htab l hl
      refine ⟨l, rfl, ?_⟩
      unfold decodeRecord at h
      rw [if_neg hne, ha, hc] at h
      cases hr : readValues (b &&& 0b111) (Decode.SMAP.getD (b &&& 0b111) 0) factor
          (Spec.arityOfCode (b / 16)) bytes with
      | none => rw [hr] at h; cases h
      | some p =>
        obtain ⟨values, rest'⟩ := p
        rw [hr] at h
        have hlen := (readValues_length _ _ _ _ _ _ _ hr).1
        simp only [Except.ok.injEq, Prod.mk.injEq] at h
        obtain ⟨hcmd, _⟩ := h
        subst hcmd
        constructor
        · show (if (b >>> 3) &&& 1 = 1 then _ else _) = _
          by_cases hb3 : (b >>> 3) &&& 1 = 1
          · rw [if_pos hb3, if_pos (hbit.1 hb3)]
          · rw [if_neg hb3, if_neg (fun h => hb3 (hbit.2 h))]
        · show (if l = 'A' then splice3 values _ _ else values).length = _
          by_cases hA : l = 'A'
          · rw [if_pos hA, if_pos hA]
            have h3 : 3 ≤ values.length := by
              rw [hlen]
              have : ∀ b < 256, Spec.codeLetter (b / 16) = some 'A' →
                  Spec.arityOfCode (b / 16) = 5 := by decide!
              rw [this b hlt (hA ▸ hl)]
              decide
            simp only [splice3, List.length_append, List.length_take, List.length_drop,
              List.length_cons, List.length_nil]
            omega
          · rw [if_neg hA, if_neg hA, hlen]; rfl

/-- C13 (amended) at the record `40 01 01`: code 4 is not reserved and stands for M. -/
theorem C13_reserved_codes_amended_witness :
    ∃ l, Spec.codeLetter (0x40 % 256 / 16) = some l ∧
      (⟨"M", [JSNum.ofInt 1, JSNum.ofInt 1]⟩ : Command).type =
        (if 0x40 % 256 / 8 % 2 = 1 then toLowerCase (String.singleton l)
          else String.singleton l) ∧
      (⟨"M", [JSNum.ofInt 1, JSNum.ofInt 1]⟩ : Command).values.length =
        Spec.arityOfCode (0x40 % 256 / 16) + (if l = 'A' then 2 else 0) :=
  (C13_reserved_codes_amended.2.2.2 (JSNum.ofInt 1) 0x40 [1, 1]).2.2
    ⟨"M", [JSNum.ofInt 1, JSNum.ofInt 1]⟩ [] (except_eq_ok _ _ (by decide!))

open Host Encode Decode

/-! ## Records of a wire stream: truncation and concatenation -/

/-- Reading `n` values of `size` bytes fails when fewer than `n * size` bytes are left. -/
theorem readValues_short (code size : Nat) (factor : JSNum) :
    ∀ (n : Nat) (bytes : List Nat), bytes.length < n * size →
      readValues code size factor n bytes = none := by
  intro n
  induction n with
  | zero => intro bytes h; simp at h
  | succ k ih =>
    intro bytes h
    simp only [readValues]
    by_cases hs : bytes.length < size
    · rw [if_pos hs]
    · rw [if_neg hs]
      have : (bytes.drop size).length < k * size := by
        rw [List.length_drop]
        rw [Nat.succ_mul] at h
        omega
      rw [ih _ this]

/-- The sizes in the tables of the decoder, for a header whose code is not reserved. -/
theorem decode_sizes : ∀ b < 256, Spec.codeLetter (b / 16) ≠ none →
    Decode.COMMANDS.getD (b >>> 4) '_' ≠ '_' ∧
    (Decode.ARGS.getD (b >>> 4) none).getD 0 * Decode.SMAP.getD (b &&& 0b111) 0 =
      Spec.arityOfCode (b / 16) * Spec.widthOfCode (b % 8) := by
  decide!

/-- The command of a record depends on its header and on the values read only. -/
theorem decodeRecord_ok (factor : JSNum) (b : Nat) (values : List JSNum)
    (hc : Decode.COMMANDS.getD (b >>> 4) '_' ≠ '_') :
    ∃ command, ∀ (bytes rest : List Nat),
      readValues (b &&& 0b111) (Decode.SMAP.getD (b &&& 0b111) 0) factor
        ((Decode.ARGS.getD (b >>> 4) none).getD 0) bytes = some (values, rest) →
      decodeRecord factor b bytes = .ok (command, rest) :=
  ⟨⟨if (b >>> 3) &&& 1 = 1
      then toLowerCase (String.singleton (Decode.COMMANDS.getD (b >>> 4) '_'))
      else String.singleton (Decode.COMMANDS.getD (b >>> 4) '_'),
    if Decode.COMMANDS.getD (b >>> 4) '_' = 'A' then
      splice3 values (JSNum.ofInt ((((b >>> 4) &&& 0b11) >>> 1 : Nat) : Int))
        (JSNum.ofInt ((((b >>> 4) &&& 0b11) &&& 1 : Nat) : Int))
    else values⟩, fun bytes rest hr => by unfold decodeRecord; rw [if_neg hc, hr]⟩

/-- A whole record followed by more bytes: its command is yielded and decoding goes on
with the bytes after it. -/
theorem decodeAll_whole (factor : JSNum) (r : List Nat) (h : Spec.isWholeRecord r = true) :
    ∃ command, ∀ t, decodeAll (r ++ t) factor = Gen.cons command (decodeAll t factor) := by
  cases r with
  | nil => simp [Spec.isWholeRecord] at h
  | cons b payload =>
    simp only [Spec.isWholeRecord, Bool.and_eq_true, decide_eq_true_eq] at h
    obtain ⟨hl, hlen⟩ := h
    have hlt : b % 256 < 256 := Nat.mod_lt _ (by decide)
    have hne : Spec.codeLetter (b % 256 / 16) ≠ none := by
      intro hc; rw [hc] at hl; simp at hl
    obtain ⟨hc, hsz⟩ := decode_sizes _ hlt hne
    unfold Spec.payloadSize at hlen
    rw [← hsz] at hlen
    have hv : ∀ (n : Nat) (p : List Nat),
        p.length = n * Decode.SMAP.getD ((b % 256) &&& 0b111) 0 →
        ∃ values, ∀ t, readValues ((b % 256) &&& 0b111)
          (Decode.SMAP.getD ((b % 256) &&& 0b111) 0) factor n (p ++ t) =
            some (values, t) := by
      intro n
      induction n with
      | zero =>
        intro p hp
        have : p = [] := List.length_eq_zero.1 (by simpa using hp)
        subst this
        exact ⟨[], fun t => rfl⟩
      | succ m ih =>
        intro p hp
        have hsz' : Decode.SMAP.getD ((b % 256) &&& 0b111) 0 ≤ p.length := by
          rw [hp, Nat.succ_mul]; exact Nat.le_add_left _ _
        obtain ⟨vs, hvs⟩ := ih (p.drop (Decode.SMAP.getD ((b % 256) &&& 0b111) 0)) (by
          rw [List.length_drop, hp, Nat.succ_mul]; omega)
        refine ⟨(MMAP ((b % 256) &&& 0b111)
          (p.take (Decode.SMAP.getD ((b % 256) &&& 0b111) 0))).div factor :: vs, ?_⟩
        intro t
        simp only [readValues]
        have h1 : ¬ ((p ++ t).length < Decode.SMAP.getD ((b % 256) &&& 0b111) 0) := by
          simp only [List.length_append]; omega
        have h2 : (p ++ t).drop (Decode.SMAP.getD ((b % 256) &&& 0b111) 0) =
            p.drop (Decode.SMAP.getD ((b % 256) &&& 0b111) 0) ++ t :=
          List.drop_append_of_le_length hsz'
        have h3 : (p ++ t).take (Decode.SMAP.getD ((b % 256) &&& 0b111) 0) =
            p.take (Decode.SMAP.getD ((b % 256) &&& 0b111) 0) :=
          List.take_append_of_le_length hsz'
        simp only [h1, if_false, h2, h3, hvs]
    obtain ⟨values, hvals⟩ := hv _ payload hlen
    obtain ⟨command, hcmd'⟩ := decodeRecord_ok factor (b % 256) values hc
    have hcmd : ∀ t, decodeRecord factor (b % 256) (payload ++ t) = .ok (command, t) :=
      fun t => hcmd' _ _ (hvals t)
    exact ⟨command, fun t => decodeAll_record factor b payload t command (hcmd t)⟩

/-- A sequence of whole records followed by more bytes: their commands are yielded, one
per record, and decoding goes on with the bytes after them. -/
theorem decodeAll_wholes (factor : JSNum) :
    ∀ records : List (List Nat), (∀ r ∈ records, Spec.isWholeRecord r = true) →
      ∃ commands : List Command, commands.length = records.length ∧
        ∀ t, decodeAll (records.flatten ++ t) factor =
          Gen.append commands (decodeAll t factor) := by
  intro records
  induction records with
  | nil => intro _; exact ⟨[], rfl, fun t => rfl⟩
  | cons r rs ih =>
    intro h
    obtain ⟨c, hc⟩ := decodeAll_whole factor r (h r (List.mem_cons_self _ _))
    obtain ⟨cs, hlen, hcs⟩ := ih (fun r' hr' => h r' (List.mem_cons_of_mem _ hr'))
    refine ⟨c :: cs, by simp [hlen], fun t => ?_⟩
    rw [List.flatten_cons, List.append_assoc, hc, hcs]
    rfl

/-- A truncated record makes `decode` fail with the out-of-range error. -/
theorem decodeAll_truncated (factor : JSNum) (r : List Nat)
    (h : Spec.isTruncatedRecord r = true) :
    decodeAll r factor = ⟨[], some .rangeError⟩ := by
  cases r with
  | nil => simp [Spec.isTruncatedRecord] at h
  | cons b payload =>
    simp only [Spec.isTruncatedRecord, Bool.and_eq_true, decide_eq_true_eq] at h
    obtain ⟨hl, hlen⟩ := h
    have hlt : b % 256 < 256 := Nat.mod_lt _ (by decide)
    have hne : Spec.codeLetter (b % 256 / 16) ≠ none := by
      intro hc; rw [hc] at hl; simp at hl
    obtain ⟨hc, hsz⟩ := decode_sizes _ hlt hne
    unfold Spec.payloadSize at hlen
    rw [← hsz] at hlen
    have hrec : decodeRecord factor (b % 256) payload = .error .rangeError := by
      unfold decodeRecord
      rw [if_neg hc, readValues_short _ _ _ _ _ hlen]
    rw [decodeAll_eq]
    show (match decodeRecord factor (b % 256) payload with
      | .error e => (⟨[], some e⟩ : Gen Command)
      | .ok (command, rest) => Gen.cons command (decodeLoop factor payload.length rest)) = _
    rw [hrec]

/-- A header with a reserved code makes `decode` fail with the unknown-command error. -/
theorem decodeAll_reserved (factor : JSNum) (r : List Nat)
    (h : Spec.isReservedRecord r = true) :
    decodeAll r factor = ⟨[], some .unknownCommand⟩ := by
  cases r with
  | nil => simp [Spec.isReservedRecord] at h
  | cons b t =>
    simp only [Spec.isReservedRecord, Option.isNone_iff_eq_none] at h
    have hlt : b % 256 < 256 := Nat.mod_lt _ (by decide)
    have hrec : decodeRecord factor (b % 256) t = .error .unknownCommand :=
      (decodeRecord_unknown factor (b % 256) t).2 (((decode_tables _ hlt).2.1).2 h)
    rw [decodeAll_eq]
    show (match decodeRecord factor (b % 256) t with
      | .error e => (⟨[], some e⟩ : Gen Command)
      | .ok (command, rest) => Gen.cons command (decodeLoop factor t.length rest)) = _
    rw [hrec]

/-- Every byte sequence is a sequence of whole records, followed by nothing, by a
truncated record, or by a header with a reserved code. -/
theorem records_cases : ∀ (n : Nat) (v : List Nat), v.length ≤ n →
    ∃ records : List (List Nat), (∀ r ∈ records, Spec.isWholeRecord r = true) ∧
      (v = records.flatten ∨
       (∃ r, v = records.flatten ++ r ∧ Spec.isTruncatedRecord r = true) ∨
       (∃ r, v = records.flatten ++ r ∧ Spec.isReservedRecord r = true)) := by
  intro n
  induction n with
  | zero =>
    intro v hv
    have : v = [] := List.length_eq_zero.1 (by omega)
    subst this
    exact ⟨[], by simp, Or.inl rfl⟩
  | succ k ih =>
    intro v hv
    cases v with
    | nil => exact ⟨[], by simp, Or.inl rfl⟩
    | cons b t =>
      cases hl : Spec.codeLetter (b % 256 / 16) with
      | none =>
        exact ⟨[], by simp, Or.inr (Or.inr ⟨b :: t, rfl, by simp [Spec.isReservedRecord, hl]⟩)⟩
      | some l =>
        by_cases hlen : t.length < Spec.payloadSize b
        · exact ⟨[], by simp,
            Or.inr (Or.inl ⟨b :: t, rfl, by simp [Spec.isTruncatedRecord, hl, hlen]⟩)⟩
        · have hle : Spec.payloadSize b ≤ t.length := not_lt.1 hlen
          have hw : Spec.isWholeRecord (b :: t.take (Spec.payloadSize b)) = true := by
            simp [Spec.isWholeRecord, hl, List.length_take, hle]
          have hsplit : b :: t = (b :: t.take (Spec.payloadSize b)) ++
              t.drop (Spec.payloadSize b) := by
            simp [List.take_append_drop]
          obtain ⟨rs, hrs, hcase⟩ := ih (t.drop (Spec.payloadSize b)) (by
            rw [List.length_drop]; simp only [List.length_cons] at hv; omega)
          refine ⟨(b :: t.take (Spec.payloadSize b)) :: rs, ?_, ?_⟩
          · intro r hr
            rcases List.mem_cons.1 hr with h | h
            · rw [h]; exact hw
            · exact hrs r h
          · rcases hcase with h | ⟨r, h, hr⟩ | ⟨r, h, hr⟩
            · left
              rw [List.flatten_cons, ← h]; exact hsplit
            · right; left
              refine ⟨r, ?_, hr⟩
              rw [List.flatten_cons, List.append_assoc, ← h]; exact hsplit
            · right; right
              refine ⟨r, ?_, hr⟩
              rw [List.flatten_cons, List.append_assoc, ← h]; exact hsplit

/-- Decoding nothing yields nothing. -/
theorem decodeAll_nil (factor : JSNum) : decodeAll [] factor = ⟨[], none⟩ := rfl

/-- The error of `decode` on the three kinds of byte sequence. -/
theorem decodeAll_cases (factor : JSNum) (v : List Nat) :
    ((decodeAll v factor).err = none ↔
      ∃ records : List (List Nat), v = records.flatten ∧
        ∀ r ∈ records, Spec.isWholeRecord r = true) ∧
    ((decodeAll v factor).err = some .rangeError ↔
      ∃ (records : List (List Nat)) (r : List Nat), v = records.flatten ++ r ∧
        (∀ r' ∈ records, Spec.isWholeRecord r' = true) ∧ Spec.isTruncatedRecord r = true) := by
  have hwhole : ∀ records : List (List Nat), (∀ r ∈ records, Spec.isWholeRecord r = true) →
      (decodeAll records.flatten factor).err = none := by
    intro records h
    obtain ⟨cs, _, hcs⟩ := decodeAll_wholes factor records h
    have := hcs []
    rw [List.append_nil] at this
    rw [this, decodeAll_nil]; rfl
  have htrunc : ∀ (records : List (List Nat)) (r : List Nat),
      (∀ r ∈ records, Spec.isWholeRecord r = true) → Spec.isTruncatedRecord r = true →
      (decodeAll (records.flatten ++ r) factor).err = some .rangeError := by
    intro records r h hr
    obtain ⟨cs, _, hcs⟩ := decodeAll_wholes factor records h
    rw [hcs r, decodeAll_truncated factor r hr]; rfl
  have hres : ∀ (records : List (List Nat)) (r : List Nat),
      (∀ r ∈ records, Spec.isWholeRecord r = true) → Spec.isReservedRecord r = true →
      (decodeAll (records.flatten ++ r) factor).err = some .unknownCommand := by
    intro records r h hr
    obtain ⟨cs, _, hcs⟩ := decodeAll_wholes factor records h
    rw [hcs r, decodeAll_reserved factor r hr]; rfl
  obtain ⟨records, hrs, hcase⟩ := records_cases v.length v (le_refl _)
  constructor
  · constructor
    · intro herr
      rcases hcase with h | ⟨r, h, hr⟩ | ⟨r, h, hr⟩
      · exact ⟨records, h, hrs⟩
      · rw [h, htrunc records r hrs hr] at herr; cases herr
      · rw [h, hres records r hrs hr] at herr; cases herr
    · rintro ⟨rs, h, hw⟩
      rw [h]; exact hwhole rs hw
  · constructor
    · intro herr
      rcases hcase with h | ⟨r, h, hr⟩ | ⟨r, h, hr⟩
      · rw [h, hwhole records hrs] at herr; cases herr
      · exact ⟨records, r, h, hrs, hr⟩
      · rw [h, hres records r hrs hr] at herr; cases herr
    · rintro ⟨rs, r, h, hw, hr⟩
      rw [h]; exact htrunc rs r hw hr

open Host Encode Decode

/-- On a range that lies in the buffer, `decode` decodes the bytes of the range. -/
theorem decode_view (buffer : List Nat) (byteOffset byteLength : Nat) (factor : JSNum)
    (hrange : byteOffset + byteLength ≤ buffer.length) :
    decode buffer byteOffset byteLength factor =
      decodeAll ((buffer.drop byteOffset).take byteLength) factor := by
  have hlen : ((buffer.drop byteOffset).take byteLength).length = byteLength := by
    rw [List.length_take, List.length_drop]; omega
  rw [decodeAll_eq, hlen]
  unfold decode
  rw [if_neg (by omega)]

/-- C14, as the claim states it for every buffer and range, fails: when the declared range
leaves the buffer, the `DataView` constructor throws the out-of-range error before any
record is read.  For the one-byte buffer `F0` (a whole record Z) and the range of offset
0 and length 2, `decode` fails with the out-of-range error and yields nothing, although
the bytes of the range are one whole record and no record in them is truncated. -/
theorem C14_truncation_counterexample :
    (∀ factor : JSNum, decode [0xF0] 0 2 factor = ⟨[], some .rangeError⟩) ∧
    ([0xF0].drop 0).take 2 = [[0xF0]].flatten ∧
    Spec.isWholeRecord [0xF0] = true ∧
    (¬ ∃ (records : List (List Nat)) (r : List Nat),
      ([0xF0].drop 0).take 2 = records.flatten ++ r ∧
      (∀ r' ∈ records, Spec.isWholeRecord r' = true) ∧ Spec.isTruncatedRecord r = true) ∧
    decodeAll [0xF0] (JSNum.ofInt 1) = ⟨[⟨"Z", []⟩], none⟩ := by
  refine ⟨fun factor => rfl, by decide, by decide, ?_, by decide!⟩
  intro h
  have h1 := ((decodeAll_cases (JSNum.ofInt 1) (([0xF0].drop 0).take 2)).2).2 h
  have h2 : (decodeAll (([0xF0].drop 0).take 2) (JSNum.ofInt 1)).err = none := by decide!
  rw [h2] at h1
  cases h1

/-- C14, amended.  For every buffer and every range that lies in the buffer,
`decode` ends without error exactly when the bytes of the range are a sequence of whole
records (the cursor reaches the declared end on a record boundary), and it fails with the
out-of-range error if and only if the bytes of the range are a sequence of whole records
followed by a truncated one: a header with a valid command code that declares
`arity * width` payload bytes of which fewer remain before the declared end.  In that
case the commands of all the records before the truncated one are yielded first. -/
theorem C14_truncation_amended (buffer : List Nat) (byteOffset byteLength : Nat)
    (factor : JSNum) (hrange : byteOffset + byteLength ≤ buffer.length) :
    ((decode buffer byteOffset byteLength factor).err = none ↔
      ∃ records : List (List Nat),
        (buffer.drop byteOffset).take byteLength = records.flatten ∧
        ∀ r ∈ records, Spec.isWholeRecord r = true) ∧
    ((decode buffer byteOffset byteLength factor).err = some .rangeError ↔
      ∃ (records : List (List Nat)) (r : List Nat),
        (buffer.drop byteOffset).take byteLength = records.flatten ++ r ∧
        (∀ r' ∈ records, Spec.isWholeRecord r' = true) ∧ Spec.isTruncatedRecord r = true) ∧
    (∀ (records : List (List Nat)) (r : List Nat),
      (buffer.drop byteOffset).take byteLength = records.flatten ++ r →
      (∀ r' ∈ records, Spec.isWholeRecord r' = true) → Spec.isTruncatedRecord r = true →
      ∃ commands : List Command, commands.length = records.length ∧
        decodeAll records.flatten factor = ⟨commands, none⟩ ∧
        decode buffer byteOffset byteLength factor = ⟨commands, some .rangeError⟩) := by
  rw [decode_view buffer byteOffset byteLength factor hrange]
  refine ⟨(decodeAll_cases factor _).1, (decodeAll_cases factor _).2, ?_⟩
  intro records r hv hw hr
  obtain ⟨cs, hlen, hcs⟩ := decodeAll_wholes factor records hw
  refine ⟨cs, hlen, ?_, ?_⟩
  · have := hcs []
    rw [List.append_nil] at this
    rw [this, decodeAll_nil]; simp [Gen.append]
  · rw [hv, hcs r, decodeAll_truncated factor r hr]
    simp [Gen.append]

/-- C14 (amended) at the buffer `F0 40 01` with the whole buffer as range: the record Z is
whole, the record M lacks one of its two payload bytes. -/
theorem C14_truncation_amended_witness :
    0 + 3 ≤ [0xF0, 0x40, 0x01].length ∧
    ∃ commands : List Command, commands.length = [[0xF0]].length ∧
      decodeAll [[0xF0]].flatten (JSNum.ofInt 1) = ⟨commands, none⟩ ∧
      decode [0xF0, 0x40, 0x01] 0 3 (JSNum.ofInt 1) = ⟨commands, some .rangeError⟩ :=
  ⟨by decide,
    (C14_truncation_amended [0xF0, 0x40, 0x01] 0 3 (JSNum.ofInt 1) (by decide)).2.2
      [[0xF0]] [0x40, 0x01] (by decide) (by decide) (by decide)⟩

open Host Encode Decode

/-! ## The state of `FLOAT_RE` between calls -/

/-- Without the stamps, the stamped tokens are the tokens of `tokenizePath`. -/
theorem tokenizeStamped_fst (lastIndex : Nat) (string : String) :
    (tokenizeStamped lastIndex string).map Prod.fst = tokenizePath lastIndex string := by
  unfold tokenizeStamped tokenizePath
  rw [List.map_map]
  rfl

/-- Without the stamps, the stamped grouping loop is the grouping loop. -/
theorem parseGroupedStamped_erase :
    ∀ (tokens : List (Token × Nat)) (command : Option Command),
      (⟨(parseGroupedStamped command tokens).1.map Prod.fst,
        (parseGroupedStamped command tokens).2.1⟩ : Gen Command) =
      parseGroupedLoop command (tokens.map Prod.fst) := by
  intro tokens
  induction tokens with
  | nil =>
    intro command
    cases command <;> rfl
  | cons p tokens ih =>
    intro command
    obtain ⟨⟨ty, value⟩, i⟩ := p
    cases ty with
    | command =>
      cases command with
      | none =>
        simp only [parseGroupedStamped, List.map_cons, parseGroupedLoop]
        exact ih _
      | some c =>
        simp only [parseGroupedStamped, List.map_cons, parseGroupedLoop, Gen.cons]
        rw [← ih]
    | float =>
      cases command with
      | none => rfl
      | some c =>
        simp only [parseGroupedStamped, List.map_cons, parseGroupedLoop]
        by_cases hn : (parseFloat value).isNaN = true
        · rw [if_pos hn, if_pos hn]
          rfl
        · rw [if_neg hn, if_neg hn]
          exact ih _

/-- A grouping loop that ends without error ends because `exec` found no further match:
`lastIndex` is 0 again. -/
theorem parseGroupedStamped_final :
    ∀ (tokens : List (Token × Nat)) (command : Option Command),
      (parseGroupedStamped command tokens).2.1 = none →
      (parseGroupedStamped command tokens).2.2 = 0 := by
  intro tokens
  induction tokens with
  | nil =>
    intro command _
    cases command <;> rfl
  | cons p tokens ih =>
    intro command h
    obtain ⟨⟨ty, value⟩, i⟩ := p
    cases ty with
    | command =>
      cases command with
      | none =>
        simp only [parseGroupedStamped] at h ⊢
        exact ih _ h
      | some c =>
        simp only [parseGroupedStamped] at h ⊢
        exact ih _ h
    | float =>
      cases command with
      | none => simp [parseGroupedStamped] at h
      | some c =>
        simp only [parseGroupedStamped] at h ⊢
        by_cases hn : (parseFloat value).isNaN = true
        · rw [if_pos hn] at h; simp at h
        · rw [if_neg hn] at h ⊢
          exact ih _ h

/-- A run of the consumer in which no command fails ends with the final `lastIndex`. -/
theorem lastIndexLoop_ok (final : Nat) :
    ∀ cs : List (Command × Nat),
      (∀ p ∈ cs, (expandACommands (ungroupCommand p.1)).err = none) →
      lastIndexLoop cs final = final := by
  intro cs
  induction cs with
  | nil => intro _; rfl
  | cons p cs ih =>
    intro h
    obtain ⟨c, i⟩ := p
    have hc := h (c, i) (List.mem_cons_self _ _)
    simp only [lastIndexLoop]
    simp only at hc
    rw [hc]
    simp only [Option.isSome_none, Bool.false_eq_true, if_false]
    exact ih (fun p hp => h p (List.mem_cons_of_mem _ hp))

/-- The errors of two chained stages on one upstream item at a time. -/
theorem stage_stage_err {α β γ : Type} (f : α → Gen β) (g : β → Gen γ) (up : Gen α)
    (h : (Gen.stage g (Gen.stage f up)).err = none) :
    ∀ x ∈ up.items, (Gen.stage g (f x)).err = none := by
  intro x hx
  obtain ⟨h1, h2, _⟩ := Gen.stage_err_none g _ h
  obtain ⟨_, h4, h5⟩ := Gen.stage_err_none f _ h1
  have hfx := h4 x hx
  have hitems : ∀ y ∈ (f x).items, (g y).err = none := by
    intro y hy
    apply h2
    rw [h5]
    exact List.mem_flatMap.2 ⟨x, hx, hy⟩
  have : f x = ⟨(f x).items, none⟩ := by
    cases hf : f x with
    | mk items err =>
      rw [hf] at hfx
      simp only at hfx
      rw [hfx]
  rw [this, Gen.stage_ok g _ hitems]

/-- A call of `encode` that runs to its end without error leaves `FLOAT_RE.lastIndex`
at 0, whatever it was before. -/
theorem lastIndexAfter_ok (lastIndex : Nat) (string : String) (o : Options)
    (h : (encode lastIndex string o).err = none) : lastIndexAfter lastIndex string = 0 := by
  unfold encode at h
  obtain ⟨h1, _, _⟩ := Gen.stage_err_none _ _ h
  have herase := parseGroupedStamped_erase (tokenizeStamped lastIndex string) none
  rw [tokenizeStamped_fst] at herase
  have hup : expandACommands (ungroupCommands (parseGroupedCommands
      (tokenizePath lastIndex string))) =
      Gen.stage expandACommand (Gen.stage ungroupCommand
        ⟨(parseGroupedStamped none (tokenizeStamped lastIndex string)).1.map Prod.fst,
          (parseGroupedStamped none (tokenizeStamped lastIndex string)).2.1⟩) := by
    rw [herase]; rfl
  rw [hup] at h1
  have hall := stage_stage_err ungroupCommand expandACommand _ h1
  obtain ⟨h2, _, _⟩ := Gen.stage_err_none _ _ h1
  obtain ⟨h3, _, _⟩ := Gen.stage_err_none _ _ h2
  unfold lastIndexAfter
  rw [lastIndexLoop_ok]
  · exact parseGroupedStamped_final _ _ h3
  · intro p hp
    exact hall p.1 (List.mem_map_of_mem _ hp)

/-- C15 fails on the code.  `encode("10 10")` on a fresh module aborts with
`MissingCommand` after the first token and leaves `FLOAT_RE.lastIndex` at 2; the next
call `encode("M1 1")` then starts its search at index 2, misses the letter M, and fails
with `MissingCommand`, whereas on a fresh module it yields the record `40 01 01`. -/
theorem C15_state_between_invocations_failing_input :
    encode 0 "10 10" defaultOptions = ⟨[], some .missingCommand⟩ ∧
    lastIndexAfter 0 "10 10" = 2 ∧
    tokenizePath 2 "M1 1" = [⟨.float, "1"⟩] ∧
    encode (lastIndexAfter 0 "10 10") "M1 1" defaultOptions = ⟨[], some .missingCommand⟩ ∧
    encode 0 "M1 1" defaultOptions = ⟨[[0x40], [1, 1]], none⟩ ∧
    encode (lastIndexAfter 0 "10 10") "M1 1" defaultOptions ≠
      encode 0 "M1 1" defaultOptions := by
  decide!

open Host Encode Decode

/-! ## The tokenizer: `FLOAT_RE` against the scanner of the specification -/

theorem digits_eq : Encode.digits = Re.set Spec.digitChars := rfl

theorem run_set_nil (cs : List Char) (k : List Char → Option (List Char)) :
    Re.run (.set cs) [] k = none := rfl

theorem run_set_cons (cs : List Char) (c : Char) (t : List Char)
    (k : List Char → Option (List Char)) :
    Re.run (.set cs) (c :: t) k = if c ∈ cs then k t else none := rfl

theorem run_set_exp (c : Char) (t : List Char) (k : List Char → Option (List Char)) :
    Re.run (.set "Ee".toList) (c :: t) k = if c ∈ ['E', 'e'] then k t else none := rfl

theorem run_set_sign (c : Char) (t : List Char) (k : List Char → Option (List Char)) :
    Re.run (.set "-+".toList) (c :: t) k = if c ∈ ['-', '+'] then k t else none := rfl

theorem run_set_point (c : Char) (t : List Char) (k : List Char → Option (List Char)) :
    Re.run (.set ".".toList) (c :: t) k = if c = '.' then k t else none := by
  rw [run_set_cons]
  by_cases h : c = '.'
  · rw [if_pos h, if_pos (by rw [h]; decide)]
  · rw [if_neg h, if_neg (by simpa using h)]

theorem digitRun_nil : Spec.digitRun [] = 0 := rfl

theorem digitRun_cons_pos (c : Char) (t : List Char) (h : c ∈ Spec.digitChars) :
    Spec.digitRun (c :: t) = Spec.digitRun t + 1 := by
  simp [Spec.digitRun, List.takeWhile, h]

theorem digitRun_cons_neg (c : Char) (t : List Char) (h : c ∉ Spec.digitChars) :
    Spec.digitRun (c :: t) = 0 := by
  simp [Spec.digitRun, List.takeWhile, h]

theorem digitRun_le (s : List Char) : Spec.digitRun s ≤ s.length := by
  induction s with
  | nil => simp [digitRun_nil]
  | cons c t ih =>
    by_cases h : c ∈ Spec.digitChars
    · rw [digitRun_cons_pos c t h]; simp only [List.length_cons]; omega
    · rw [digitRun_cons_neg c t h]; omega

/-- After the run of digits there is no digit. -/
theorem digitRun_drop (s : List Char) : Spec.digitRun (s.drop (Spec.digitRun s)) = 0 := by
  induction s with
  | nil => rfl
  | cons c t ih =>
    by_cases h : c ∈ Spec.digitChars
    · rw [digitRun_cons_pos c t h, List.drop_succ_cons]; exact ih
    · rw [digitRun_cons_neg c t h, List.drop_zero, digitRun_cons_neg c t h]

/-- The character before the end of a run of digits is a digit. -/
theorem digitRun_last (s : List Char) (h : Spec.digitRun s ≠ 0) :
    ∃ d, d ∈ Spec.digitChars ∧
      s.drop (Spec.digitRun s - 1) = d :: s.drop (Spec.digitRun s) := by
  induction s with
  | nil => exact absurd digitRun_nil h
  | cons c t ih =>
    by_cases hc : c ∈ Spec.digitChars
    · rw [digitRun_cons_pos c t hc]
      by_cases ht : Spec.digitRun t = 0
      · rw [ht]
        exact ⟨c, hc, rfl⟩
      · obtain ⟨d, hd, hdrop⟩ := ih ht
        refine ⟨d, hd, ?_⟩
        obtain ⟨m, hm⟩ := Nat.exists_eq_succ_of_ne_zero ht
        rw [hm] at hdrop ⊢
        simp only [Nat.succ_eq_add_one, Nat.add_sub_cancel, List.drop_succ_cons] at hdrop ⊢
        exact hdrop
    · exact absurd (digitRun_cons_neg c t hc) h

/-- Without a digit at the head, the iteration stops at once. -/
theorem iter_none (k : List Char → Option (List Char)) (fuel : Nat) (s : List Char)
    (h : Spec.digitRun s = 0) :
    Re.iter (Re.run (.set Spec.digitChars)) fuel s k = k s := by
  cases fuel with
  | zero => rfl
  | succ f =>
    cases s with
    | nil => rfl
    | cons c t =>
      have hc : c ∉ Spec.digitChars := by
        intro hc
        rw [digitRun_cons_pos c t hc] at h
        omega
      simp only [Re.iter, run_set_cons, if_neg hc]
      rfl

/-- The greedy iteration succeeds with the whole run of digits when the rest of the
expression matches there. -/
theorem iter_all (k : List Char → Option (List Char)) (r : List Char) :
    ∀ (s : List Char) (fuel : Nat), s.length ≤ fuel →
      k (s.drop (Spec.digitRun s)) = some r →
      Re.iter (Re.run (.set Spec.digitChars)) fuel s k = some r := by
  intro s
  induction s with
  | nil =>
    intro fuel _ h
    rw [iter_none k fuel [] digitRun_nil]
    exact h
  | cons c t ih =>
    intro fuel hf h
    by_cases hc : c ∈ Spec.digitChars
    · cases fuel with
      | zero => simp at hf
      | succ f =>
        rw [digitRun_cons_pos c t hc, List.drop_succ_cons] at h
        simp only [Re.iter, run_set_cons, if_pos hc]
        rw [ih f (by simpa using hf) h]
        rfl
    · rw [iter_none k fuel _ (digitRun_cons_neg c t hc)]
      rw [digitRun_cons_neg c t hc] at h
      exact h

/-- The greedy iteration gives one digit back when the rest of the expression does not
match after the whole run but matches one character earlier. -/
theorem iter_back (k : List Char → Option (List Char)) (r : List Char) :
    ∀ (s : List Char) (fuel : Nat), s.length ≤ fuel → Spec.digitRun s ≠ 0 →
      k (s.drop (Spec.digitRun s)) = none →
      k (s.drop (Spec.digitRun s - 1)) = some r →
      Re.iter (Re.run (.set Spec.digitChars)) fuel s k = some r := by
  intro s
  induction s with
  | nil => intro fuel _ h0; exact absurd digitRun_nil h0
  | cons c t ih =>
    intro fuel hf h0 h1 h2
    by_cases hc : c ∈ Spec.digitChars
    · cases fuel with
      | zero => simp at hf
      | succ f =>
        rw [digitRun_cons_pos c t hc, List.drop_succ_cons] at h1
        rw [digitRun_cons_pos c t hc, Nat.add_sub_cancel] at h2
        simp only [Re.iter, run_set_cons, if_pos hc]
        by_cases ht : Spec.digitRun t = 0
        · rw [iter_none k f t ht]
          rw [ht] at h1 h2
          rw [List.drop_zero] at h1 h2
          rw [h1, h2]
          rfl
        · obtain ⟨m, hm⟩ := Nat.exists_eq_succ_of_ne_zero ht
          have h2' : k (t.drop (Spec.digitRun t - 1)) = some r := by
            rw [hm] at h2 ⊢
            simpa using h2
          rw [ih f (by simpa using hf) ht h1 h2']
          rfl
    · exact absurd (digitRun_cons_neg c t hc) h0

/-- `[0-9]+` at the end of the expression takes the whole run of digits. -/
theorem run_plus_some (s : List Char) :
    Re.run (.plus Encode.digits) s some =
      if Spec.digitRun s = 0 then none else some (s.drop (Spec.digitRun s)) := by
  rw [digits_eq]
  cases s with
  | nil => rfl
  | cons c t =>
    show Re.run (.set Spec.digitChars) (c :: t)
      (fun s1 => Re.iter (Re.run (.set Spec.digitChars)) s1.length s1 some) = _
    rw [run_set_cons]
    by_cases hc : c ∈ Spec.digitChars
    · rw [if_pos hc, digitRun_cons_pos c t hc, if_neg (Nat.succ_ne_zero _), List.drop_succ_cons]
      exact iter_all some _ t t.length (le_refl _) rfl
    · rw [if_neg hc, digitRun_cons_neg c t hc, if_pos rfl]

/-- The optional exponent at the end of the expression. -/
theorem run_exponent (s : List Char) :
    Re.run (.opt (.seq (.set "Ee".toList) (.seq (.opt (.set "-+".toList)) (.plus Encode.digits))))
      s some = some (s.drop (Spec.exponentLength s)) := by
  show (Re.run (.set "Ee".toList) s (fun s1 =>
      (Re.run (.set "-+".toList) s1 (fun s2 => Re.run (.plus Encode.digits) s2 some)).orElse
        (fun _ => Re.run (.plus Encode.digits) s1 some))).orElse (fun _ => some s) = _
  cases s with
  | nil => rfl
  | cons e t =>
    rw [run_set_exp]
    unfold Spec.exponentLength
    by_cases he : e ∈ ['E', 'e']
    · simp only [if_pos he]
      cases t with
      | nil => rfl
      | cons sg u =>
        rw [run_set_sign]
        by_cases hs : sg ∈ ['-', '+']
        · have hnd : sg ∉ Spec.digitChars := by
            intro hd
            simp only [List.mem_cons, List.mem_singleton, List.not_mem_nil, or_false] at hs
            rcases hs with h | h <;> rw [h] at hd <;> exact absurd hd (by decide)
          simp only [if_pos hs]
          rw [run_plus_some u, run_plus_some (sg :: u), digitRun_cons_neg sg u hnd]
          by_cases hu : Spec.digitRun u = 0
          · simp only [hu, if_true]
            rfl
          · simp only [hu, if_false]
            show some (u.drop (Spec.digitRun u)) = some ((e :: sg :: u).drop (2 + Spec.digitRun u))
            rw [Nat.add_comm 2, List.drop_succ_cons, List.drop_succ_cons]
        · simp only [if_neg hs]
          rw [run_plus_some (sg :: u)]
          by_cases hu : Spec.digitRun (sg :: u) = 0
          · simp only [hu, if_true]
            rfl
          · simp only [hu, if_false]
            show some ((sg :: u).drop (Spec.digitRun (sg :: u))) =
              some ((e :: sg :: u).drop (1 + Spec.digitRun (sg :: u)))
            rw [Nat.add_comm 1, List.drop_succ_cons]
    · simp only [if_neg he]
      rfl

/-- `[0-9]+` before the rest of the expression `k`: the whole run of digits is taken when
`k` matches after it. -/
theorem run_plus_all (k : List Char → Option (List Char)) (r s : List Char)
    (h0 : Spec.digitRun s ≠ 0) (h : k (s.drop (Spec.digitRun s)) = some r) :
    Re.run (.plus Encode.digits) s k = some r := by
  rw [digits_eq]
  cases s with
  | nil => exact absurd digitRun_nil h0
  | cons c t =>
    show Re.run (.set Spec.digitChars) (c :: t)
      (fun s1 => Re.iter (Re.run (.set Spec.digitChars)) s1.length s1 k) = _
    rw [run_set_cons]
    by_cases hc : c ∈ Spec.digitChars
    · rw [if_pos hc]
      rw [digitRun_cons_pos c t hc, List.drop_succ_cons] at h
      exact iter_all k r t t.length (le_refl _) h
    · exact absurd (digitRun_cons_neg c t hc) h0

/-- `[0-9]+` does not match without a digit. -/
theorem run_plus_none (k : List Char → Option (List Char)) (s : List Char)
    (h0 : Spec.digitRun s = 0) : Re.run (.plus Encode.digits) s k = none := by
  rw [digits_eq]
  cases s with
  | nil => rfl
  | cons c t =>
    show Re.run (.set Spec.digitChars) (c :: t)
      (fun s1 => Re.iter (Re.run (.set Spec.digitChars)) s1.length s1 k) = _
    rw [run_set_cons]
    by_cases hc : c ∈ Spec.digitChars
    · rw [digitRun_cons_pos c t hc] at h0; omega
    · rw [if_neg hc]

/-- The digits after the point, and the exponent. -/
theorem run_tail (s : List Char) :
    Re.run (.seq (.plus Encode.digits)
      (.opt (.seq (.set "Ee".toList) (.seq (.opt (.set "-+".toList)) (.plus Encode.digits)))))
      s some =
      if Spec.digitRun s = 0 then none
      else some ((s.drop (Spec.digitRun s)).drop
        (Spec.exponentLength (s.drop (Spec.digitRun s)))) := by
  show Re.run (.plus Encode.digits) s (fun s1 =>
    Re.run (.opt (.seq (.set "Ee".toList) (.seq (.opt (.set "-+".toList)) (.plus Encode.digits))))
      s1 some) = _
  by_cases h0 : Spec.digitRun s = 0
  · rw [if_pos h0, run_plus_none _ s h0]
  · rw [if_neg h0]
    exact run_plus_all _ _ s h0 (run_exponent _)

/-- The optional point, the digits after it, and the exponent. -/
theorem run_mid (s : List Char) :
    Re.run (.seq (.opt (.set ".".toList)) (.seq (.plus Encode.digits)
      (.opt (.seq (.set "Ee".toList) (.seq (.opt (.set "-+".toList)) (.plus Encode.digits))))))
      s some =
      if s.head? = some '.' ∧ Spec.digitRun s.tail ≠ 0 then
        some ((s.tail.drop (Spec.digitRun s.tail)).drop
          (Spec.exponentLength (s.tail.drop (Spec.digitRun s.tail))))
      else if Spec.digitRun s = 0 then none
      else some ((s.drop (Spec.digitRun s)).drop
        (Spec.exponentLength (s.drop (Spec.digitRun s)))) := by
  show (Re.run (.set ".".toList) s (fun s1 => Re.run (.seq (.plus Encode.digits)
      (.opt (.seq (.set "Ee".toList) (.seq (.opt (.set "-+".toList)) (.plus Encode.digits)))))
      s1 some)).orElse (fun _ => Re.run (.seq (.plus Encode.digits)
      (.opt (.seq (.set "Ee".toList) (.seq (.opt (.set "-+".toList)) (.plus Encode.digits)))))
      s some) = _
  cases s with
  | nil =>
    rw [run_set_nil, run_tail]
    simp [digitRun_nil]
  | cons c t =>
    rw [run_set_point, run_tail, run_tail]
    by_cases hc : c = '.'
    · have hnd : c ∉ Spec.digitChars := by rw [hc]; decide
      rw [if_pos hc, digitRun_cons_neg c t hnd]
      by_cases ht : Spec.digitRun t = 0
      · simp [ht, hc]
      · simp [ht, hc]
    · rw [if_neg hc]
      have : ¬ ((c :: t).head? = some '.' ∧ Spec.digitRun (c :: t).tail ≠ 0) := by
        intro h
        apply hc
        simpa using h.1
      rw [if_neg this]
      rfl

/-- The unsigned literal: `[0-9]*\.?[0-9]+` and the exponent. -/
theorem run_unsigned (s : List Char) :
    Re.run (.seq (.star Encode.digits) (.seq (.opt (.set ".".toList)) (.seq (.plus Encode.digits)
      (.opt (.seq (.set "Ee".toList) (.seq (.opt (.set "-+".toList)) (.plus Encode.digits)))))))
      s some =
      if Spec.unsignedLength s = 0 then none else some (s.drop (Spec.unsignedLength s)) := by
  show Re.iter (Re.run Encode.digits) s.length s (fun s1 =>
    Re.run (.seq (.opt (.set ".".toList)) (.seq (.plus Encode.digits)
      (.opt (.seq (.set "Ee".toList) (.seq (.opt (.set "-+".toList)) (.plus Encode.digits))))))
      s1 some) = _
  rw [digits_eq]
  have hr0 := digitRun_drop s
  by_cases hA : (s.drop (Spec.digitRun s)).head? = some '.' ∧
      Spec.digitRun (s.drop (Spec.digitRun s)).tail ≠ 0
  · have hU : Spec.unsignedLength s = Spec.digitRun s + 1 +
        Spec.digitRun (s.drop (Spec.digitRun s)).tail +
        Spec.exponentLength ((s.drop (Spec.digitRun s)).tail.drop
          (Spec.digitRun (s.drop (Spec.digitRun s)).tail)) := by
      unfold Spec.unsignedLength
      rw [if_pos hA]
    rw [hU, if_neg (by omega)]
    apply iter_all _ _ s s.length (le_refl _)
    rw [← digits_eq, run_mid, if_pos hA]
    congr 1
    simp only [List.tail_drop, List.drop_drop]
  · by_cases hn : Spec.digitRun s = 0
    · have hU : Spec.unsignedLength s = 0 := by
        unfold Spec.unsignedLength
        rw [if_neg hA, if_neg (not_not.2 hn)]
      rw [hU, if_pos rfl]
      rw [iter_none _ _ s hn, ← digits_eq, run_mid]
      rw [hn, List.drop_zero] at hA
      rw [if_neg hA, if_pos hn]
    · have hU : Spec.unsignedLength s =
          Spec.digitRun s + Spec.exponentLength (s.drop (Spec.digitRun s)) := by
        unfold Spec.unsignedLength
        rw [if_neg hA, if_pos hn]
      rw [hU, if_neg (by omega)]
      obtain ⟨d, hd, hlast⟩ := digitRun_last s hn
      apply iter_back _ _ s s.length (le_refl _) hn
      · rw [← digits_eq, run_mid, if_neg hA, if_pos hr0]
      · rw [hlast, ← digits_eq, run_mid]
        have h1 : Spec.digitRun (d :: s.drop (Spec.digitRun s)) = 1 := by
          rw [digitRun_cons_pos d _ hd, hr0]
        have hB : ¬ ((d :: s.drop (Spec.digitRun s)).head? = some '.' ∧
            Spec.digitRun (d :: s.drop (Spec.digitRun s)).tail ≠ 0) := by
          intro h
          have : d = '.' := by simpa using h.1
          rw [this] at hd
          exact absurd hd (by decide)
        rw [if_neg hB, h1, if_neg (by decide)]
        congr 1
        simp only [List.drop_succ_cons, List.drop_zero, List.drop_drop, Nat.add_zero]

/-- The literal: the optional sign and the unsigned literal. -/
theorem run_literal (s : List Char) :
    Re.run (.seq (.opt (.set "-+".toList))
      (.seq (.star Encode.digits) (.seq (.opt (.set ".".toList)) (.seq (.plus Encode.digits)
      (.opt (.seq (.set "Ee".toList) (.seq (.opt (.set "-+".toList)) (.plus Encode.digits))))))))
      s some =
      if Spec.literalLength s = 0 then none else some (s.drop (Spec.literalLength s)) := by
  show (Re.run (.set "-+".toList) s (fun s1 => Re.run
      (.seq (.star Encode.digits) (.seq (.opt (.set ".".toList)) (.seq (.plus Encode.digits)
      (.opt (.seq (.set "Ee".toList) (.seq (.opt (.set "-+".toList)) (.plus Encode.digits)))))))
      s1 some)).orElse (fun _ => Re.run
      (.seq (.star Encode.digits) (.seq (.opt (.set ".".toList)) (.seq (.plus Encode.digits)
      (.opt (.seq (.set "Ee".toList) (.seq (.opt (.set "-+".toList)) (.plus Encode.digits)))))))
      s some) = _
  cases s with
  | nil =>
    rw [run_set_nil, run_unsigned]
    rfl
  | cons c t =>
    rw [run_set_sign, run_unsigned, run_unsigned]
    unfold Spec.literalLength
    by_cases hs : c ∈ ['-', '+']
    · have hnd : c ∉ Spec.digitChars := by
        intro hd
        simp only [List.mem_cons, List.mem_singleton, List.not_mem_nil, or_false] at hs
        rcases hs with h | h <;> rw [h] at hd <;> exact absurd hd (by decide)
      have hnp : c ≠ '.' := by
        intro hp
        rw [hp] at hs
        exact absurd hs (by decide)
      have hU : Spec.unsignedLength (c :: t) = 0 := by
        unfold Spec.unsignedLength
        rw [digitRun_cons_neg c t hnd, List.drop_zero]
        have : ¬ ((c :: t).head? = some '.' ∧ Spec.digitRun (c :: t).tail ≠ 0) := by
          intro h
          apply hnp
          simpa using h.1
        rw [if_neg this, if_neg (by simp)]
      simp only [if_pos hs, hU]
      by_cases ht : Spec.unsignedLength t = 0
      · simp [ht]
      · simp only [ht, if_false]
        have : 1 + Spec.unsignedLength t ≠ 0 := by omega
        rw [if_neg this, Nat.add_comm 1, List.drop_succ_cons]
        rfl
    · simp only [if_neg hs]
      rfl

/-- The alphabet of the specification is the set `COMMANDS` of the code. -/
theorem letterChars_iff (c : Char) : c ∈ Encode.COMMANDS ↔ c ∈ Spec.letterChars := by
  have h1 : ∀ a ∈ Encode.COMMANDS, a ∈ Spec.letterChars := by decide
  have h2 : ∀ a ∈ Spec.letterChars, a ∈ Encode.COMMANDS := by decide
  exact ⟨h1 c, h2 c⟩

/-- `FLOAT_RE` at the head of the input: a command letter, or else the numeric literal
there. -/
theorem matchAt_FLOAT_RE (c : Char) (t : List Char) :
    FLOAT_RE.matchAt (c :: t) =
      if c ∈ Spec.letterChars then some t
      else if Spec.literalLength (c :: t) = 0 then none
      else some ((c :: t).drop (Spec.literalLength (c :: t))) := by
  show (Re.run (.set "MmLlHhVvCcQqSsTtAaZz".toList) (c :: t) some).orElse (fun _ => Re.run
      (.seq (.opt (.set "-+".toList))
      (.seq (.star Encode.digits) (.seq (.opt (.set ".".toList)) (.seq (.plus Encode.digits)
      (.opt (.seq (.set "Ee".toList) (.seq (.opt (.set "-+".toList)) (.plus Encode.digits))))))))
      (c :: t) some) = _
  rw [run_set_cons, run_literal]
  by_cases hc : c ∈ Spec.letterChars
  · have hc' : c ∈ "MmLlHhVvCcQqSsTtAaZz".toList := (letterChars_iff c).2 hc
    rw [if_pos hc, if_pos hc']
    rfl
  · have hc' : c ∉ "MmLlHhVvCcQqSsTtAaZz".toList := fun h => hc ((letterChars_iff c).1 h)
    rw [if_neg hc, if_neg hc']
    rfl

open Host Encode Decode

theorem exponentLength_le (s : List Char) : Spec.exponentLength s ≤ s.length := by
  cases s with
  | nil => simp [Spec.exponentLength]
  | cons e t =>
    cases t with
    | nil =>
      simp only [Spec.exponentLength]
      split_ifs <;> simp
    | cons sg u =>
      have h1 := digitRun_le u
      have h2 := digitRun_le (sg :: u)
      simp only [Spec.exponentLength, List.length_cons] at h2 ⊢
      split_ifs <;> omega

theorem unsignedLength_le (s : List Char) : Spec.unsignedLength s ≤ s.length := by
  unfold Spec.unsignedLength
  have hn := digitRun_le s
  have he := exponentLength_le (s.drop (Spec.digitRun s))
  rw [List.length_drop] at he
  split_ifs with hA h0
  · have ht := digitRun_le (s.drop (Spec.digitRun s)).tail
    have he2 := exponentLength_le
      ((s.drop (Spec.digitRun s)).tail.drop (Spec.digitRun (s.drop (Spec.digitRun s)).tail))
    rw [List.length_drop] at he2
    have hlen : (s.drop (Spec.digitRun s)).tail.length + 1 = s.length - Spec.digitRun s := by
      cases hr : s.drop (Spec.digitRun s) with
      | nil => rw [hr] at hA; simp at hA
      | cons c t =>
        have := congrArg List.length hr
        rw [List.length_drop] at this
        simp only [List.tail_cons, List.length_cons] at this ⊢
        omega
    omega
  · omega
  · omega

theorem literalLength_le (s : List Char) : Spec.literalLength s ≤ s.length := by
  unfold Spec.literalLength
  cases s with
  | nil => simp
  | cons c t =>
    have h1 := unsignedLength_le t
    have h2 := unsignedLength_le (c :: t)
    simp only [List.length_cons] at h2 ⊢
    split_ifs <;> omega

/-- Skipping the characters of a match is dropping them. -/
theorem tokensFrom_skip : ∀ (s : List Char) (n : Nat),
    Spec.tokensFrom n s = Spec.tokensFrom 0 (s.drop n) := by
  intro s
  induction s with
  | nil => intro n; cases n <;> rfl
  | cons c t ih =>
    intro n
    cases n with
    | zero => rfl
    | succ m =>
      rw [List.drop_succ_cons, ← ih m]
      rfl

/-- One call of `FLOAT_RE.exec` against the scanner: it finds the first token of the
input, and the scanner goes on after it. -/
theorem exec_spec : ∀ s : List Char,
    (exec s.length s = none ∧ Spec.tokensFrom 0 s = []) ∨
    ∃ m rest, exec s.length s = some (m, rest) ∧ rest.length < s.length ∧
      Spec.tokensFrom 0 s =
        (match m with
          | [c] => if c ∈ Encode.COMMANDS then (⟨.command, String.mk m⟩ : Token)
                   else ⟨.float, String.mk m⟩
          | _ => ⟨.float, String.mk m⟩) :: Spec.tokensFrom 0 rest := by
  intro s
  induction s with
  | nil => left; exact ⟨rfl, rfl⟩
  | cons c t ih =>
    have hexec : exec (c :: t).length (c :: t) =
        match FLOAT_RE.matchAt (c :: t) with
        | some rest => some ((c :: t).take ((c :: t).length - rest.length), rest)
        | none => exec t.length t := rfl
    rw [hexec, matchAt_FLOAT_RE]
    by_cases hc : c ∈ Spec.letterChars
    · right
      rw [if_pos hc]
      refine ⟨[c], t, ?_, by simp, ?_⟩
      · simp
      · have hc' : c ∈ Encode.COMMANDS := (letterChars_iff c).2 hc
        simp only [Spec.tokensFrom, if_pos hc, if_pos hc']
    · rw [if_neg hc]
      have hc' : c ∉ Encode.COMMANDS := fun h => hc ((letterChars_iff c).1 h)
      cases hL : Spec.literalLength (c :: t) with
      | zero =>
        rw [if_pos rfl]
        have htok : Spec.tokensFrom 0 (c :: t) = Spec.tokensFrom 0 t := by
          simp only [Spec.tokensFrom, if_neg hc, hL]
        rw [htok]
        rcases ih with ⟨h1, h2⟩ | ⟨m, rest, h1, h2, h3⟩
        · left; exact ⟨h1, h2⟩
        · right
          exact ⟨m, rest, h1, by simp only [List.length_cons]; omega, h3⟩
      | succ n =>
        right
        rw [if_neg (Nat.succ_ne_zero n)]
        have hle := literalLength_le (c :: t)
        rw [hL] at hle
        simp only [List.length_cons] at hle
        have hn : n ≤ t.length := by omega
        have htok : Spec.tokensFrom 0 (c :: t) =
            ⟨.float, String.mk ((c :: t).take (n + 1))⟩ :: Spec.tokensFrom 0 (t.drop n) := by
          simp only [Spec.tokensFrom, if_neg hc, hL]
          rw [tokensFrom_skip t n]
        refine ⟨(c :: t).take (n + 1), t.drop n, ?_, ?_, ?_⟩
        · simp only [List.drop_succ_cons, List.length_cons, List.length_drop]
          have : t.length + 1 - (t.length - n) = n + 1 := by omega
          rw [this]
        · simp only [List.length_drop, List.length_cons]; omega
        · rw [htok]
          congr 1
          cases n with
          | zero => simp [hc']
          | succ k =>
            cases t with
            | nil => simp at hn
            | cons d u => simp

/-- The loop of `tokenizePath` yields the tokens of the scanner, with any fuel that
covers the input. -/
theorem tokenizeLoop_spec : ∀ (fuel : Nat) (s : List Char), s.length ≤ fuel →
    (tokenizeLoop fuel s).map Prod.fst = Spec.tokensFrom 0 s := by
  intro fuel
  induction fuel with
  | zero =>
    intro s hs
    have : s = [] := List.length_eq_zero.1 (by omega)
    subst this
    rfl
  | succ f ih =>
    intro s hs
    rcases exec_spec s with ⟨h1, h2⟩ | ⟨m, rest, h1, h2, h3⟩
    · simp only [tokenizeLoop, h1, h2, List.map_nil]
    · simp only [tokenizeLoop, h1, h3, List.map_cons]
      rw [ih rest (by omega)]
      congr 1
      have hfst : ∀ (m : List Char) (k : Nat),
          (match m with
            | [c] => if c ∈ Encode.COMMANDS then ((⟨.command, String.mk m⟩ : Token), k)
                     else (⟨.float, String.mk m⟩, k)
            | _ => (⟨.float, String.mk m⟩, k)).1 =
          (match m with
            | [c] => if c ∈ Encode.COMMANDS then (⟨.command, String.mk m⟩ : Token)
                     else ⟨.float, String.mk m⟩
            | _ => ⟨.float, String.mk m⟩) := by
        intro m k
        cases m with
        | nil => rfl
        | cons c t =>
          cases t with
          | nil => by_cases h : c ∈ Encode.COMMANDS <;> simp [h]
          | cons d u => rfl
      exact hfst m _

open Host Encode Decode

/-- The search of `FLOAT_RE.exec` ends within as many steps as there are characters:
more fuel changes nothing. -/
theorem exec_fuel : ∀ (s : List Char) (fuel : Nat), s.length ≤ fuel →
    exec fuel s = exec s.length s := by
  intro s
  induction s with
  | nil => intro fuel _; cases fuel <;> rfl
  | cons c t ih =>
    intro fuel hf
    cases fuel with
    | zero => simp at hf
    | succ f =>
      have h1 : exec (f + 1) (c :: t) =
          match FLOAT_RE.matchAt (c :: t) with
          | some rest => some ((c :: t).take ((c :: t).length - rest.length), rest)
          | none => exec f t := rfl
      have h2 : exec (c :: t).length (c :: t) =
          match FLOAT_RE.matchAt (c :: t) with
          | some rest => some ((c :: t).take ((c :: t).length - rest.length), rest)
          | none => exec t.length t := rfl
      rw [h1, h2, ih f (by simpa using hf)]

/-- C16. Tokenizer: for every input string, `tokenizePath` (started fresh, and in fact
from any `lastIndex`) ends, with any fuel that covers the input, and yields in order
the successive non-overlapping leftmost matches of a command letter or of a greedy
numeric literal (optional sign, digits, optional fractional part, optional exponent): the
20 command letters are command tokens, every other match is a number token, and a
character that belongs to no match is skipped.  Numbers need no separator: `"1.5.5"`
yields exactly the number tokens `"1.5"` and `".5"`. -/
theorem C16_tokenizer :
    (∀ s : String, tokenizePath 0 s = Spec.tokens s) ∧
    (∀ (lastIndex : Nat) (s : String),
      tokenizePath lastIndex s = Spec.tokensFrom 0 (s.toList.drop lastIndex)) ∧
    (∀ (s : List Char) (fuel : Nat), s.length ≤ fuel →
      (tokenizeLoop fuel s).map Prod.fst = Spec.tokensFrom 0 s ∧
      exec fuel s = exec s.length s) ∧
    tokenizePath 0 "1.5.5" = [⟨.float, "1.5"⟩, ⟨.float, ".5"⟩] ∧
    tokenizePath 0 "M 10,-.5e2 #1.e5z" =
      [⟨.command, "M"⟩, ⟨.float, "10"⟩, ⟨.float, "-.5e2"⟩, ⟨.float, "1"⟩, ⟨.float, "5"⟩,
        ⟨.command, "z"⟩] := by
  refine ⟨?_, ?_, ?_, by decide!, by decide!⟩
  · intro s
    exact tokenizeLoop_spec _ _ (by simp)
  · intro lastIndex s
    exact tokenizeLoop_spec _ _ (le_refl _)
  · intro s fuel h
    exact ⟨tokenizeLoop_spec fuel s h, exec_fuel s fuel h⟩

/-- C16 at the characters of `"1.5.5"` with fuel 7. -/
theorem C16_tokenizer_witness :
    "1.5.5".toList.length ≤ 7 ∧
    (tokenizeLoop 7 "1.5.5".toList).map Prod.fst = Spec.tokensFrom 0 "1.5.5".toList ∧
    exec 7 "1.5.5".toList = exec "1.5.5".toList.length "1.5.5".toList :=
  ⟨by decide, C16_tokenizer.2.2.1 "1.5.5".toList 7 (by decide)⟩

open Host Encode Decode

/-! ## Number syntax -/

/-- With a command being accumulated, the grouping loop fails with the number-syntax
error exactly when the text of some number token parses to NaN. -/
theorem parseGroupedLoop_numberSyntax :
    ∀ (tokens : List Token) (c : Command),
      (parseGroupedLoop (some c) tokens).err = some .numberSyntax ↔
        ∃ tok ∈ tokens, tok.type = .float ∧ (parseFloat tok.value).isNaN = true := by
  intro tokens
  induction tokens with
  | nil => intro c; simp [parseGroupedLoop]
  | cons tok tokens ih =>
    intro c
    obtain ⟨ty, value⟩ := tok
    cases ty with
    | command =>
      simp only [parseGroupedLoop, Gen.cons]
      rw [ih]
      simp
    | float =>
      simp only [parseGroupedLoop]
      by_cases hn : (parseFloat value).isNaN = true
      · rw [if_pos hn]
        simp [hn]
      · rw [if_neg hn, ih]
        simp [hn]

/-- C17, as the claim states it, fails: `parseGroupedCommands` only rejects a text that
parses to NaN.  The text `"1e999"` parses to the infinite value, and `"M1e999 0"` is
grouped without error into the command M with the values Infinity and 0, which `encode`
stores as two float32 values (header `0x46`) and `decode` reads back. -/
theorem C17_number_syntax_counterexample :
    parseFloat "1e999" = .inf false ∧
    (parseFloat "1e999").isFinite = false ∧
    tokenizePath 0 "M1e999 0" = [⟨.command, "M"⟩, ⟨.float, "1e999"⟩, ⟨.float, "0"⟩] ∧
    parseGroupedCommands (tokenizePath 0 "M1e999 0") =
      ⟨[⟨"M", [.inf false, .fin false 0]⟩], none⟩ ∧
    encode 0 "M1e999 0" defaultOptions =
      ⟨[[0x46], [0x00, 0x00, 0x80, 0x7F, 0x00, 0x00, 0x00, 0x00]], none⟩ ∧
    decodeAll [0x46, 0x00, 0x00, 0x80, 0x7F, 0x00, 0x00, 0x00, 0x00] (JSNum.ofInt 1) =
      ⟨[⟨"M", [.inf false, .fin false 0]⟩], none⟩ := by
  decide!

/-- C17, amended.  `NumberSyntax`: for every token sequence, `parseGroupedCommands` fails
with the number-syntax error if and only if the first token is a command token and the
text of some number token parses to NaN (not a number); it then yields the commands
completed before that token.  A text that parses to an infinite value is not rejected:
the value is stored. -/
theorem C17_number_syntax_amended :
    (∀ tokens : List Token,
      (parseGroupedCommands tokens).err = some .numberSyntax ↔
        ∃ value rest, tokens = ⟨.command, value⟩ :: rest ∧
          ∃ tok ∈ rest, tok.type = .float ∧ (parseFloat tok.value).isNaN = true) ∧
    (∀ (c : Command) (value : String) (tokens : List Token),
      parseGroupedLoop (some c) (⟨.float, value⟩ :: tokens) =
        if (parseFloat value).isNaN then ⟨[], some .numberSyntax⟩
        else parseGroupedLoop (some ⟨c.type, c.values ++ [parseFloat value]⟩) tokens) ∧
    (parseFloat "1e999").isNaN = false ∧
    (parseFloat "x").isNaN = true ∧
    parseGroupedCommands [⟨.command, "M"⟩, ⟨.float, "1e999"⟩, ⟨.float, "0"⟩] =
      ⟨[⟨"M", [.inf false, .fin false 0]⟩], none⟩ ∧
    parseGroupedCommands [⟨.command, "M"⟩, ⟨.float, "1"⟩, ⟨.command, "L"⟩, ⟨.float, "x"⟩] =
      ⟨[⟨"M", [JSNum.ofInt 1]⟩], some .numberSyntax⟩ := by
  refine ⟨?_, fun c value tokens => rfl, by decide!, by decide!, by decide!, by decide!⟩
  intro tokens
  cases tokens with
  | nil => simp [parseGroupedCommands, parseGroupedLoop]
  | cons tok rest =>
    obtain ⟨ty, value⟩ := tok
    cases ty with
    | float => simp [parseGroupedCommands, parseGroupedLoop]
    | command =>
      simp only [parseGroupedCommands, parseGroupedLoop]
      rw [parseGroupedLoop_numberSyntax]
      constructor
      · intro h
        exact ⟨value, rest, rfl, h⟩
      · rintro ⟨v, r, heq, h⟩
        simp only [List.cons.injEq, Token.mk.injEq, true_and] at heq
        rw [heq.2]
        exact h

open Host Encode Decode

/-! ## Widths the encoder selects -/

/-- A table lookup written as a chain of tests stays in a list that holds every entry. -/
theorem getD_ite_mem {p : Prop} [Decidable p] (a : Nat) (rest : Option Nat) (l : List Nat)
    (ha : a ∈ l) (hr : rest.getD 0 ∈ l) : (if p then some a else rest).getD 0 ∈ l := by
  by_cases h : p
  · rw [if_pos h]; exact ha
  · rw [if_neg h]; exact hr

/-- The entries of `COMMAND_MASK` are multiples of 16 below 256. -/
theorem COMMAND_MASK_mem (key : String) :
    (COMMAND_MASK key).getD 0 ∈ (List.range 16).map (fun i => 16 * i) := by
  unfold COMMAND_MASK
  repeat (refine getD_ite_mem _ _ _ (by decide) ?_)
  decide

/-- The header value of any type string is a multiple of 8 below 256. -/
theorem commandMask_mem (ty : String) :
    commandMask ty ∈ (List.range 32).map (fun i => 8 * i) := by
  have h : ∀ m ∈ (List.range 16).map (fun i => 16 * i),
      m ||| 0b1000 ∈ (List.range 32).map (fun i => 8 * i) ∧
      m ∈ (List.range 32).map (fun i => 8 * i) := by decide
  have hm := h _ (COMMAND_MASK_mem (toUpperCase ty))
  unfold commandMask
  by_cases hl : ty = toLowerCase ty
  · rw [if_pos hl]; exact hm.1
  · rw [if_neg hl]; exact hm.2

/-- The low three bits of a header are the code of the storage type. -/
theorem header_width (ty : String) (t : StorageType) :
    (commandMask ty ||| TYPE_MASK t) % 256 % 8 = Spec.widthCode t ∧
    commandMask ty % 256 % 8 = 0 := by
  have h : ∀ m ∈ (List.range 32).map (fun i => 8 * i), ∀ t ∈ Spec.storageTypes,
      (m ||| TYPE_MASK t) % 256 % 8 = Spec.widthCode t ∧ m % 256 % 8 = 0 := by decide
  exact h _ (commandMask_mem ty) t (mem_storageTypes t)

/-- `Math.round` returns an integral Number as it is. -/
theorem JSNum.round_of_integral (x : JSNum) (h : x.isIntegral = true) : x.round = x := by
  cases x with
  | nan => rfl
  | inf s => rfl
  | fin s n =>
    unfold JSNum.round
    simp only [h, if_true]

/-- The record of a command whose rounded values pass the tolerance test and all fit
signed-8. -/
theorem encodeCommand_int8 (c : Command) (o : Options) (hne : c.values ≠ [])
    (htol : numberArrayEquals (scaledValues c.values o.factor)
      ((scaledValues c.values o.factor).map JSNum.round)
      (o.permissibleError.mul o.factor) = true)
    (h8 : ((scaledValues c.values o.factor).map JSNum.round).all IS_INT8 = true) :
    encodeCommand c o =
      [headerChunk (commandMask c.type ||| TYPE_MASK .int8),
        int8Bytes ((scaledValues c.values o.factor).map JSNum.round)] := by
  have hlen : ¬ (c.values.length = 0) := fun h => hne (List.length_eq_zero.1 h)
  unfold encodeCommand
  simp only [hlen, if_false, htol, if_true]
  unfold integerChunks
  rw [if_pos h8]

/-- C18. Width bound for small integers: for every command with a single value that is
an integer in the signed-8 range `[-128, 127]`, with factor 1 and no permissible error,
`encodeCommand` emits a header and a payload that is never wider than signed-16: at
most 2 bytes.  In fact the width is signed-8 (code 0) and the payload is the one byte of
the value. -/
theorem C18_small_integer_width (ty : String) (x : JSNum) (hfin : x.isFinite = true)
    (hint : x.isIntegral = true) (hlo : (-128 : ℚ) ≤ x.toRat) (hhi : x.toRat ≤ 127) :
    ∃ hd payload, encodeCommand ⟨ty, [x]⟩ defaultOptions = [[hd], payload] ∧
      (hd % 8 = Spec.widthCode .int8 ∨ hd % 8 = Spec.widthCode .int16) ∧
      payload.length ≤ Spec.width .int16 ∧ Spec.width .int16 = 2 ∧
      hd % 8 = Spec.widthCode .int8 ∧ payload = int8Bytes [x] ∧ payload.length = 1 := by
  have hf : defaultOptions.factor = JSNum.ofInt 1 := rfl
  have he : defaultOptions.permissibleError.mul defaultOptions.factor = .fin false 0 :=
    error_default
  have hnan : x.isNaN = false := by
    cases x with
    | nan => simp [JSNum.isFinite] at hfin
    | inf s => rfl
    | fin s n => rfl
  have hs : scaledValues (⟨ty, [x]⟩ : Command).values defaultOptions.factor = [x] := by
    rw [hf, scaledValues_one]
  have hr : ([x] : List JSNum).map JSNum.round = [x] := by
    simp [JSNum.round_of_integral x hint]
  have h8 : IS_INT8 x = true := (IS_INT8_iff x).2 ⟨hfin, hlo, by linarith⟩
  have henc := encodeCommand_int8 ⟨ty, [x]⟩ defaultOptions (by simp)
    (by
      rw [hs, hr, he]
      simp [numberArrayEquals, closeEnough_zero, JSNum.strictEq_refl x hnan])
    (by rw [hs, hr]; simp [h8])
  rw [hs, hr] at henc
  have hw := (header_width ty .int8).1
  have hlen : (int8Bytes [x]).length = 1 := by
    simp [int8Bytes, leBytes_length]
  refine ⟨(commandMask ty ||| TYPE_MASK .int8) % 256, int8Bytes [x], henc, Or.inl hw, ?_, rfl,
    hw, rfl, hlen⟩
  rw [hlen]
  decide

/-- C18 at `H -128`: the record is the header `0x10` and the byte `0x80`. -/
theorem C18_small_integer_width_witness :
    ((JSNum.ofInt (-128)).isFinite = true ∧ (JSNum.ofInt (-128)).isIntegral = true) ∧
    encodeCommand ⟨"H", [JSNum.ofInt (-128)]⟩ defaultOptions = [[0x10], [0x80]] ∧
    ∃ hd payload, encodeCommand ⟨"H", [JSNum.ofInt (-128)]⟩ defaultOptions = [[hd], payload] ∧
      (hd % 8 = Spec.widthCode .int8 ∨ hd % 8 = Spec.widthCode .int16) ∧
      payload.length ≤ Spec.width .int16 ∧ Spec.width .int16 = 2 ∧
      hd % 8 = Spec.widthCode .int8 ∧ payload = int8Bytes [JSNum.ofInt (-128)] ∧
      payload.length = 1 :=
  ⟨by decide!, by decide!,
    C18_small_integer_width "H" (JSNum.ofInt (-128)) (by decide!) (by decide!)
      (by rw [JSNum.toRat_ofInt (-128) (by norm_num)]; norm_num)
      (by rw [JSNum.toRat_ofInt (-128) (by norm_num)]; norm_num)⟩

open Host Encode Decode

/-- C19. Decoding distributes over concatenation: for all byte sequences `a` and `b` and
every factor, if `decode` of `a` succeeds, then decoding `a` followed by `b` yields the
commands of `a` followed by the outcome of decoding `b`: its commands, and its error if
it fails.  Hence a stream that is a concatenation of whole records, without padding,
decodes without error to the concatenation of the commands of its records, one command
per record. -/
theorem C19_decode_concatenation (a b : List Nat) (factor : JSNum)
    (h : (decodeAll a factor).err = none) :
    decodeAll (a ++ b) factor = Gen.append (decodeAll a factor).items (decodeAll b factor) ∧
    (decodeAll (a ++ b) factor).items = (decodeAll a factor).items ++ (decodeAll b factor).items ∧
    (decodeAll (a ++ b) factor).err = (decodeAll b factor).err ∧
    (∀ records : List (List Nat), (∀ r ∈ records, Spec.isWholeRecord r = true) →
      decodeAll records.flatten factor =
        ⟨records.flatMap (fun r => (decodeAll r factor).items), none⟩ ∧
      (decodeAll records.flatten factor).items.length = records.length) := by
  have main : decodeAll (a ++ b) factor =
      Gen.append (decodeAll a factor).items (decodeAll b factor) := by
    obtain ⟨records, ha, hw⟩ := (decodeAll_cases factor a).1.1 h
    obtain ⟨cs, _, hcs⟩ := decodeAll_wholes factor records hw
    have h0 := hcs []
    rw [List.append_nil, decodeAll_nil] at h0
    rw [ha, hcs b, h0]
    simp [Gen.append]
  refine ⟨main, by rw [main]; rfl, by rw [main]; rfl, ?_⟩
  intro records
  induction records with
  | nil => intro _; exact ⟨rfl, rfl⟩
  | cons r rs ih =>
    intro hw
    obtain ⟨c, hc⟩ := decodeAll_whole factor r (hw r (List.mem_cons_self _ _))
    obtain ⟨ih1, ih2⟩ := ih (fun r' hr' => hw r' (List.mem_cons_of_mem _ hr'))
    have hr := hc []
    rw [List.append_nil, decodeAll_nil] at hr
    have hitems : (decodeAll r factor).items = [c] := by rw [hr]; rfl
    have hflat : decodeAll (r :: rs).flatten factor =
        ⟨(r :: rs).flatMap (fun r => (decodeAll r factor).items), none⟩ := by
      rw [List.flatten_cons, hc, ih1, List.flatMap_cons, hitems]
      rfl
    refine ⟨hflat, ?_⟩
    rw [hflat]
    rw [ih1] at ih2
    simp only [List.flatMap_cons, hitems, List.length_append, List.length_cons,
      List.length_nil] at ih2 ⊢
    omega

/-- C19 at the record `40 01 01` (M 1 1) followed by the record `F0` (Z). -/
theorem C19_decode_concatenation_witness :
    (decodeAll [0x40, 1, 1] (JSNum.ofInt 1)).err = none ∧
    decodeAll ([0x40, 1, 1] ++ [0xF0]) (JSNum.ofInt 1) =
      Gen.append (decodeAll [0x40, 1, 1] (JSNum.ofInt 1)).items
        (decodeAll [0xF0] (JSNum.ofInt 1)) :=
  ⟨by decide!, (C19_decode_concatenation [0x40, 1, 1] [0xF0] (JSNum.ofInt 1) (by decide!)).1⟩

open Host Encode Decode

/-- A value that passes the unsigned-8 test passes the signed-16 test. -/
theorem IS_UINT8_INT16 (x : JSNum) (h : IS_UINT8 x = true) : IS_INT16 x = true := by
  obtain ⟨h1, h2, h3⟩ := (IS_UINT8_iff x).1 h
  exact (IS_INT16_iff x).2 ⟨h1, by linarith, by linarith⟩

/-- A value that passes the unsigned-16 test passes the signed-32 test. -/
theorem IS_UINT16_INT32 (x : JSNum) (h : IS_UINT16 x = true) : IS_INT32 x = true := by
  obtain ⟨h1, h2, h3⟩ := (IS_UINT16_iff x).1 h
  exact (IS_INT32_iff x).2 ⟨h1, by linarith, by linarith⟩

theorem all_UINT8_INT16 (ints : List JSNum) (h : ints.all IS_UINT8 = true) :
    ints.all IS_INT16 = true := by
  rw [List.all_eq_true] at h ⊢
  exact fun x hx => IS_UINT8_INT16 x (h x hx)

theorem all_UINT16_INT32 (ints : List JSNum) (h : ints.all IS_UINT16 = true) :
    ints.all IS_INT32 = true := by
  rw [List.all_eq_true] at h ⊢
  exact fun x hx => IS_UINT16_INT32 x (h x hx)

/-- The integer block of `encodeCommand` only ever selects signed-8, signed-16,
signed-32 or unsigned-32; it selects unsigned-32 when every value passes the unsigned-32
test and some value fails the signed-32 test. -/
theorem integerChunks_reachable (mask : Nat) (ints : List JSNum) (chunks : List (List Nat))
    (h : integerChunks mask ints = some chunks) :
    ∃ t payload, chunks = [headerChunk (mask ||| TYPE_MASK t), payload] ∧
      (t = .int8 ∨ t = .int16 ∨ t = .int32 ∨ t = .uint32) ∧
      (t = .uint32 → ints.all IS_UINT32 = true ∧ ints.all IS_INT32 = false) := by
  unfold integerChunks at h
  by_cases c1 : ints.all IS_INT8 = true
  · rw [if_pos c1] at h
    cases h
    exact ⟨.int8, _, rfl, Or.inl rfl, fun hc => by cases hc⟩
  · rw [if_neg c1] at h
    by_cases c2 : ints.all IS_INT16 = true
    · rw [if_pos c2] at h
      cases h
      exact ⟨.int16, _, rfl, Or.inr (Or.inl rfl), fun hc => by cases hc⟩
    · rw [if_neg c2] at h
      by_cases c3 : ints.all IS_INT32 = true
      · rw [if_pos c3] at h
        cases h
        exact ⟨.int32, _, rfl, Or.inr (Or.inr (Or.inl rfl)), fun hc => by cases hc⟩
      · rw [if_neg c3] at h
        have c4 : ¬ ints.all IS_UINT8 = true := fun hc => c2 (all_UINT8_INT16 ints hc)
        have c5 : ¬ ints.all IS_UINT16 = true := fun hc => c3 (all_UINT16_INT32 ints hc)
        rw [if_neg c4, if_neg c5] at h
        by_cases c6 : ints.all IS_UINT32 = true
        · rw [if_pos c6] at h
          cases h
          refine ⟨.uint32, _, rfl, Or.inr (Or.inr (Or.inr rfl)), fun _ => ⟨c6, ?_⟩⟩
          simpa using c3
        · rw [if_neg c6] at h
          cases h

/-- C20. Unreachable unsigned narrow widths: for every command and all options, the
header emitted by `encodeCommand` never carries the width code of unsigned-8 (1) or of
unsigned-16 (3), because every list of values that fits unsigned-8 fits signed-16 and
every list that fits unsigned-16 fits signed-32, which are probed earlier.  The only
unsigned width that is emitted is unsigned-32 (5), and only when all rounded scaled
values are non-negative and at least one is at least `2^31`. -/
theorem C20_unsigned_narrow_unreachable (c : Command) (o : Options) :
    (∃ hd rest, encodeCommand c o = [hd] :: rest ∧
      hd % 8 ≠ Spec.widthCode .uint8 ∧ hd % 8 ≠ Spec.widthCode .uint16 ∧
      (hd % 8 = Spec.widthCode .uint32 →
        (∀ x ∈ (scaledValues c.values o.factor).map JSNum.round,
          x.isFinite = true ∧ 0 ≤ x.toRat) ∧
        ∃ x ∈ (scaledValues c.values o.factor).map JSNum.round,
          (2147483648 : ℚ) ≤ x.toRat)) ∧
    (∀ ints : List JSNum,
      (ints.all IS_UINT8 = true → ints.all IS_INT16 = true) ∧
      (ints.all IS_UINT16 = true → ints.all IS_INT32 = true)) := by
  refine ⟨?_, fun ints => ⟨all_UINT8_INT16 ints, all_UINT16_INT32 ints⟩⟩
  by_cases hnil : c.values.length = 0
  · have hw := (header_width c.type .int8).2
    refine ⟨commandMask c.type % 256, [], ?_, ?_, ?_, ?_⟩
    · unfold encodeCommand
      rw [if_pos hnil]
      rfl
    · rw [hw]; decide
    · rw [hw]; decide
    · rw [hw]; intro h; exact absurd h (by decide)
  · have hfloat : ∀ floats error, ∃ t payload,
        floatChunks (commandMask c.type) floats error =
          [headerChunk (commandMask c.type ||| TYPE_MASK t), payload] ∧
        (t = .float32 ∨ t = .float64) := by
      intro floats error
      unfold floatChunks
      split_ifs
      · exact ⟨.float32, _, rfl, Or.inl rfl⟩
      · exact ⟨.float64, _, rfl, Or.inr rfl⟩
    have hsel : ∃ t payload, encodeCommand c o =
          [headerChunk (commandMask c.type ||| TYPE_MASK t), payload] ∧
        (t = .int8 ∨ t = .int16 ∨ t = .int32 ∨ t = .uint32 ∨ t = .float32 ∨ t = .float64) ∧
        (t = .uint32 →
          ((scaledValues c.values o.factor).map JSNum.round).all IS_UINT32 = true ∧
          ((scaledValues c.values o.factor).map JSNum.round).all IS_INT32 = false) := by
      unfold encodeCommand
      rw [if_neg hnil]
      by_cases htol : numberArrayEquals (scaledValues c.values o.factor)
          ((scaledValues c.values o.factor).map JSNum.round)
          (o.permissibleError.mul o.factor) = true
      · rw [if_pos htol]
        cases hic : integerChunks (commandMask c.type)
            ((scaledValues c.values o.factor).map JSNum.round) with
        | none =>
          obtain ⟨t, payload, h1, h2⟩ := hfloat (scaledValues c.values o.factor)
            (o.permissibleError.mul o.factor)
          refine ⟨t, payload, h1, ?_, ?_⟩
          · rcases h2 with h | h <;> simp [h]
          · intro hu; rcases h2 with h | h <;> rw [h] at hu <;> cases hu
        | some chunks =>
          obtain ⟨t, payload, h1, h2, h3⟩ := integerChunks_reachable _ _ _ hic
          refine ⟨t, payload, h1, ?_, h3⟩
          rcases h2 with h | h | h | h <;> simp [h]
      · rw [if_neg htol]
        obtain ⟨t, payload, h1, h2⟩ := hfloat (scaledValues c.values o.factor)
          (o.permissibleError.mul o.factor)
        refine ⟨t, payload, h1, ?_, ?_⟩
        · rcases h2 with h | h <;> simp [h]
        · intro hu; rcases h2 with h | h <;> rw [h] at hu <;> cases hu
    obtain ⟨t, payload, henc, ht, hu⟩ := hsel
    have hw := (header_width c.type t).1
    refine ⟨(commandMask c.type ||| TYPE_MASK t) % 256, [payload], henc, ?_, ?_, ?_⟩
    · rw [hw]
      rcases ht with h | h | h | h | h | h <;> rw [h] <;> decide
    · rw [hw]
      rcases ht with h | h | h | h | h | h <;> rw [h] <;> decide
    · rw [hw]
      intro h5
      have htu : t = .uint32 := by
        rcases ht with h | h | h | h | h | h <;> rw [h] at h5 ⊢ <;>
          first | rfl | exact absurd h5 (by decide)
      obtain ⟨hall, hnot⟩ := hu htu
      rw [List.all_eq_true] at hall
      constructor
      · intro x hx
        obtain ⟨h1, h2, _⟩ := (IS_UINT32_iff x).1 (hall x hx)
        exact ⟨h1, h2⟩
      · have hex : ∃ x ∈ (scaledValues c.values o.factor).map JSNum.round,
            IS_INT32 x = false := by
          by_contra hcon
          have : ((scaledValues c.values o.factor).map JSNum.round).all IS_INT32 = true := by
            rw [List.all_eq_true]
            intro x hx
            cases hx32 : IS_INT32 x with
            | true => rfl
            | false => exact absurd ⟨x, hx, hx32⟩ hcon
          rw [this] at hnot
          cases hnot
        obtain ⟨x, hx, hx32⟩ := hex
        refine ⟨x, hx, ?_⟩
        obtain ⟨h1, h2, _⟩ := (IS_UINT32_iff x).1 (hall x hx)
        by_contra hlt
        have : IS_INT32 x = true :=
          (IS_INT32_iff x).2 ⟨h1, by linarith, lt_of_not_le hlt⟩
        rw [this] at hx32
        cases hx32

/-- C20 at `H 3000000000`: the record is the header `0x15` (unsigned-32) and the four
bytes of the value, which is at least `2^31`. -/
theorem C20_unsigned_narrow_unreachable_witness :
    encodeCommand ⟨"H", [JSNum.ofInt 3000000000]⟩ defaultOptions =
      [[0x15], [0x00, 0x5E, 0xD0, 0xB2]] ∧
    encodeCommand ⟨"H", [JSNum.ofInt 200]⟩ defaultOptions = [[0x12], [0xC8, 0x00]] ∧
    encodeCommand ⟨"H", [JSNum.ofInt 40000]⟩ defaultOptions =
      [[0x14], [0x40, 0x9C, 0x00, 0x00]] ∧
    ∃ hd rest, encodeCommand ⟨"H", [JSNum.ofInt 3000000000]⟩ defaultOptions = [hd] :: rest ∧
      hd % 8 ≠ Spec.widthCode .uint8 ∧ hd % 8 ≠ Spec.widthCode .uint16 ∧
      (hd % 8 = Spec.widthCode .uint32 →
        (∀ x ∈ (scaledValues [JSNum.ofInt 3000000000] defaultOptions.factor).map JSNum.round,
          x.isFinite = true ∧ 0 ≤ x.toRat) ∧
        ∃ x ∈ (scaledValues [JSNum.ofInt 3000000000] defaultOptions.factor).map JSNum.round,
          (2147483648 : ℚ) ≤ x.toRat) :=
  ⟨by decide!, by decide!, by decide!,
    (C20_unsigned_narrow_unreachable ⟨"H", [JSNum.ofInt 3000000000]⟩ defaultOptions).1⟩
